import Mathlib

/-!
# alngap: coverage intervals, reciprocal-best selection and gap boxes

A shallow embedding of `src/alngap.c`, and of the interval check and the
coordinate rewrite of `src/alnfill.c`.  C `int` and `int64` values are
embedded as `Int`.  Where a result can leave the machine range on values the
program can hold, it is reduced with `toInt32` or `toInt64`: the conversion of
a 64-bit coordinate to a 32-bit parameter, the overlap lengths and their sum,
the area of a box, and the sums of the harness.  The other sums and
differences, on coordinates below `2^32` and `int` options, stay inside
`int64` and are exact.  Arrays are lists; an index of type `int` is an `Int`.
-/

namespace Alngap

/-! ## Data model -/

/-- A stored interval of a coverage set: `range_t` of `alngap.c`, the field
`end` being written `end_`. -/
structure range_t where
  beg : Int
  end_ : Int
deriving DecidableEq, Repr

/-- The growable array `kvec_t(range_t)`: its `n` live elements. -/
abbrev rangeset_t := List range_t

/-- An alignment record, `aln_t` of `alngap.c`. -/
structure aln_t where
  aread : Int
  bread : Int
  abpos : Int
  aepos : Int
  bbpos : Int
  bepos : Int
  mlen : Int
deriving DecidableEq, Repr

/-- The C macro `MAX(x, y) = (x > y) ? x : y`. -/
def MAX (x y : Int) : Int := if x > y then x else y

/-- The C macro `MIN(x, y) = (x < y) ? x : y`. -/
def MIN (x y : Int) : Int := if x < y then x else y

/-- Array read `ranges[i]` for an `int` index; outside the live elements the
read yields the zero interval. -/
def rget (ranges : List range_t) (i : Int) : range_t :=
  if i < 0 then ⟨0, 0⟩ else ranges.getD i.toNat ⟨0, 0⟩

/-- Comparison `x < n` of an `int` with the `size_t` element count: the
`int` is converted to unsigned, so a negative `x` compares above every
count. -/
def sizeLt (x : Int) (n : Nat) : Bool := decide (0 ≤ x ∧ x < (n : Int))

/-- The value of a C `int` for the mathematical result `x`: reduction modulo
`2^32` into `[-2^31, 2^31)`.  This is what the conversion of an `int64`
coordinate to an `int` parameter gives, and what `int` arithmetic gives when
the exact result leaves the range. -/
def toInt32 (x : Int) : Int := (x + 2147483648) % 4294967296 - 2147483648

/-- The value of an `int64` for the mathematical result `x`: reduction modulo
`2^64` into `[-2^63, 2^63)`. -/
def toInt64 (x : Int) : Int :=
  (x + 9223372036854775808) % 18446744073709551616 - 9223372036854775808

/-! ## RangeSet -/

/-- Length of the intersection of `[b1, e1)` and `[b2, e2)`, the difference
`min - max` being computed in `int`. -/
def overlap (b1 e1 b2 e2 : Int) : Int :=
  let max := MAX b1 b2
  let min := MIN e1 e2
  if max < min then toInt32 (min - max) else 0

/-- The `while (low <= high)` loop of `find_last_small`; one unit of fuel
per iteration. -/
def find_last_small_loop (ranges : List range_t) (val : Int) :
    Nat → Int → Int → Int → Int
  | 0, _, _, res => res
  | fuel + 1, low, high, res =>
    if low ≤ high then
      let mid := low + (high - low) / 2
      if (rget ranges mid).end_ < val then
        find_last_small_loop ranges val fuel (mid + 1) high mid
      else
        find_last_small_loop ranges val fuel low (mid - 1) res
    else res

/-- Binary search `find_last_small(ranges, n, val)`.  The search interval
has `n` elements and shrinks in every iteration, so `n` units of fuel let
the loop run to its exit. -/
def find_last_small (ranges : List range_t) (n : Int) (val : Int) : Int :=
  find_last_small_loop ranges val n.toNat 0 (n - 1) (-1)

/-- The `while (low <= high)` loop of `find_first_large`. -/
def find_first_large_loop (ranges : List range_t) (val : Int) :
    Nat → Int → Int → Int → Int
  | 0, _, _, res => res
  | fuel + 1, low, high, res =>
    if low ≤ high then
      let mid := low + (high - low) / 2
      if (rget ranges mid).beg > val then
        find_first_large_loop ranges val fuel low (mid - 1) mid
      else
        find_first_large_loop ranges val fuel (mid + 1) high res
    else res

/-- Binary search `find_first_large(ranges, n, val)`. -/
def find_first_large (ranges : List range_t) (n : Int) (val : Int) : Int :=
  find_first_large_loop ranges val n.toNat 0 (n - 1) n

/-- The loop `while (++b < e) o += overlap(a[b].beg, a[b].end, beg, end)`, the
sum `o` being an `int`. -/
def overlap_loop (spans : rangeset_t) (beg end_ : Int) :
    Nat → Int → Int → Int → Int
  | 0, _, _, o => o
  | fuel + 1, b, e, o =>
    if b + 1 < e then
      overlap_loop spans beg end_ fuel (b + 1) e
        (toInt32 (o + overlap (rget spans (b + 1)).beg (rget spans (b + 1)).end_ beg end_))
    else o

/-- The function `rangeset_overlap(spans, beg, end, &b, &e)`: the result is
`(o, b, e)`, the overlap returned and the two boundary indices written. -/
def rangeset_overlap (spans : rangeset_t) (beg end_ : Int) : Int × Int × Int :=
  let n : Int := spans.length
  if beg ≥ end_ ∨ spans.length = 0 then (0, -1, n)
  else
    let b := find_last_small spans n beg
    let e := find_first_large spans n end_
    (overlap_loop spans beg end_ (spans.length + 1) b e 0, b, e)

/-- The function `rangeset_add(spans, beg, end, b, e)`: the new live
elements.  When `spans->n > e` (an unsigned comparison) the `memmove` copies
the `n - e` elements at `e` to position `b + 2`; then slot `b + 1` is stored
and the count becomes `nels`. -/
def rangeset_add (spans : rangeset_t) (beg end_ b e : Int) : rangeset_t :=
  if beg ≥ end_ then spans
  else
    let n : Int := spans.length
    let nels := n + b - e + 2
    let beg1 := if sizeLt (b + 1) spans.length then MIN (rget spans (b + 1)).beg beg else beg
    let end1 := if sizeLt (e - 1) spans.length then MAX (rget spans (e - 1)).end_ end_ else end_
    let moved : Int → range_t := fun i =>
      if sizeLt e spans.length = true ∧ b + 2 ≤ i ∧ i < b + 2 + (n - e) then
        rget spans (i - (b + 2) + e)
      else rget spans i
    let stored : Int → range_t := fun i =>
      if i = b + 1 then ⟨beg1, end1⟩ else moved i
    (List.range nels.toNat).map (fun (i : Nat) => stored (Int.ofNat i))

/-- One insertion as the filter performs it: query, then add with the
indices the query returned. -/
def rangeset_insert (spans : rangeset_t) (beg end_ : Int) : rangeset_t :=
  let r := rangeset_overlap spans beg end_
  rangeset_add spans beg end_ r.2.1 r.2.2

/-- The RangeSet invariant: every stored interval is non-empty and each one
ends strictly before the next begins. -/
def rangeset_inv (a : rangeset_t) : Prop :=
  (∀ r ∈ a, r.beg < r.end_) ∧ a.Chain' (fun x y => x.end_ < y.beg)

/-- Decision procedure for the ordering half of the invariant. -/
def decChainRanges : (a : rangeset_t) → Decidable (a.Chain' (fun x y => x.end_ < y.beg))
  | [] => isTrue List.chain'_nil
  | [x] => isTrue (List.chain'_singleton x)
  | x :: y :: l =>
    @decidable_of_iff _ (x.end_ < y.beg ∧ (y :: l).Chain' (fun x y => x.end_ < y.beg))
      ⟨fun h => List.chain'_cons.2 h, fun h => List.chain'_cons.1 h⟩
      (@instDecidableAnd _ _ _ (decChainRanges (y :: l)))

instance (a : rangeset_t) : Decidable (rangeset_inv a) :=
  @instDecidableAnd _ _ _ (decChainRanges a)

/-- Position `x` lies in one of the stored intervals. -/
def covered (a : rangeset_t) (x : Int) : Prop := ∃ r ∈ a, r.beg ≤ x ∧ x < r.end_

instance (a : rangeset_t) (x : Int) : Decidable (covered a x) := by
  unfold covered; infer_instance

/-- The interval that `rangeset_add` stores in slot `b + 1`. -/
def merged (a : rangeset_t) (beg end_ b e : Int) : range_t :=
  ⟨if sizeLt (b + 1) a.length then MIN (rget a (b + 1)).beg beg else beg,
   if sizeLt (e - 1) a.length then MAX (rget a (e - 1)).end_ end_ else end_⟩

/-- The stored intervals strictly between the boundary indices `b` and `e`:
those at indices `b + 1 .. e - 1`. -/
def spanned (a : rangeset_t) (b e : Int) : List range_t :=
  (a.take e.toNat).drop (b + 1).toNat

/-- What the two boundary indices returned by `rangeset_overlap` mean. -/
structure Bounds (a : rangeset_t) (beg end_ b e : Int) : Prop where
  hb : -1 ≤ b
  hbe : b < e
  he : e ≤ a.length
  left : ∀ i, 0 ≤ i → i ≤ b → (rget a i).end_ < beg
  mid_end : ∀ i, b < i → i < a.length → beg ≤ (rget a i).end_
  mid_beg : ∀ i, 0 ≤ i → i < e → (rget a i).beg ≤ end_
  right : ∀ i, e ≤ i → i < a.length → end_ < (rget a i).beg

/-! ## Reciprocal-best selection -/

/-- The comparator `MORDER`: `(x < y) - (x > y)` on the scores, so that
`qsort` puts higher scores first. -/
def MORDER (a b : aln_t) : Int :=
  (if a.mlen < b.mlen then 1 else 0) - (if a.mlen > b.mlen then 1 else 0)

/-- What `qsort(base, n, size, cmp)` guarantees: the array afterwards is a
rearrangement of the array before in which no element compares greater than
a later one.  The order of elements that compare equal is not determined. -/
def qsort_result (cmp : aln_t → aln_t → Int) (before after : List aln_t) : Prop :=
  after.Perm before ∧ after.Pairwise (fun x y => cmp x y ≤ 0)

/-- The test `o <= mo` with `mo = mlen * max_cov`.  The `double` parameter
`max_cov` is embedded as a rational and the product is exact; the test is
evaluated with the denominator cleared.  For `max_cov = 0.5` and for every
integer value, the values `main` passes, the `double` comparison gives this
result. -/
def le_cov (o mlen : Int) (max_cov : ℚ) : Bool :=
  decide (o * (max_cov.den : Int) ≤ mlen * max_cov.num)

/-- The default `max_cov = 0.5`. -/
def half : ℚ := ⟨1, 2, by decide, by decide⟩

/-- State of the selection loop of `reciprocal_best_aligns`: the coverage
sets `q_span[id]` and `t_span[id]`, the part of the array already visited and
the counter `n_rec`. -/
structure rba_state where
  q_span : Int → rangeset_t
  t_span : Int → rangeset_t
  alns : List aln_t
  n_rec : Int

/-- The state before the loop: every coverage set empty (`calloc`). -/
def rba_init : rba_state := ⟨fun _ => [], fun _ => [], [], 0⟩

/-- The test `qo <= mo && to <= mo` of the loop body for record `aln`. -/
def rba_accepts (max_cov : ℚ) (st : rba_state) (aln : aln_t) : Bool :=
  let q := rangeset_overlap (st.q_span aln.aread) (toInt32 aln.abpos) (toInt32 aln.aepos)
  let t := rangeset_overlap (st.t_span aln.bread) (toInt32 aln.bbpos) (toInt32 aln.bepos)
  le_cov q.1 aln.mlen max_cov && le_cov t.1 aln.mlen max_cov

/-- One iteration of the selection loop. -/
def rba_step (max_cov : ℚ) (st : rba_state) (aln : aln_t) : rba_state :=
  let q := rangeset_overlap (st.q_span aln.aread) (toInt32 aln.abpos) (toInt32 aln.aepos)
  let t := rangeset_overlap (st.t_span aln.bread) (toInt32 aln.bbpos) (toInt32 aln.bepos)
  if le_cov q.1 aln.mlen max_cov && le_cov t.1 aln.mlen max_cov then
    ⟨Function.update st.q_span aln.aread
        (rangeset_add (st.q_span aln.aread) (toInt32 aln.abpos) (toInt32 aln.aepos) q.2.1 q.2.2),
      Function.update st.t_span aln.bread
        (rangeset_add (st.t_span aln.bread) (toInt32 aln.bbpos) (toInt32 aln.bepos) t.2.1 t.2.2),
      st.alns ++ [aln], st.n_rec + 1⟩
  else
    ⟨st.q_span, st.t_span,
      st.alns ++ [⟨aln.aread, aln.bread, aln.abpos, aln.aepos, aln.bbpos, aln.bepos, 0⟩],
      st.n_rec⟩

/-- The selection loop over the array `alns` (the array after the sort). -/
def rba_loop (max_cov : ℚ) (alns : List aln_t) : rba_state :=
  alns.foldl (rba_step max_cov) rba_init

/-- The function `reciprocal_best_aligns` on the array `sorted` that `qsort`
with `MORDER` left: the selection loop, then the compaction that keeps the
records with `mlen > 0`. -/
def reciprocal_best_aligns (sorted : List aln_t) (max_cov : ℚ) : List aln_t :=
  (rba_loop max_cov sorted).alns.filter (fun a => decide (a.mlen > 0))

/-- The records of `alns` that the selection loop accepts, in visiting order,
the loop being in state `st` before the first of them. -/
def rba_accepted_from (max_cov : ℚ) : rba_state → List aln_t → List aln_t
  | _, [] => []
  | st, r :: rest =>
    if rba_accepts max_cov st r then r :: rba_accepted_from max_cov (rba_step max_cov st r) rest
    else rba_accepted_from max_cov (rba_step max_cov st r) rest

/-- The records of `alns` that the selection loop accepts. -/
def rba_accepted (max_cov : ℚ) (alns : List aln_t) : List aln_t :=
  rba_accepted_from max_cov rba_init alns

/-- Number of positions of the query interval of `r` that lie in the query
interval of a record of `acc` on the same query sequence. -/
def prior_query_cover (acc : List aln_t) (r : aln_t) : Nat :=
  ((Finset.Ico r.abpos r.aepos).filter
    (fun x => ∃ p ∈ acc, p.aread = r.aread ∧ p.abpos ≤ x ∧ x < p.aepos)).card

/-- Number of positions of the target interval of `r` that lie in the target
interval of a record of `acc` on the same target sequence. -/
def prior_target_cover (acc : List aln_t) (r : aln_t) : Nat :=
  ((Finset.Ico r.bbpos r.bepos).filter
    (fun x => ∃ p ∈ acc, p.bread = r.bread ∧ p.bbpos ≤ x ∧ x < p.bepos)).card

/-- The record with its four coordinates as the `int` parameters of the
coverage-set functions receive them. -/
def narrowed (r : aln_t) : aln_t :=
  ⟨r.aread, r.bread, toInt32 r.abpos, toInt32 r.aepos, toInt32 r.bbpos, toInt32 r.bepos, r.mlen⟩

/-- All four coordinates of the record are in the range of `int`. -/
def fits_int (r : aln_t) : Prop :=
  toInt32 r.abpos = r.abpos ∧ toInt32 r.aepos = r.aepos ∧
    toInt32 r.bbpos = r.bbpos ∧ toInt32 r.bepos = r.bepos

instance (r : aln_t) : Decidable (fits_int r) := by
  unfold fits_int; infer_instance

/-! ## Gap candidates -/

/-- Target-axis separation of a pair:
`dist = max(bbpos1, bbpos2) - min(bepos1, bepos2)`. -/
def gap_dist (a1 a2 : aln_t) : Int :=
  (if a1.bbpos > a2.bbpos then a1.bbpos else a2.bbpos) -
    (if a1.bepos < a2.bepos then a1.bepos else a2.bepos)

/-- The candidate box that `gap_core` pushes for the pair `(aln1, aln2)`. -/
def gap_box (max_ovl : Int) (a1 a2 : aln_t) : aln_t :=
  ⟨0, 0,
    if a1.abpos > a1.aepos - max_ovl then a1.abpos else a1.aepos - max_ovl,
    if a2.aepos < a2.abpos + max_ovl then a2.aepos else a2.abpos + max_ovl,
    if a1.bepos < a2.bepos then
      (if a1.bbpos > a1.bepos - max_ovl then a1.bbpos else a1.bepos - max_ovl)
    else
      (if a2.bbpos > a2.bepos - max_ovl then a2.bbpos else a2.bepos - max_ovl),
    if a1.bbpos > a2.bbpos then
      (if a1.bepos < a1.bbpos + max_ovl then a1.bepos else a1.bbpos + max_ovl)
    else
      (if a2.bepos < a2.bbpos + max_ovl then a2.bepos else a2.bbpos + max_ovl),
    0⟩

/-- The test `dist >= min_gap && dist <= max_gap`. -/
def gap_dist_ok (min_gap max_gap : Int) (a1 a2 : aln_t) : Bool :=
  decide (gap_dist a1 a2 ≥ min_gap ∧ gap_dist a1 a2 ≤ max_gap)

/-- The body of the outer loop of `gap_core` for `aln1`, `rest` being the
array after `aln1`: `aln2s` skips the records that start before
`aepos1 + min_gap`, `aln2e` then runs over the records that start before
`aepos1 + max_gap`, and each `aln2` in `[aln2s, aln2e)` that passes the
distance test pushes a box. -/
def gap_scan_from (min_gap max_gap max_ovl : Int) (aln1 : aln_t) (rest : List aln_t) :
    List aln_t :=
  let aln2s := rest.dropWhile (fun a => decide (a.abpos < aln1.aepos + min_gap))
  let window := aln2s.takeWhile (fun a => decide (a.abpos < aln1.aepos + max_gap))
  (window.filter (fun aln2 => gap_dist_ok min_gap max_gap aln1 aln2)).map (gap_box max_ovl aln1)

/-- The outer loop `for (aln1 = alns; aln1 < aln1e; aln1++)` of `gap_core`:
the candidate buffer `gaps`. -/
def gap_scan (min_gap max_gap max_ovl : Int) : List aln_t → List aln_t
  | [] => []
  | aln1 :: rest =>
    gap_scan_from min_gap max_gap max_ovl aln1 rest ++ gap_scan min_gap max_gap max_ovl rest

/-- The sentinel-bounded copy of a group that `gap_core` builds: the record
`{0,0,0,0,0,0,0}`, the group, the record `{0,0,alen,alen,blen,blen,0}`. -/
def gap_array (group : List aln_t) (alen blen : Int) : List aln_t :=
  (⟨0, 0, 0, 0, 0, 0, 0⟩ : aln_t) :: (group ++ [(⟨0, 0, alen, alen, blen, blen, 0⟩ : aln_t)])

/-- The candidate buffer of `gap_core` for a group. -/
def gap_candidates (min_gap max_gap max_ovl : Int) (group : List aln_t) (alen blen : Int) :
    List aln_t :=
  gap_scan min_gap max_gap max_ovl (gap_array group alen blen)

/-- All pairs of positions `i < j < n`, in increasing `(i, j)` order. -/
def index_pairs (n : Nat) : List (Nat × Nat) :=
  (List.range n).flatMap (fun i => (List.range' (i + 1) (n - (i + 1))).map (fun j => (i, j)))

/-- Array read `alns[i]` with the zero record outside the array. -/
def aget (alns : List aln_t) (i : Nat) : aln_t := alns.getD i ⟨0, 0, 0, 0, 0, 0, 0⟩

/-- The candidate enumeration as the specification words it: one box for
every pair of positions `i < j` with
`a_i.q_end + min_gap <= a_j.q_begin < a_i.q_end + max_gap` and
`min_gap <= dist <= max_gap`, in increasing `(i, j)` order. -/
def gap_candidates_spec (min_gap max_gap max_ovl : Int) (a : List aln_t) : List aln_t :=
  ((index_pairs a.length).filter (fun p =>
      decide ((aget a p.1).aepos + min_gap ≤ (aget a p.2).abpos ∧
        (aget a p.2).abpos < (aget a p.1).aepos + max_gap ∧
        min_gap ≤ gap_dist (aget a p.1) (aget a p.2) ∧
        gap_dist (aget a p.1) (aget a p.2) ≤ max_gap))).map
    (fun p => gap_box max_ovl (aget a p.1) (aget a p.2))

/-! ## Dominance filter -/

/-- The comparator `AORDER`: ascending area
`(aepos - abpos) * (bepos - bbpos)`, the product being an `int64`. -/
def AORDER (x y : aln_t) : Int :=
  let xm := toInt64 ((x.aepos - x.abpos) * (x.bepos - x.bbpos))
  let ym := toInt64 ((y.aepos - y.abpos) * (y.bepos - y.bbpos))
  (if xm > ym then 1 else 0) - (if xm < ym then 1 else 0)

/-- A rectangle of the spatial index: `struct rect` of `rtree.h` with
`DIMS = 2`. -/
structure rect where
  min : Int × Int
  max : Int × Int
deriving DecidableEq, Repr

/-- Modelled from the spec: the spatial index `struct rtree`, whose
implementation is not among the sources; only its two operations used by
`gap_core` matter, so the index is the list of the rectangles inserted. -/
abbrev rtree := List rect

/-- Modelled from the spec: `rtree_new`, the empty index. -/
def rtree_new : rtree := []

/-- Modelled from the spec: `rtree_insert(tr, min, max, NULL)` (declared in
`rtree.h`, implementation not among the sources) adds the rectangle. -/
def rtree_insert (tr : rtree) (min max : Int × Int) : rtree := tr ++ [⟨min, max⟩]

/-- Modelled from the spec: `rtree_exist_node_inside(tr, min, max)` (declared
in `rtree.h`, implementation not among the sources) tells whether some
rectangle of the index lies entirely inside `[min, max]`, borders included. -/
def rtree_exist_node_inside (tr : rtree) (min max : Int × Int) : Bool :=
  tr.any (fun r => decide (min.1 ≤ r.min.1 ∧ min.2 ≤ r.min.2 ∧ r.max.1 ≤ max.1 ∧ r.max.2 ≤ max.2))

/-- The marking loop of `gap_core` over the area-sorted buffer: a box with no
indexed rectangle inside it gets `mlen = 1` and is inserted. -/
def dominance_loop : rtree → List aln_t → List aln_t
  | _, [] => []
  | tr, g :: rest =>
    if rtree_exist_node_inside tr (g.abpos, g.bbpos) (g.aepos, g.bepos) then
      g :: dominance_loop tr rest
    else
      (⟨g.aread, g.bread, g.abpos, g.aepos, g.bbpos, g.bepos, 1⟩ : aln_t) ::
        dominance_loop (rtree_insert tr (g.abpos, g.bbpos) (g.aepos, g.bepos)) rest

/-- The buffer after the marking loop, `sorted` being the buffer that `qsort`
with `AORDER` left. -/
def dominance_filter (sorted : List aln_t) : List aln_t := dominance_loop rtree_new sorted

/-- The boxes that the output loop of `gap_core` prints: those with
`mlen != 0`, as `(abpos, aepos, bbpos, bepos)`. -/
def gap_output (sorted : List aln_t) : List (Int × Int × Int × Int) :=
  ((dominance_filter sorted).filter (fun g => decide (g.mlen ≠ 0))).map
    (fun g => (g.abpos, g.aepos, g.bbpos, g.bepos))

/-- Box `x` lies inside box `y`, borders included. -/
def box_inside (x y : aln_t) : Prop :=
  y.abpos ≤ x.abpos ∧ y.bbpos ≤ x.bbpos ∧ x.aepos ≤ y.aepos ∧ x.bepos ≤ y.bepos

instance (x y : aln_t) : Decidable (box_inside x y) := by
  unfold box_inside; infer_instance

/-- The area `(aepos - abpos) * (bepos - bbpos)` of a box, as a mathematical
integer; `AORDER` compares its value as an `int64`. -/
def box_area (g : aln_t) : Int := (g.aepos - g.abpos) * (g.bepos - g.bbpos)

/-- The area of the box lies in the range of `int64`, so that the product
`AORDER` computes for it is the area. -/
def area_fits (g : aln_t) : Prop :=
  -9223372036854775808 ≤ box_area g ∧ box_area g < 9223372036854775808

instance (g : aln_t) : Decidable (area_fits g) := by
  unfold area_fits; infer_instance

/-- The rectangle `{abpos, bbpos}, {aepos, bepos}` that `gap_core` hands to
the spatial index for box `g`. -/
def box_rect (g : aln_t) : rect := ⟨(g.abpos, g.bbpos), (g.aepos, g.bepos)⟩

/-- A candidate box as `gap_core` pushes it: ids and mark zero. -/
def is_candidate (g : aln_t) : Prop := g.aread = 0 ∧ g.bread = 0 ∧ g.mlen = 0

instance (g : aln_t) : Decidable (is_candidate g) := by
  unfold is_candidate; infer_instance

/-- Positive query and target extent. -/
def box_positive (g : aln_t) : Prop := g.abpos < g.aepos ∧ g.bbpos < g.bepos

instance (g : aln_t) : Decidable (box_positive g) := by
  unfold box_positive; infer_instance

/-! ## The binary searches with the fuel made visible -/

/-- The loop of `find_last_small` again, returning `none` when the fuel is
used up before the loop has left through its test `low <= high`. -/
def find_last_small_run (ranges : List range_t) (val : Int) :
    Nat → Int → Int → Int → Option Int
  | 0, _, _, _ => none
  | fuel + 1, low, high, res =>
    if low ≤ high then
      let mid := low + (high - low) / 2
      if (rget ranges mid).end_ < val then
        find_last_small_run ranges val fuel (mid + 1) high mid
      else
        find_last_small_run ranges val fuel low (mid - 1) res
    else some res

/-- The loop of `find_first_large` again, returning `none` when the fuel is
used up before the loop has left through its test. -/
def find_first_large_run (ranges : List range_t) (val : Int) :
    Nat → Int → Int → Int → Option Int
  | 0, _, _, _ => none
  | fuel + 1, low, high, res =>
    if low ≤ high then
      let mid := low + (high - low) / 2
      if (rget ranges mid).beg > val then
        find_first_large_run ranges val fuel low (mid - 1) mid
      else
        find_first_large_run ranges val fuel (mid + 1) high res
    else some res

/-! ## The selection as a recursion over the array -/

/-- The records that `reciprocal_best_aligns` returns from the part `alns` of
the array, the loop being in state `st` before it: those that the loop
accepts and the compaction keeps (`mlen > 0`). -/
def rba_kept_from (max_cov : ℚ) : rba_state → List aln_t → List aln_t
  | _, [] => []
  | st, r :: rest =>
    if rba_accepts max_cov st r = true ∧ r.mlen > 0 then
      r :: rba_kept_from max_cov (rba_step max_cov st r) rest
    else rba_kept_from max_cov (rba_step max_cov st r) rest

/-- Every coverage set of the state satisfies the RangeSet invariant. -/
def spans_inv (st : rba_state) : Prop :=
  (∀ id : Int, rangeset_inv (st.q_span id)) ∧ (∀ id : Int, rangeset_inv (st.t_span id))

/-- The four coordinates of the record are as the parser delivers them for a
well-formed line: unsigned 32-bit values with `begin <= end` on both axes. -/
def in_parser_range (r : aln_t) : Prop :=
  0 ≤ r.abpos ∧ r.abpos ≤ r.aepos ∧ r.aepos < 4294967296 ∧
    0 ≤ r.bbpos ∧ r.bbpos ≤ r.bepos ∧ r.bepos < 4294967296

instance (r : aln_t) : Decidable (in_parser_range r) := by
  unfold in_parser_range; infer_instance

/-! ## Grouping in `align_gaps` -/

/-- The three-way comparison `(x > y) - (x < y)`. -/
def cmp3 (x y : Int) : Int := (if x > y then 1 else 0) - (if x < y then 1 else 0)

/-- The comparator `RORDER`: the fields `aread`, `bread`, `abpos`, `bbpos`,
`aepos`, `bepos` are compared in turn, the first pair that differs decides. -/
def RORDER (x y : aln_t) : Int :=
  if x.aread = y.aread then
    if x.bread = y.bread then
      if x.abpos = y.abpos then
        if x.bbpos = y.bbpos then
          if x.aepos = y.aepos then cmp3 x.bepos y.bepos
          else cmp3 x.aepos y.aepos
        else cmp3 x.bbpos y.bbpos
      else cmp3 x.abpos y.abpos
    else cmp3 x.bread y.bread
  else cmp3 x.aread y.aread

/-- The `uint64` pushed for a group, `(uint64)j<<32 | (i-j)`, for an offset
`j` and a length `i - j`. -/
def pack_range (j len : Nat) : Nat := ((j <<< 32) % 18446744073709551616) ||| len

/-- The offset `data->ranges[i]>>32` that `gap_core` reads back. -/
def range_offset (r : Nat) : Nat := r >>> 32

/-- The length `(uint32) data->ranges[i]` that `gap_core` reads back. -/
def range_len (r : Nat) : Nat := r % 4294967296

/-- The grouping loop `for (i = 1, j = 0; i < naln; i++)` of `align_gaps`,
followed by the push of the last group: `rest` is the array from index `i`
on, `j` the start of the current group, `(a, b)` its pair of ids, `m` the
largest length seen and `ranges` the groups pushed so far.  The result is the
array `ranges` and `m`. -/
def group_loop : List aln_t → Nat → Nat → Int → Int → Nat → List Nat → List Nat × Nat
  | [], i, j, _, _, m, ranges =>
    (ranges ++ [pack_range j (i - j)], if m < i - j then i - j else m)
  | x :: rest, i, j, a, b, m, ranges =>
    if x.aread ≠ a ∨ x.bread ≠ b then
      group_loop rest (i + 1) i x.aread x.bread (if m < i - j then i - j else m)
        (ranges ++ [pack_range j (i - j)])
    else group_loop rest (i + 1) j a b m ranges

/-- The grouping of `align_gaps` on the array that `qsort` with `RORDER`
left: the array `ranges` and the largest group length `m`.  For an empty
array the function returns before grouping. -/
def align_gaps_ranges : List aln_t → List Nat × Nat
  | [] => ([], 0)
  | x :: rest => group_loop rest 1 0 x.aread x.bread 0 []

/-- The spans `(offset, length)` as `gap_core` decodes them. -/
def align_gaps_spans (alns : List aln_t) : List (Nat × Nat) :=
  (align_gaps_ranges alns).1.map (fun r => (range_offset r, range_len r))

/-- The pair `(query_id, target_id)` of a record. -/
def pair_of (x : aln_t) : Int × Int := (x.aread, x.bread)

/-- The grouping with the spans unpacked: the spans of the array `rest` that
follows a current group of `cur` records with ids `(a, b)` starting at `off`. -/
def spans_from (off : Nat) (a b : Int) (cur : Nat) : List aln_t → List (Nat × Nat)
  | [] => [(off, cur)]
  | x :: rest =>
    if x.aread ≠ a ∨ x.bread ≠ b then
      (off, cur) :: spans_from (off + cur) x.aread x.bread 1 rest
    else spans_from off a b (cur + 1) rest

/-- Lexicographic order on pairs of ids. -/
def pair_le (p q : Int × Int) : Prop := p.1 < q.1 ∨ (p.1 = q.1 ∧ p.2 ≤ q.2)

/-! ## One task of `gap_core` -/

instance (cmp : aln_t → aln_t → Int) (before after : List aln_t) :
    Decidable (qsort_result cmp before after) := by
  unfold qsort_result; infer_instance

/-- The group that `gap_core` copies for the task `range`: `naln` records of
the sorted array from the offset on. -/
def gap_core_group (alns : List aln_t) (range : Nat) : List aln_t :=
  (alns.drop (range_offset range)).take (range_len range)

/-- The candidate buffer of `gap_core` for the task `range`; `qlen` and `tlen`
give the sequence lengths `qdicts->s[id].len` and `tdicts->s[id].len`, the ids
being those of the first record of the group. -/
def gap_core_buffer (min_gap max_gap max_ovl : Int) (qlen tlen : Int → Int)
    (alns : List aln_t) (range : Nat) : List aln_t :=
  gap_candidates min_gap max_gap max_ovl (gap_core_group alns range)
    (qlen (aget (gap_core_group alns range) 0).aread)
    (tlen (aget (gap_core_group alns range) 0).bread)

/-- The lines that `gap_core` prints for the task `range`, `sorted_gaps` being
the candidate buffer after `qsort` with `AORDER`: a line is
`(query id, q_begin, q_end, target id, t_begin, t_end)`, the two ids standing
for the names `qdicts->s[id].name` and `tdicts->s[id].name`. -/
def gap_core_lines (alns : List aln_t) (range : Nat) (sorted_gaps : List aln_t) :
    List (Int × Int × Int × Int × Int × Int) :=
  (gap_output sorted_gaps).map (fun g =>
    ((aget (gap_core_group alns range) 0).aread, g.1, g.2.1,
      (aget (gap_core_group alns range) 0).bread, g.2.2.1, g.2.2.2))

/-! ## The sort key of `RORDER` -/

/-- The 6-tuple `(query_id, target_id, q_begin, t_begin, q_end, t_end)` of a
record as an element of the lexicographic product: tuples are compared by
their first components, then by their second ones, and so on. -/
def rorder_key (x : aln_t) : Int ×ₗ Int ×ₗ Int ×ₗ Int ×ₗ Int ×ₗ Int :=
  toLex (x.aread, toLex (x.bread, toLex (x.abpos, toLex (x.bbpos, toLex (x.aepos, x.bepos)))))

/-! ## `rangeset_add` with its accesses checked -/

/-- Array read `spans->a[i]` that fails outside the `n` live elements. -/
def read_range (spans : rangeset_t) (i : Int) : Option range_t :=
  if 0 ≤ i ∧ i < (spans.length : Int) then some (rget spans i) else none

/-- The function `rangeset_add` with every array access checked: the two
guarded reads `a[b+1]` and `a[e-1]` must fall inside the `n` live elements,
the `memmove` must read `a[e .. n)` inside them and write `a[b+2 .. nels)`
inside the new length `nels`, and the store `a[b+1]` must fall inside the new
length.  The result is `none` when one of the accesses is out of bounds. -/
def rangeset_add_run (spans : rangeset_t) (beg end_ b e : Int) : Option rangeset_t :=
  if beg ≥ end_ then some spans
  else
    let n : Int := spans.length
    let nels := n + b - e + 2
    let beg1 : Option Int :=
      if sizeLt (b + 1) spans.length then (read_range spans (b + 1)).map (fun r => MIN r.beg beg)
      else some beg
    let end1 : Option Int :=
      if sizeLt (e - 1) spans.length then
        (read_range spans (e - 1)).map (fun r => MAX r.end_ end_)
      else some end_
    let move_ok : Bool :=
      if sizeLt e spans.length then
        decide (0 ≤ e ∧ e + (n - e) ≤ n ∧ 0 ≤ b + 2 ∧ b + 2 + (n - e) ≤ nels)
      else true
    let store_ok : Bool := decide (0 ≤ b + 1 ∧ b + 1 < nels)
    match beg1, end1 with
    | some _, some _ =>
      if move_ok = true ∧ store_ok = true then some (rangeset_add spans beg end_ b e) else none
    | _, _ => none

/-! ## Marks and rectangles of the boxes -/

/-- The box with its mark set, `aln1->mlen = 1`. -/
def box_marked (g : aln_t) : aln_t :=
  ⟨g.aread, g.bread, g.abpos, g.aepos, g.bbpos, g.bepos, 1⟩

/-- The four numbers `(abpos, aepos, bbpos, bepos)` printed for a box. -/
def box_coords (g : aln_t) : Int × Int × Int × Int := (g.abpos, g.aepos, g.bbpos, g.bepos)

/-! ## The window scan of `gap_core` with indices -/

/-- A loop `while (p < aln1e && p->abpos < bound) p++` of `gap_core`, `p` being
the index `k` into the scratch array and `aln1e` the index `n`: the index at
which the loop stops and the indices whose record the loop has read.  A record
is read only after the test `p < aln1e` has succeeded. -/
def scan_advance (alns : List aln_t) (n : Nat) (bound : Int) : Nat → Nat → Nat × List Nat
  | 0, k => (k, [])
  | fuel + 1, k =>
    if k < n then
      if (aget alns k).abpos < bound then
        ((scan_advance alns n bound fuel (k + 1)).1,
          k :: (scan_advance alns n bound fuel (k + 1)).2)
      else (k, [k])
    else (k, [])

/-- The body of the outer loop of `gap_core` for `aln1 = alns + i`, with
indices for the pointers `aln2s`, `aln2e` and `aln2`: the boxes pushed and the
indices of the scratch array that are read. -/
def gap_core_row (min_gap max_gap max_ovl : Int) (alns : List aln_t) (n : Nat) (i : Nat) :
    List aln_t × List Nat :=
  let aln1 := aget alns i
  let aln2s := scan_advance alns n (aln1.aepos + min_gap) (n - i) (i + 1)
  let aln2e := scan_advance alns n (aln1.aepos + max_gap) (n - i) aln2s.1
  let aln2 := List.range' aln2s.1 (aln2e.1 - aln2s.1)
  (((aln2.filter (fun j => gap_dist_ok min_gap max_gap aln1 (aget alns j))).map
      (fun j => gap_box max_ovl aln1 (aget alns j))),
    i :: (aln2s.2 ++ aln2e.2 ++ aln2))

/-- The outer loop `for (aln1 = alns; aln1 < aln1e; aln1++)` of `gap_core`
over the `n` records of the scratch array: the candidate buffer and the
indices read. -/
def gap_core_scan (min_gap max_gap max_ovl : Int) (alns : List aln_t) (n : Nat) :
    List aln_t × List Nat :=
  ((List.range n).flatMap (fun i => (gap_core_row min_gap max_gap max_ovl alns n i).1),
    (List.range n).flatMap (fun i => (gap_core_row min_gap max_gap max_ovl alns n i).2))

/-! ## The re-alignment harness: `alnfill.c` -/

/-- An interval to re-align, `interval_t` of `alnfill.c`. -/
structure interval_t where
  qsid : Nat
  tsid : Nat
  qbeg : Int
  qend : Int
  tbeg : Int
  tend : Int
  qbol : Int
  qeol : Int
  tbol : Int
  teol : Int
deriving DecidableEq, Repr

/-- The value `UINT32_MAX` that `sd_get` returns for a name that is not in the
dictionary. -/
def UINT32_MAX : Nat := 4294967295

/-- The body of the reading loop of `main` in `alnfill.c` after
`parse_interval` has filled `fields`, the coordinates and the four flank
values, `qsid` and `tsid` being what `sd_get` returned for the two names and
`qlens`, `tlens` the lengths `qdicts->s[id].len`, `tdicts->s[id].len`.  The
sums `qend + qeol` and `tend + teol` are `int64` sums.  The result is the list
`intervals` after the iteration; `none` stands for `exit (1)`. -/
def main_read_interval (qlens tlens : Nat → Int) (intervals : List interval_t)
    (fields : Int) (qsid tsid : Nat) (qbeg qend tbeg tend qbol qeol tbol teol : Int) :
    Option (List interval_t) :=
  if fields < 6 then some intervals
  else if qsid = UINT32_MAX then none
  else if tsid = UINT32_MAX then none
  else
    let qlen := qlens qsid
    let tlen := tlens tsid
    if qbeg < qbol ∨ toInt64 (qend + qeol) > qlen ∨ tbeg < tbol ∨
        toInt64 (tend + teol) > tlen then
      some intervals
    else
      some (intervals ++ [⟨qsid, tsid, qbeg, qend, tbeg, tend, qbol, qeol, tbol, teol⟩])

/-- The C function `isspace` in the "C" locale: space, `\t`, `\n`, `\v`, `\f`
and `\r`. -/
def isspace (c : Char) : Bool :=
  c = ' ' || c = '\t' || c = '\n' || c = '\x0b' || c = '\x0c' || c = '\r'

/-- The C string that starts at index `q` of the buffer `s`: the characters up
to the first NUL.  A buffer without a NUL from `q` on gives `none`: the read
would leave the buffer. -/
def cstring (s : List Char) (q : Nat) : Option (List Char) :=
  if '\x00' ∈ s.drop q then some ((s.drop q).takeWhile (fun c => c ≠ '\x00')) else none

/-- The value of the longest prefix of decimal digits of `str`, `acc` being the
value of the digits already read. -/
def strtol_digits : List Char → Nat → Nat
  | [], acc => acc
  | c :: rest, acc =>
    if '0' ≤ c ∧ c ≤ '9' then strtol_digits rest (10 * acc + (c.toNat - 48)) else acc

/-- The C function `strtol(str, NULL, 10)` with a 64-bit `long`: white space is
skipped, an optional sign is read, then the digits; a value outside the range
of `long` is replaced by `LONG_MAX` or `LONG_MIN`. -/
def strtol (str : List Char) : Int :=
  let clamp : Int → Int := fun v =>
    if v > 9223372036854775807 then 9223372036854775807
    else if v < -9223372036854775808 then -9223372036854775808 else v
  match str.dropWhile isspace with
  | '-' :: rest => clamp (-(strtol_digits rest 0 : Int))
  | '+' :: rest => clamp (strtol_digits rest 0 : Int)
  | rest => clamp (strtol_digits rest 0 : Int)

/-- The characters that `fprintf` writes for `%lld`: the decimal digits, after
a minus sign for a negative value. -/
def print_lld (v : Int) : List Char :=
  if v < 0 then '-' :: Nat.toDigits 10 (-v).toNat else Nat.toDigits 10 v.toNat

/-- The part of the loop body of `paf_parse1` that runs at the end of a field,
from `s[i] = 0` on: the `switch` on the field number `t`, then
`++t, q = i < l? &s[i+1] : 0`.  The rest of the loop is `next`, called with the
new `i`, `t`, `q`, buffer and stream.  The sums `strtol(q) + qbeg` and
`strtol(q) + tbeg` are 64-bit sums.  The result is the return value, the
buffer and the stream; `none` stands for an access outside the buffer. -/
def paf_field_end
    (next : Nat → Nat → Option Nat → List Char → List Char →
      Option (Int × List Char × List Char))
    (l : Nat) (qlen qbeg tlen tbeg : Int) (i t : Nat) (q : Option Nat) (s out : List Char) :
    Option (Int × List Char × List Char) :=
  if i < s.length then
    let s1 := s.set i '\x00'
    let q1 : Option Nat := if i < l then some (i + 1) else none
    let field : Option (List Char) := q.bind (cstring s1)
    if t = 0 ∨ t = 4 ∨ t = 5 then
      field.bind (fun f => next (i + 1) (t + 1) q1 s1 (out ++ f ++ ['\t']))
    else if t = 1 then next (i + 1) (t + 1) q1 s1 (out ++ print_lld qlen ++ ['\t'])
    else if t = 2 ∨ t = 3 then
      field.bind (fun f =>
        next (i + 1) (t + 1) q1 s1 (out ++ print_lld (toInt64 (strtol f + qbeg)) ++ ['\t']))
    else if t = 6 then next (i + 1) (t + 1) q1 s1 (out ++ print_lld tlen ++ ['\t'])
    else if t = 7 ∨ t = 8 then
      field.bind (fun f =>
        next (i + 1) (t + 1) q1 s1 (out ++ print_lld (toInt64 (strtol f + tbeg)) ++ ['\t']))
    else if t = 9 then
      (q.bind (cstring (s1.set i '\t'))).bind
        (fun f => some (0, s1.set i '\t', out ++ f ++ ['\n']))
    else next (i + 1) (t + 1) q1 s1 out
  else none

/-- The loop `for (i = t = 0, q = s; i <= l; ++i)` of `paf_parse1`, one unit of
fuel per iteration: `s` is the buffer, which the loop writes to, `q` the start
of the current field (`none` for the null pointer) and `out` what has been
written to the stream.  When the loop runs out (`i > l`) the function returns
0. -/
def paf_parse1_loop (l : Nat) (qlen qbeg tlen tbeg : Int) :
    Nat → Nat → Nat → Option Nat → List Char → List Char →
      Option (Int × List Char × List Char)
  | 0, _, _, _, s, out => some (0, s, out)
  | fuel + 1, i, t, q, s, out =>
    if i < l then
      match s[i]? with
      | none => none
      | some c =>
        if c ≠ '\t' then paf_parse1_loop l qlen qbeg tlen tbeg fuel (i + 1) t q s out
        else
          paf_field_end (paf_parse1_loop l qlen qbeg tlen tbeg fuel) l qlen qbeg tlen tbeg
            i t q s out
    else
      paf_field_end (paf_parse1_loop l qlen qbeg tlen tbeg fuel) l qlen qbeg tlen tbeg
        i t q s out

/-- The function `paf_parse1(l, s, qlen, qbeg, tlen, tbeg, out)`: the leading
white space is skipped, an empty line returns `-1`, and the loop runs for
`i = 0 .. l`.  The buffer of the result starts at the first character that is
not white space. -/
def paf_parse1 (l : Nat) (s : List Char) (qlen qbeg tlen tbeg : Int) (out : List Char) :
    Option (Int × List Char × List Char) :=
  match s.dropWhile isspace with
  | [] => none
  | c :: rest =>
    if c = '\x00' then some (-1, c :: rest, out)
    else paf_parse1_loop l qlen qbeg tlen tbeg (l + 1) 0 0 (some 0) (c :: rest) out

/-- What the rewrite puts out for field number `t < 9` with text `f`: the
text itself for the fields 0, 4 and 5, the sequence lengths for the fields 1
and 6, and the number read from the field plus the offset, as a 64-bit sum,
for the fields 2, 3, 7 and 8. -/
def rewritten_field (qlen qbeg tlen tbeg : Int) (t : Nat) (f : List Char) : List Char :=
  if t = 0 ∨ t = 4 ∨ t = 5 then f
  else if t = 1 then print_lld qlen
  else if t = 2 ∨ t = 3 then print_lld (toInt64 (strtol f + qbeg))
  else if t = 6 then print_lld tlen
  else print_lld (toInt64 (strtol f + tbeg))

/-- What the rewrite puts out for the fields `fs`, the first of them being
field number `t`: each rewritten field followed by a tab. -/
def rewritten_fields (qlen qbeg tlen tbeg : Int) : Nat → List (List Char) → List Char
  | _, [] => []
  | t, f :: fs =>
    rewritten_field qlen qbeg tlen tbeg t f ++ ['\t'] ++
      rewritten_fields qlen qbeg tlen tbeg (t + 1) fs

/-- The fields `fs`, each followed by the character `sep`. -/
def fields_text (sep : Char) : List (List Char) → List Char
  | [] => []
  | f :: fs => f ++ sep :: fields_text sep fs

/-! ## Reading the array -/

theorem rget_ofNat (a : List range_t) (i : Nat) (h : i < a.length) :
    rget a (i : Int) = a[i] := by
  unfold rget
  have h0 : ¬ ((i : Int) < 0) := by omega
  rw [if_neg h0, Int.toNat_ofNat, List.getD_eq_getElem a ⟨0, 0⟩ h]

theorem rget_mem (a : List range_t) (i : Int) (h0 : 0 ≤ i) (h : i < a.length) :
    rget a i ∈ a := by
  obtain ⟨k, rfl⟩ := Int.eq_ofNat_of_zero_le h0
  have hk : k < a.length := by omega
  rw [rget_ofNat a k hk]
  exact List.getElem_mem _

/-! ## The invariant as a sorted list -/

theorem rangeset_inv_iff_pairwise (a : rangeset_t) :
    rangeset_inv a ↔ (∀ r ∈ a, r.beg < r.end_) ∧ a.Pairwise (fun x y => x.end_ < y.beg) := by
  unfold rangeset_inv
  induction a with
  | nil => simp
  | cons x l ih =>
    constructor
    · rintro ⟨hne, hch⟩
      have hl : (∀ r ∈ l, r.beg < r.end_) ∧ l.Chain' (fun x y => x.end_ < y.beg) :=
        ⟨fun r hr => hne r (List.mem_cons_of_mem _ hr), hch.tail⟩
      have hp := (ih.1 hl).2
      refine ⟨hne, List.pairwise_cons.2 ⟨?_, hp⟩⟩
      intro y hy
      cases l with
      | nil => cases hy
      | cons z l2 =>
        have hxz : x.end_ < z.beg := (List.chain'_cons.1 hch).1
        rcases List.mem_cons.1 hy with rfl | hy2
        · exact hxz
        · have hzy := (List.pairwise_cons.1 hp).1 y hy2
          have hz := hne z (by simp)
          omega
    · rintro ⟨hne, hp⟩
      exact ⟨hne, List.Pairwise.chain' hp⟩

theorem rangeset_inv_index (a : rangeset_t) (h : rangeset_inv a) (i j : Int)
    (h0 : 0 ≤ i) (hij : i < j) (hj : j < a.length) :
    (rget a i).end_ < (rget a j).beg := by
  obtain ⟨_, hp⟩ := (rangeset_inv_iff_pairwise a).1 h
  obtain ⟨k, rfl⟩ := Int.eq_ofNat_of_zero_le h0
  obtain ⟨m, rfl⟩ := Int.eq_ofNat_of_zero_le (by omega : 0 ≤ j)
  have hm : m < a.length := by omega
  have hk : k < a.length := by omega
  rw [rget_ofNat a k hk, rget_ofNat a m hm]
  exact List.pairwise_iff_getElem.1 hp k m hk hm (by omega)

theorem rangeset_inv_nonempty (a : rangeset_t) (h : rangeset_inv a) (i : Int)
    (h0 : 0 ≤ i) (hi : i < a.length) : (rget a i).beg < (rget a i).end_ :=
  h.1 _ (rget_mem a i h0 hi)

theorem rangeset_inv_end_mono (a : rangeset_t) (h : rangeset_inv a) (i j : Int)
    (h0 : 0 ≤ i) (hij : i ≤ j) (hj : j < a.length) :
    (rget a i).end_ ≤ (rget a j).end_ := by
  rcases eq_or_lt_of_le hij with rfl | hlt
  · exact le_refl _
  · have h1 := rangeset_inv_index a h i j h0 hlt hj
    have h2 := rangeset_inv_nonempty a h j (by omega) hj
    omega

theorem rangeset_inv_beg_mono (a : rangeset_t) (h : rangeset_inv a) (i j : Int)
    (h0 : 0 ≤ i) (hij : i ≤ j) (hj : j < a.length) :
    (rget a i).beg ≤ (rget a j).beg := by
  rcases eq_or_lt_of_le hij with rfl | hlt
  · exact le_refl _
  · have h1 := rangeset_inv_index a h i j h0 hlt hj
    have h2 := rangeset_inv_nonempty a h i h0 (by omega)
    omega

/-! ## The two binary searches -/

theorem find_last_small_loop_spec (a : List range_t) (val n : Int)
    (hmono : ∀ i j : Int, 0 ≤ i → i ≤ j → j < n →
      (rget a j).end_ < val → (rget a i).end_ < val) :
    ∀ (fuel : Nat) (low high res : Int), 0 ≤ low → high < n → low ≤ high + 1 →
      high - low + 1 ≤ fuel → res = low - 1 →
      (∀ i, 0 ≤ i → i < low → (rget a i).end_ < val) →
      (∀ i, high < i → i < n → ¬ (rget a i).end_ < val) →
      -1 ≤ find_last_small_loop a val fuel low high res ∧
      find_last_small_loop a val fuel low high res < n ∧
      (∀ i, 0 ≤ i → i ≤ find_last_small_loop a val fuel low high res →
        (rget a i).end_ < val) ∧
      (∀ i, find_last_small_loop a val fuel low high res < i → i < n →
        ¬ (rget a i).end_ < val) := by
  intro fuel
  induction fuel with
  | zero =>
    intro low high res h0 hn hlh hf hres hlo hhi
    simp only [find_last_small_loop]
    have : low = high + 1 := by omega
    subst hres
    refine ⟨by omega, by omega, fun i hi0 hi => hlo i hi0 (by omega),
      fun i hi hin => hhi i (by omega) hin⟩
  | succ fuel ih =>
    intro low high res h0 hn hlh hf hres hlo hhi
    simp only [find_last_small_loop]
    by_cases hc : low ≤ high
    · rw [if_pos hc]
      have hm1 : low ≤ low + (high - low) / 2 := by omega
      have hm2 : low + (high - low) / 2 ≤ high := by omega
      by_cases hp : (rget a (low + (high - low) / 2)).end_ < val
      · rw [if_pos hp]
        apply ih
        · omega
        · exact hn
        · omega
        · push_cast at hf ⊢; omega
        · omega
        · intro i hi0 hi
          exact hmono i _ hi0 (by omega) (by omega) hp
        · exact hhi
      · rw [if_neg hp]
        apply ih
        · exact h0
        · omega
        · omega
        · push_cast at hf ⊢; omega
        · exact hres
        · exact hlo
        · intro i hi hin hpi
          exact hp (hmono _ i (by omega) (by omega) hin hpi)
    · rw [if_neg hc]
      have : low = high + 1 := by omega
      subst hres
      refine ⟨by omega, by omega, fun i hi0 hi => hlo i hi0 (by omega),
        fun i hi hin => hhi i (by omega) hin⟩

theorem find_first_large_loop_spec (a : List range_t) (val n : Int)
    (hmono : ∀ i j : Int, 0 ≤ i → i ≤ j → j < n →
      (rget a i).beg > val → (rget a j).beg > val) :
    ∀ (fuel : Nat) (low high res : Int), 0 ≤ low → high < n → low ≤ high + 1 →
      high - low + 1 ≤ fuel → res = high + 1 →
      (∀ i, 0 ≤ i → i < low → ¬ (rget a i).beg > val) →
      (∀ i, high < i → i < n → (rget a i).beg > val) →
      0 ≤ find_first_large_loop a val fuel low high res ∧
      find_first_large_loop a val fuel low high res ≤ n ∧
      (∀ i, 0 ≤ i → i < find_first_large_loop a val fuel low high res →
        ¬ (rget a i).beg > val) ∧
      (∀ i, find_first_large_loop a val fuel low high res ≤ i → i < n →
        (rget a i).beg > val) := by
  intro fuel
  induction fuel with
  | zero =>
    intro low high res h0 hn hlh hf hres hlo hhi
    simp only [find_first_large_loop]
    have : low = high + 1 := by omega
    subst hres
    refine ⟨by omega, by omega, fun i hi0 hi => hlo i hi0 (by omega),
      fun i hi hin => hhi i (by omega) hin⟩
  | succ fuel ih =>
    intro low high res h0 hn hlh hf hres hlo hhi
    simp only [find_first_large_loop]
    by_cases hc : low ≤ high
    · rw [if_pos hc]
      have hm1 : low ≤ low + (high - low) / 2 := by omega
      have hm2 : low + (high - low) / 2 ≤ high := by omega
      by_cases hp : (rget a (low + (high - low) / 2)).beg > val
      · rw [if_pos hp]
        apply ih
        · exact h0
        · omega
        · omega
        · push_cast at hf ⊢; omega
        · omega
        · exact hlo
        · intro i hi hin
          exact hmono _ i (by omega) (by omega) hin hp
      · rw [if_neg hp]
        apply ih
        · omega
        · exact hn
        · omega
        · push_cast at hf ⊢; omega
        · exact hres
        · intro i hi0 hi hpi
          exact hp (hmono i _ hi0 (by omega) (by omega) hpi)
        · exact hhi
    · rw [if_neg hc]
      have : low = high + 1 := by omega
      subst hres
      refine ⟨by omega, by omega, fun i hi0 hi => hlo i hi0 (by omega),
        fun i hi hin => hhi i (by omega) hin⟩

/-- Enough fuel: once the fuel covers the width of the search interval, more
fuel does not change the result of the loop of `find_last_small`, i.e. the
loop has left through its exit test. -/
theorem find_last_small_loop_fuel (a : List range_t) (val : Int) :
    ∀ (fuel k : Nat) (low high res : Int), high - low + 1 ≤ fuel →
      find_last_small_loop a val (fuel + k) low high res =
        find_last_small_loop a val fuel low high res := by
  intro fuel
  induction fuel with
  | zero =>
    intro k low high res hf
    have hc : ¬ low ≤ high := by omega
    cases k with
    | zero => rfl
    | succ k => simp only [Nat.zero_add, find_last_small_loop, if_neg hc]
  | succ fuel ih =>
    intro k low high res hf
    have hk : fuel + 1 + k = (fuel + k) + 1 := by omega
    rw [hk]
    simp only [find_last_small_loop]
    by_cases hc : low ≤ high
    · rw [if_pos hc, if_pos hc]
      have h1 : high - (low + (high - low) / 2 + 1) + 1 ≤ fuel := by push_cast at hf; omega
      have h2 : (low + (high - low) / 2 - 1) - low + 1 ≤ fuel := by push_cast at hf; omega
      rw [ih k _ _ _ h1, ih k _ _ _ h2]
    · rw [if_neg hc, if_neg hc]

/-- Enough fuel for the loop of `find_first_large`. -/
theorem find_first_large_loop_fuel (a : List range_t) (val : Int) :
    ∀ (fuel k : Nat) (low high res : Int), high - low + 1 ≤ fuel →
      find_first_large_loop a val (fuel + k) low high res =
        find_first_large_loop a val fuel low high res := by
  intro fuel
  induction fuel with
  | zero =>
    intro k low high res hf
    have hc : ¬ low ≤ high := by omega
    cases k with
    | zero => rfl
    | succ k => simp only [Nat.zero_add, find_first_large_loop, if_neg hc]
  | succ fuel ih =>
    intro k low high res hf
    have hk : fuel + 1 + k = (fuel + k) + 1 := by omega
    rw [hk]
    simp only [find_first_large_loop]
    by_cases hc : low ≤ high
    · rw [if_pos hc, if_pos hc]
      have h1 : high - (low + (high - low) / 2 + 1) + 1 ≤ fuel := by push_cast at hf; omega
      have h2 : (low + (high - low) / 2 - 1) - low + 1 ≤ fuel := by push_cast at hf; omega
      rw [ih k _ _ _ h1, ih k _ _ _ h2]
    · rw [if_neg hc, if_neg hc]

/-- Enough fuel for the summation loop of `rangeset_overlap`. -/
theorem overlap_loop_fuel (a : rangeset_t) (beg end_ e : Int) :
    ∀ (fuel k : Nat) (b o : Int), e - b - 1 ≤ fuel →
      overlap_loop a beg end_ (fuel + k) b e o = overlap_loop a beg end_ fuel b e o := by
  intro fuel
  induction fuel with
  | zero =>
    intro k b o hf
    have hc : ¬ b + 1 < e := by omega
    cases k with
    | zero => rfl
    | succ k => simp only [Nat.zero_add, overlap_loop, if_neg hc]
  | succ fuel ih =>
    intro k b o hf
    have hk : fuel + 1 + k = (fuel + k) + 1 := by omega
    rw [hk]
    simp only [overlap_loop]
    by_cases hc : b + 1 < e
    · rw [if_pos hc, if_pos hc]
      exact ih k _ _ (by push_cast at hf; omega)
    · rw [if_neg hc, if_neg hc]

theorem find_last_small_spec (a : rangeset_t) (h : rangeset_inv a) (val : Int) :
    -1 ≤ find_last_small a a.length val ∧
    find_last_small a a.length val < a.length ∧
    (∀ i, 0 ≤ i → i ≤ find_last_small a a.length val → (rget a i).end_ < val) ∧
    (∀ i, find_last_small a a.length val < i → i < a.length →
      ¬ (rget a i).end_ < val) := by
  unfold find_last_small
  apply find_last_small_loop_spec a val a.length
  · intro i j h0 hij hj hp
    have := rangeset_inv_end_mono a h i j h0 hij hj
    omega
  · omega
  · omega
  · omega
  · simp
  · omega
  · intro i hi0 hi; omega
  · intro i hi hin; omega

theorem find_first_large_spec (a : rangeset_t) (h : rangeset_inv a) (val : Int) :
    0 ≤ find_first_large a a.length val ∧
    find_first_large a a.length val ≤ a.length ∧
    (∀ i, 0 ≤ i → i < find_first_large a a.length val → ¬ (rget a i).beg > val) ∧
    (∀ i, find_first_large a a.length val ≤ i → i < a.length →
      (rget a i).beg > val) := by
  unfold find_first_large
  apply find_first_large_loop_spec a val a.length
  · intro i j h0 hij hj hp
    have := rangeset_inv_beg_mono a h i j h0 hij hj
    omega
  · omega
  · omega
  · omega
  · simp
  · omega
  · intro i hi0 hi; omega
  · intro i hi hin; omega

theorem rangeset_overlap_bounds (a : rangeset_t) (h : rangeset_inv a) (beg end_ : Int)
    (hlt : beg < end_) :
    Bounds a beg end_ (rangeset_overlap a beg end_).2.1 (rangeset_overlap a beg end_).2.2 := by
  unfold rangeset_overlap
  by_cases hn : a.length = 0
  · have hge : ¬ beg ≥ end_ := by omega
    simp only [hn, or_true, if_true]
    refine ⟨by omega, by simp, by simp, ?_, ?_, ?_, ?_⟩ <;> intro i <;> intros <;> simp_all <;> omega
  · have hc : ¬ (beg ≥ end_ ∨ a.length = 0) := by
      intro hc; rcases hc with hc | hc
      · omega
      · exact hn hc
    simp only [if_neg hc]
    obtain ⟨b1, b2, b3, b4⟩ := find_last_small_spec a h beg
    obtain ⟨e1, e2, e3, e4⟩ := find_first_large_spec a h end_
    refine ⟨b1, ?_, e2, b3, ?_, ?_, ?_⟩
    · by_contra hcon
      have hle : find_first_large a a.length end_ ≤ find_last_small a a.length beg := by omega
      have h1 := e4 _ (le_refl _) (by omega)
      have h2 := b3 _ e1 hle
      have h3 := rangeset_inv_nonempty a h _ e1 (by omega)
      omega
    · intro i hi hin
      have := b4 i hi hin
      omega
    · intro i hi0 hi
      have := e3 i hi0 hi
      omega
    · intro i hi hin
      exact e4 i hi hin

/-! ## Insertion: `rangeset_add` as a splice -/

theorem rangeset_add_length (a : rangeset_t) (beg end_ b e : Int) (hlt : beg < end_) :
    (rangeset_add a beg end_ b e).length = ((a.length : Int) + b - e + 2).toNat := by
  unfold rangeset_add
  have hge : ¬ beg ≥ end_ := by omega
  simp [if_neg hge]

theorem rangeset_add_eq_splice (a : rangeset_t) (beg end_ b e : Int) (hlt : beg < end_)
    (hb : -1 ≤ b) (hbe : b < e) (he : e ≤ a.length) :
    rangeset_add a beg end_ b e =
      a.take (b + 1).toNat ++ [merged a beg end_ b e] ++ a.drop e.toNat := by
  obtain ⟨B, hB⟩ := Int.eq_ofNat_of_zero_le (by omega : 0 ≤ b + 1)
  obtain ⟨E, hE⟩ := Int.eq_ofNat_of_zero_le (by omega : 0 ≤ e)
  have hBE : B ≤ E := by omega
  have hEn : E ≤ a.length := by omega
  apply List.ext_getElem
  · rw [rangeset_add_length a beg end_ b e hlt]
    simp only [List.length_append, List.length_take, List.length_drop, List.length_singleton]
    rw [hB, hE, Int.toNat_ofNat, Int.toNat_ofNat]
    omega
  · intro i h1 h2
    have hge : ¬ beg ≥ end_ := by omega
    have hlen := rangeset_add_length a beg end_ b e hlt
    have hi : (i : Int) < (a.length : Int) + b - e + 2 := by
      rw [hlen] at h1; omega
    simp only [rangeset_add, if_neg hge, List.getElem_map, List.getElem_range, Int.ofNat_eq_coe]
    rcases Nat.lt_trichotomy i B with hiB | hiB | hiB
    · have hne : ¬ ((i : Int) = b + 1) := by omega
      have hnm : ¬ (sizeLt e a.length = true ∧ b + 2 ≤ (i : Int) ∧
          (i : Int) < b + 2 + ((a.length : Int) - e)) := by
        simp only [sizeLt, decide_eq_true_eq]
        omega
      rw [if_neg hne, if_neg hnm, rget_ofNat a i (by omega)]
      have hBt : (b + 1).toNat = B := by omega
      rw [List.getElem_append_left (by simp; omega), List.getElem_append_left (by simp; omega)]
      simp
    · have hne : ((i : Int) = b + 1) := by omega
      rw [if_pos hne]
      have hBt : (b + 1).toNat = B := by omega
      rw [List.getElem_append_left (by simp; omega), List.getElem_append_right (by simp; omega)]
      simp [merged]
    · have hne : ¬ ((i : Int) = b + 1) := by omega
      have hnm : (sizeLt e a.length = true ∧ b + 2 ≤ (i : Int) ∧
          (i : Int) < b + 2 + ((a.length : Int) - e)) := by
        simp only [sizeLt, decide_eq_true_eq]
        omega
      rw [if_neg hne, if_pos hnm]
      have hidx : (i : Int) - (b + 2) + e = ((i - B - 1 + E : Nat) : Int) := by omega
      rw [hidx, rget_ofNat a _ (by omega)]
      rw [List.getElem_append_right (by simp; omega)]
      simp only [List.length_append, List.length_take, List.length_singleton, List.getElem_drop]
      congr 1
      rw [hB, hE, Int.toNat_ofNat, Int.toNat_ofNat]
      omega

theorem mem_rget (a : rangeset_t) (r : range_t) (h : r ∈ a) :
    ∃ i : Int, 0 ≤ i ∧ i < a.length ∧ rget a i = r := by
  obtain ⟨k, hk, rfl⟩ := List.mem_iff_getElem.1 h
  exact ⟨k, by omega, by omega, rget_ofNat a k hk⟩

theorem mem_take_rget (a : rangeset_t) (B : Nat) (r : range_t) (h : r ∈ a.take B) :
    ∃ i : Int, 0 ≤ i ∧ i < B ∧ i < a.length ∧ rget a i = r := by
  obtain ⟨k, hk, rfl⟩ := List.mem_take_iff_getElem.1 h
  have hk1 : k < a.length := by omega
  exact ⟨k, by omega, by omega, by omega, rget_ofNat a k hk1⟩

theorem mem_drop_rget (a : rangeset_t) (E : Nat) (r : range_t) (h : r ∈ a.drop E) :
    ∃ i : Int, (E : Int) ≤ i ∧ i < a.length ∧ rget a i = r := by
  obtain ⟨k, hk, rfl⟩ := List.mem_drop_iff_getElem.1 h
  exact ⟨(E + k : Nat), by omega, by omega, rget_ofNat a (E + k) (by omega)⟩

theorem rget_mem_take (a : rangeset_t) (B : Nat) (i : Int) (h0 : 0 ≤ i) (hB : i < B)
    (hn : i < a.length) : rget a i ∈ a.take B := by
  obtain ⟨k, rfl⟩ := Int.eq_ofNat_of_zero_le h0
  have hk : k < a.length := by omega
  rw [rget_ofNat a k hk]
  exact List.mem_take_iff_getElem.2 ⟨k, by omega, rfl⟩

theorem rget_mem_drop (a : rangeset_t) (E : Nat) (i : Int) (hE : (E : Int) ≤ i)
    (hn : i < a.length) : rget a i ∈ a.drop E := by
  obtain ⟨k, rfl⟩ := Int.eq_ofNat_of_zero_le (by omega : 0 ≤ i)
  have hk : k < a.length := by omega
  rw [rget_ofNat a k hk]
  refine List.mem_drop_iff_getElem.2 ⟨k - E, by omega, ?_⟩
  congr 1; omega

theorem merged_beg_le (a : rangeset_t) (beg end_ b e : Int) :
    (merged a beg end_ b e).beg ≤ beg := by
  simp only [merged, MIN]
  split <;> [split; skip] <;> omega

theorem merged_end_ge (a : rangeset_t) (beg end_ b e : Int) :
    end_ ≤ (merged a beg end_ b e).end_ := by
  simp only [merged, MAX]
  split <;> [split; skip] <;> omega

theorem merged_beg_cases (a : rangeset_t) (beg end_ b e : Int) :
    (merged a beg end_ b e).beg = beg ∨
      (0 ≤ b + 1 ∧ b + 1 < a.length ∧ (merged a beg end_ b e).beg = (rget a (b + 1)).beg) := by
  simp only [merged, MIN, sizeLt, decide_eq_true_eq]
  split
  · split
    · right; rename_i h _; exact ⟨h.1, h.2, rfl⟩
    · left; rfl
  · left; rfl

theorem merged_end_cases (a : rangeset_t) (beg end_ b e : Int) :
    (merged a beg end_ b e).end_ = end_ ∨
      (0 ≤ e - 1 ∧ e - 1 < a.length ∧
        (merged a beg end_ b e).end_ = (rget a (e - 1)).end_) := by
  simp only [merged, MAX, sizeLt, decide_eq_true_eq]
  split
  · split
    · right; rename_i h _; exact ⟨h.1, h.2, rfl⟩
    · left; rfl
  · left; rfl

theorem rangeset_add_inv (a : rangeset_t) (h : rangeset_inv a) (beg end_ b e : Int)
    (hlt : beg < end_) (hbd : Bounds a beg end_ b e) :
    rangeset_inv (rangeset_add a beg end_ b e) := by
  rw [rangeset_add_eq_splice a beg end_ b e hlt hbd.hb hbd.hbe hbd.he]
  obtain ⟨hne, hp⟩ := (rangeset_inv_iff_pairwise a).1 h
  rw [rangeset_inv_iff_pairwise]
  have hB : ((b + 1).toNat : Int) = b + 1 := Int.toNat_of_nonneg (by have := hbd.hb; omega)
  have hE : (e.toNat : Int) = e := Int.toNat_of_nonneg (by have := hbd.hb; have := hbd.hbe; omega)
  have hmb := merged_beg_le a beg end_ b e
  have hme := merged_end_ge a beg end_ b e
  have hLm : ∀ x ∈ a.take (b + 1).toNat, x.end_ < (merged a beg end_ b e).beg := by
    intro x hx
    obtain ⟨i, hi0, hiB, hin, rfl⟩ := mem_take_rget a _ x hx
    rcases merged_beg_cases a beg end_ b e with hc | ⟨_, hc2, hc⟩
    · rw [hc]; exact hbd.left i hi0 (by omega)
    · rw [hc]; exact rangeset_inv_index a h i (b + 1) hi0 (by omega) hc2
  have hmR : ∀ y ∈ a.drop e.toNat, (merged a beg end_ b e).end_ < y.beg := by
    intro y hy
    obtain ⟨j, hjE, hjn, rfl⟩ := mem_drop_rget a _ y hy
    rcases merged_end_cases a beg end_ b e with hc | ⟨hc1, _, hc⟩
    · rw [hc]; exact hbd.right j (by omega) hjn
    · rw [hc]; exact rangeset_inv_index a h (e - 1) j hc1 (by omega) hjn
  constructor
  · intro r hr
    simp only [List.mem_append, List.mem_singleton] at hr
    rcases hr with (hr | rfl) | hr
    · exact hne r (List.mem_of_mem_take hr)
    · omega
    · exact hne r (List.mem_of_mem_drop hr)
  · rw [List.pairwise_append]
    refine ⟨?_, hp.sublist (List.drop_sublist _ _), ?_⟩
    · rw [List.pairwise_append]
      refine ⟨hp.sublist (List.take_sublist _ _), List.pairwise_singleton _ _, ?_⟩
      intro x hx y hy
      rw [List.mem_singleton] at hy
      subst hy
      exact hLm x hx
    · intro x hx y hy
      simp only [List.mem_append, List.mem_singleton] at hx
      rcases hx with hx | rfl
      · have h1 := hLm x hx
        have h2 := hmR y hy
        have : x.beg < x.end_ := hne x (List.mem_of_mem_take hx)
        omega
      · exact hmR y hy

theorem rangeset_insert_inv (a : rangeset_t) (h : rangeset_inv a) (beg end_ : Int) :
    rangeset_inv (rangeset_insert a beg end_) := by
  unfold rangeset_insert
  by_cases hlt : beg < end_
  · exact rangeset_add_inv a h beg end_ _ _ hlt (rangeset_overlap_bounds a h beg end_ hlt)
  · have hge : beg ≥ end_ := by omega
    simp only [rangeset_add, if_pos hge]
    exact h

/-- C1. RangeSet invariant: starting from the empty set, after any finite
sequence of insertions, each a call of `rangeset_overlap` followed by
`rangeset_add` with the boundary indices that call returned, every stored
interval has `beg < end` and every stored interval ends strictly before the
next one begins. -/
theorem rangeset_inv_of_inserts (steps : List (Int × Int)) :
    rangeset_inv
      (steps.foldl (fun s p =>
        rangeset_add s p.1 p.2 (rangeset_overlap s p.1 p.2).2.1 (rangeset_overlap s p.1 p.2).2.2)
        []) := by
  have key : ∀ (l : List (Int × Int)) (s : rangeset_t), rangeset_inv s →
      rangeset_inv (l.foldl (fun s p =>
        rangeset_add s p.1 p.2 (rangeset_overlap s p.1 p.2).2.1
          (rangeset_overlap s p.1 p.2).2.2) s) := by
    intro l
    induction l with
    | nil => intro s hs; exact hs
    | cons p l ih =>
      intro s hs
      exact ih _ (rangeset_insert_inv s hs p.1 p.2)
  exact key steps [] (by decide)

theorem merged_beg_le_next (a : rangeset_t) (beg end_ b e : Int) (h0 : 0 ≤ b + 1)
    (hn : b + 1 < a.length) : (merged a beg end_ b e).beg ≤ (rget a (b + 1)).beg := by
  have hs : sizeLt (b + 1) a.length = true := by simp [sizeLt]; omega
  simp only [merged, MIN, hs, if_true]
  split <;> omega

theorem merged_end_ge_prev (a : rangeset_t) (beg end_ b e : Int) (h0 : 0 ≤ e - 1)
    (hn : e - 1 < a.length) : (rget a (e - 1)).end_ ≤ (merged a beg end_ b e).end_ := by
  have hs : sizeLt (e - 1) a.length = true := by simp [sizeLt]; omega
  simp only [merged, MAX, hs, if_true]
  split <;> omega

theorem covered_splice (a : rangeset_t) (h : rangeset_inv a) (beg end_ b e : Int)
    (_hlt : beg < end_) (hbd : Bounds a beg end_ b e) (x : Int) :
    covered (a.take (b + 1).toNat ++ [merged a beg end_ b e] ++ a.drop e.toNat) x ↔
      covered a x ∨ (beg ≤ x ∧ x < end_) := by
  have hB : ((b + 1).toNat : Int) = b + 1 := Int.toNat_of_nonneg (by have := hbd.hb; omega)
  have hE : (e.toNat : Int) = e := Int.toNat_of_nonneg (by have := hbd.hb; have := hbd.hbe; omega)
  have hmb := merged_beg_le a beg end_ b e
  have hme := merged_end_ge a beg end_ b e
  constructor
  · rintro ⟨r, hr, hx1, hx2⟩
    simp only [List.mem_append, List.mem_singleton] at hr
    rcases hr with (hr | rfl) | hr
    · exact Or.inl ⟨r, List.mem_of_mem_take hr, hx1, hx2⟩
    · by_cases hxb : x < beg
      · left
        rcases merged_beg_cases a beg end_ b e with hc | ⟨hc1, hc2, hc⟩
        · omega
        · refine ⟨rget a (b + 1), rget_mem a _ hc1 hc2, by omega, ?_⟩
          have := hbd.mid_end (b + 1) (by omega) hc2
          omega
      · by_cases hxe : x < end_
        · right; omega
        · left
          rcases merged_end_cases a beg end_ b e with hc | ⟨hc1, hc2, hc⟩
          · omega
          · refine ⟨rget a (e - 1), rget_mem a _ hc1 hc2, ?_, by omega⟩
            have := hbd.mid_beg (e - 1) hc1 (by omega)
            omega
    · exact Or.inl ⟨r, List.mem_of_mem_drop hr, hx1, hx2⟩
  · rintro (⟨r, hr, hx1, hx2⟩ | ⟨hx1, hx2⟩)
    · obtain ⟨i, hi0, hin, rfl⟩ := mem_rget a r hr
      by_cases hib : i ≤ b
      · refine ⟨rget a i, ?_, hx1, hx2⟩
        simp only [List.mem_append, List.mem_singleton]
        exact Or.inl (Or.inl (rget_mem_take a _ i hi0 (by omega) hin))
      · by_cases hie : e ≤ i
        · refine ⟨rget a i, ?_, hx1, hx2⟩
          simp only [List.mem_append, List.mem_singleton]
          exact Or.inr (rget_mem_drop a _ i (by omega) hin)
        · refine ⟨merged a beg end_ b e, by simp, ?_, ?_⟩
          · have h1 := merged_beg_le_next a beg end_ b e (by omega) (by omega)
            have h2 := rangeset_inv_beg_mono a h (b + 1) i (by omega) (by omega) hin
            omega
          · have hen := hbd.he
            have h1 := merged_end_ge_prev a beg end_ b e (by omega) (by omega)
            have h2 := rangeset_inv_end_mono a h i (e - 1) hi0 (by omega) (by omega)
            omega
    · exact ⟨merged a beg end_ b e, by simp, by omega, by omega⟩

theorem spanned_of_lt (a : rangeset_t) (b e : Int) (hb : -1 ≤ b) (hbe : b + 1 < e)
    (he : e ≤ a.length) :
    (spanned a b e).head? = some (rget a (b + 1)) ∧
    (spanned a b e).getLast? = some (rget a (e - 1)) := by
  obtain ⟨B, hB⟩ := Int.eq_ofNat_of_zero_le (by omega : 0 ≤ b + 1)
  obtain ⟨E, hE⟩ := Int.eq_ofNat_of_zero_le (by omega : 0 ≤ e - 1)
  have hEe : e = ((E + 1 : Nat) : Int) := by omega
  unfold spanned
  rw [hB, hEe, Int.toNat_ofNat, Int.toNat_ofNat]
  have hE1 : (((E + 1 : Nat) : Int) - 1) = (E : Int) := by omega
  rw [hE1, rget_ofNat a B (by omega), rget_ofNat a E (by omega)]
  constructor
  · rw [List.head?_drop, List.getElem?_take_of_lt (by omega)]
    exact List.getElem?_eq_getElem _
  · rw [List.getLast?_drop, if_neg (by simp; omega), List.getLast?_take]
    simp only [Nat.add_one_ne_zero, if_false, Nat.add_sub_cancel]
    rw [List.getElem?_eq_getElem (by omega)]
    rfl

theorem spanned_of_eq (a : rangeset_t) (b e : Int) (_hb : -1 ≤ b) (hbe : b + 1 = e) :
    spanned a b e = [] := by
  unfold spanned
  subst hbe
  apply List.drop_eq_nil_of_le
  simp

theorem merged_eq (a : rangeset_t) (_h : rangeset_inv a) (beg end_ b e : Int)
    (hlt : beg < end_) (hbd : Bounds a beg end_ b e) :
    merged a beg end_ b e =
      ⟨((spanned a b e).head?).elim beg (fun f => min beg f.beg),
       ((spanned a b e).getLast?).elim end_ (fun l => max end_ l.end_)⟩ := by
  have hb := hbd.hb
  have hbe := hbd.hbe
  have he := hbd.he
  by_cases hc : b + 1 < e
  · obtain ⟨h1, h2⟩ := spanned_of_lt a b e hb hc he
    have hs1 : sizeLt (b + 1) a.length = true := by simp [sizeLt]; omega
    have hs2 : sizeLt (e - 1) a.length = true := by simp [sizeLt]; omega
    rw [h1, h2]
    simp only [merged, hs1, hs2, if_true, Option.elim, MIN, MAX]
    congr 1
    · split <;> omega
    · split <;> omega
  · have hbe1 : b + 1 = e := by omega
    rw [spanned_of_eq a b e hb hbe1]
    simp only [List.head?_nil, List.getLast?_nil, Option.elim]
    have hmb := merged_beg_le a beg end_ b e
    have hme := merged_end_ge a beg end_ b e
    have e1 : (merged a beg end_ b e).beg = beg := by
      rcases merged_beg_cases a beg end_ b e with hc | ⟨hc1, hc2, hc⟩
      · exact hc
      · have := hbd.right (b + 1) (by omega) hc2
        omega
    have e2 : (merged a beg end_ b e).end_ = end_ := by
      rcases merged_end_cases a beg end_ b e with hc | ⟨hc1, hc2, hc⟩
      · exact hc
      · have := hbd.left (e - 1) hc1 (by omega)
        omega
    cases hm : merged a beg end_ b e with
    | mk mb me =>
      rw [hm] at e1 e2
      simp only at e1 e2
      rw [e1, e2]

/-- C3. For a set satisfying the RangeSet invariant, `beg < end` and the
boundary indices `(b, e)` that `rangeset_overlap` returned for that range:
after `rangeset_add` a position is covered iff it was covered before or lies
in `[beg, end)`; the stored intervals at old indices `0..b` and `e..n-1` are
kept and everything between them is replaced by the single interval
`[min(beg, first spanned begin), max(end, last spanned end))`. -/
theorem rangeset_add_correct (a : rangeset_t) (beg end_ : Int)
    (h : rangeset_inv a) (hlt : beg < end_) :
    (∀ x : Int,
      covered (rangeset_add a beg end_ (rangeset_overlap a beg end_).2.1
        (rangeset_overlap a beg end_).2.2) x ↔ covered a x ∨ (beg ≤ x ∧ x < end_)) ∧
    rangeset_add a beg end_ (rangeset_overlap a beg end_).2.1 (rangeset_overlap a beg end_).2.2 =
      a.take ((rangeset_overlap a beg end_).2.1 + 1).toNat ++
        [⟨((spanned a (rangeset_overlap a beg end_).2.1
              (rangeset_overlap a beg end_).2.2).head?).elim beg (fun f => min beg f.beg),
          ((spanned a (rangeset_overlap a beg end_).2.1
              (rangeset_overlap a beg end_).2.2).getLast?).elim end_
            (fun l => max end_ l.end_)⟩] ++
        a.drop (rangeset_overlap a beg end_).2.2.toNat := by
  have hbd := rangeset_overlap_bounds a h beg end_ hlt
  have hsp := rangeset_add_eq_splice a beg end_ _ _ hlt hbd.hb hbd.hbe hbd.he
  constructor
  · intro x
    rw [hsp]
    exact covered_splice a h beg end_ _ _ hlt hbd x
  · rw [hsp, merged_eq a h beg end_ _ _ hlt hbd]

/-- Witness for C3: inserting `[20, 40)` into `[10,20) [25,30) [40,50)`. -/
theorem rangeset_add_correct_witness :
    rangeset_inv [⟨10, 20⟩, ⟨25, 30⟩, ⟨40, 50⟩] ∧ (20 : Int) < 40 ∧
    rangeset_add [⟨10, 20⟩, ⟨25, 30⟩, ⟨40, 50⟩] 20 40
      (rangeset_overlap [⟨10, 20⟩, ⟨25, 30⟩, ⟨40, 50⟩] 20 40).2.1
      (rangeset_overlap [⟨10, 20⟩, ⟨25, 30⟩, ⟨40, 50⟩] 20 40).2.2 = [⟨10, 50⟩] ∧
    (∀ x : Int, covered [⟨10, 50⟩] x ↔
      covered [⟨10, 20⟩, ⟨25, 30⟩, ⟨40, 50⟩] x ∨ (20 ≤ x ∧ x < 40)) := by
  have hw := rangeset_add_correct [⟨10, 20⟩, ⟨25, 30⟩, ⟨40, 50⟩] 20 40 (by decide) (by decide)
  have he : rangeset_add [⟨10, 20⟩, ⟨25, 30⟩, ⟨40, 50⟩] 20 40
      (rangeset_overlap [⟨10, 20⟩, ⟨25, 30⟩, ⟨40, 50⟩] 20 40).2.1
      (rangeset_overlap [⟨10, 20⟩, ⟨25, 30⟩, ⟨40, 50⟩] 20 40).2.2 = [⟨10, 50⟩] := by decide
  refine ⟨by decide, by decide, he, ?_⟩
  intro x
  rw [← he]
  exact hw.1 x

/-! ## Overlap: the sum and the covered positions -/

theorem toInt32_of_int_range (x : Int) (h0 : -2147483648 ≤ x) (h1 : x < 2147483648) :
    toInt32 x = x := by
  unfold toInt32
  omega

theorem toInt32_of_high (x : Int) (h0 : 2147483648 ≤ x) (h1 : x < 4294967296) :
    toInt32 x = x - 4294967296 := by
  unfold toInt32
  omega

theorem toInt32_add_toInt32 (a b : Int) : toInt32 (a + toInt32 b) = toInt32 (a + b) := by
  unfold toInt32
  omega

theorem toInt32_toInt32 (a : Int) : toInt32 (toInt32 a) = toInt32 a := by
  unfold toInt32
  omega

theorem toInt64_of_int64_range (x : Int) (h0 : -9223372036854775808 ≤ x)
    (h1 : x < 9223372036854775808) : toInt64 x = x := by
  unfold toInt64
  omega

/-- The value `overlap` returns is the length of the intersection as an
`int`. -/
theorem overlap_eq_max (b1 e1 b2 e2 : Int) :
    overlap b1 e1 b2 e2 = toInt32 (max 0 (min e2 e1 - max b2 b1)) := by
  have hm : max 0 (min e2 e1 - max b2 b1) =
      if MAX b1 b2 < MIN e1 e2 then MIN e1 e2 - MAX b1 b2 else 0 := by
    simp only [MAX, MIN]
    split_ifs <;> omega
  rw [hm]
  simp only [overlap]
  split_ifs
  · rfl
  · rfl

theorem spanned_nil_of_le (a : rangeset_t) (b e : Int) (h : e ≤ b + 1) :
    spanned a b e = [] := by
  unfold spanned
  apply List.drop_eq_nil_of_le
  simp only [List.length_take]
  omega

theorem spanned_cons (a : rangeset_t) (b e : Int) (hb : -1 ≤ b) (hbe : b + 1 < e)
    (he : e ≤ a.length) :
    spanned a b e = rget a (b + 1) :: spanned a (b + 1) e := by
  obtain ⟨B, hB⟩ := Int.eq_ofNat_of_zero_le (by omega : 0 ≤ b + 1)
  obtain ⟨E, hE⟩ := Int.eq_ofNat_of_zero_le (by omega : 0 ≤ e)
  unfold spanned
  have h2 : b + 1 + 1 = ((B + 1 : Nat) : Int) := by omega
  rw [h2, hB, hE, Int.toNat_ofNat, Int.toNat_ofNat, Int.toNat_ofNat, rget_ofNat a B (by omega)]
  rw [List.drop_eq_getElem_cons (by simp; omega)]
  simp

theorem overlap_loop_eq (a : rangeset_t) (beg end_ e : Int) (he : e ≤ a.length) :
    ∀ (fuel : Nat) (b o : Int), -1 ≤ b → e - b - 1 ≤ fuel → toInt32 o = o →
      overlap_loop a beg end_ fuel b e o =
        toInt32 (o + ((spanned a b e).map
          (fun iv => max 0 (min end_ iv.end_ - max beg iv.beg))).sum) := by
  intro fuel
  induction fuel with
  | zero =>
    intro b o hb hf ho
    simp only [overlap_loop]
    rw [spanned_nil_of_le a b e (by omega)]
    simp [ho]
  | succ fuel ih =>
    intro b o hb hf ho
    simp only [overlap_loop]
    by_cases hc : b + 1 < e
    · rw [if_pos hc, ih (b + 1) _ (by omega) (by push_cast at hf; omega)
          (toInt32_toInt32 _),
        spanned_cons a b e hb hc he, overlap_eq_max]
      simp only [List.map_cons, List.sum_cons]
      generalize ((spanned a (b + 1) e).map
        (fun iv => max 0 (min end_ iv.end_ - max beg iv.beg))).sum = S
      generalize max 0 (min end_ (rget a (b + 1)).end_ - max beg (rget a (b + 1)).beg) = x
      unfold toInt32
      omega
    · rw [if_neg hc, spanned_nil_of_le a b e (by omega)]
      simp [ho]

theorem list_split_spanned (a : rangeset_t) (b e : Int) (_hb : -1 ≤ b) (hbe : b < e) :
    a = a.take (b + 1).toNat ++ spanned a b e ++ a.drop e.toNat := by
  unfold spanned
  have h1 : a.take (b + 1).toNat = (a.take e.toNat).take (b + 1).toNat := by
    rw [List.take_take]
    congr 1
    omega
  rw [h1, List.take_append_drop, List.take_append_drop]

theorem sum_map_zero (l : List range_t) (f : range_t → Int) (h : ∀ r ∈ l, f r = 0) :
    (l.map f).sum = 0 := by
  induction l with
  | nil => rfl
  | cons x l ih =>
    simp only [List.map_cons, List.sum_cons]
    rw [h x (by simp), ih (fun r hr => h r (List.mem_cons_of_mem _ hr))]
    rfl

/-- Under the invariant the value returned is the sum of the intersection
lengths over all stored intervals, as an `int`. -/
theorem rangeset_overlap_sum (a : rangeset_t) (beg end_ : Int)
    (h : rangeset_inv a) (hlt : beg < end_) :
    (rangeset_overlap a beg end_).1 =
      toInt32 (a.map (fun iv => max 0 (min end_ iv.end_ - max beg iv.beg))).sum := by
  by_cases hn : a.length = 0
  · have : a = [] := List.length_eq_zero.1 hn
    subst this
    simp [rangeset_overlap, toInt32]
  · have hbd := rangeset_overlap_bounds a h beg end_ hlt
    have hc : ¬ (beg ≥ end_ ∨ a.length = 0) := by
      intro hc; rcases hc with hc | hc
      · omega
      · exact hn hc
    have hb := hbd.hb
    have hbe := hbd.hbe
    have he := hbd.he
    have hsplit := list_split_spanned a _ _ hb hbe
    have hB : (((rangeset_overlap a beg end_).2.1 + 1).toNat : Int) =
        (rangeset_overlap a beg end_).2.1 + 1 := Int.toNat_of_nonneg (by omega)
    have hE : ((rangeset_overlap a beg end_).2.2.toNat : Int) =
        (rangeset_overlap a beg end_).2.2 := Int.toNat_of_nonneg (by omega)
    have hloop : (rangeset_overlap a beg end_).1 =
        toInt32 ((spanned a (rangeset_overlap a beg end_).2.1
          (rangeset_overlap a beg end_).2.2).map
          (fun iv => max 0 (min end_ iv.end_ - max beg iv.beg))).sum := by
      have hl := overlap_loop_eq a beg end_ (rangeset_overlap a beg end_).2.2 he
        (a.length + 1) (rangeset_overlap a beg end_).2.1 0 hb (by push_cast; omega)
        (by unfold toInt32; omega)
      simp only [rangeset_overlap, if_neg hc] at hl ⊢
      rw [hl]
      simp
    rw [hloop]
    congr 1
    conv_rhs => rw [hsplit]
    simp only [List.map_append, List.sum_append]
    rw [sum_map_zero (a.take _), sum_map_zero (a.drop _)]
    · simp only [zero_add, add_zero]
    · intro r hr
      obtain ⟨j, hjE, hjn, rfl⟩ := mem_drop_rget a _ r hr
      have := hbd.right j (by omega) hjn
      have := rangeset_inv_nonempty a h j (by omega) hjn
      omega
    · intro r hr
      obtain ⟨i, hi0, hiB, hin, rfl⟩ := mem_take_rget a _ r hr
      have := hbd.left i hi0 (by omega)
      have := rangeset_inv_nonempty a h i hi0 hin
      omega

theorem card_filter_interval (beg end_ rb re : Int) :
    (((Finset.Ico beg end_).filter (fun x => rb ≤ x ∧ x < re)).card : Int) =
      max 0 (min end_ re - max beg rb) := by
  have : (Finset.Ico beg end_).filter (fun x => rb ≤ x ∧ x < re) =
      Finset.Ico (max beg rb) (min end_ re) := by
    ext x
    simp only [Finset.mem_filter, Finset.mem_Ico]
    omega
  rw [this, Int.card_Ico, Int.toNat_eq_max, max_comm]

theorem card_covered (a : rangeset_t) (beg end_ : Int)
    (hp : a.Pairwise (fun x y => x.end_ < y.beg)) :
    (((Finset.Ico beg end_).filter (fun x => covered a x)).card : Int) =
      (a.map (fun iv => max 0 (min end_ iv.end_ - max beg iv.beg))).sum := by
  induction a with
  | nil => simp [covered]
  | cons r l ih =>
    have hp' := List.pairwise_cons.1 hp
    have hcov : ∀ x, covered (r :: l) x ↔ (r.beg ≤ x ∧ x < r.end_) ∨ covered l x := by
      intro x
      simp [covered]
    have hf : (Finset.Ico beg end_).filter (fun x => covered (r :: l) x) =
        (Finset.Ico beg end_).filter (fun x => r.beg ≤ x ∧ x < r.end_) ∪
          (Finset.Ico beg end_).filter (fun x => covered l x) := by
      ext x
      simp only [Finset.mem_filter, Finset.mem_union, hcov]
      tauto
    have hd : Disjoint ((Finset.Ico beg end_).filter (fun x => r.beg ≤ x ∧ x < r.end_))
        ((Finset.Ico beg end_).filter (fun x => covered l x)) := by
      rw [Finset.disjoint_filter]
      rintro x _ ⟨_, hx2⟩ ⟨y, hy, hy1, _⟩
      have := hp'.1 y hy
      omega
    rw [hf, Finset.card_union_of_disjoint hd, List.map_cons, List.sum_cons, ← ih hp'.2,
      ← card_filter_interval]
    push_cast
    rfl

/-- C2 (amended). For a set satisfying the RangeSet invariant and a range with
`beg < end` of which the set covers at most `2^31 - 1` positions, the overlap
returned by `rangeset_overlap` is the sum of
`max(0, min(end, iv.end) - max(beg, iv.beg))` over all stored intervals, which
is the number of integer positions of `[beg, end)` that the set covers. -/
theorem rangeset_overlap_correct (a : rangeset_t) (beg end_ : Int)
    (h : rangeset_inv a) (hlt : beg < end_)
    (hfit : (a.map (fun iv => max 0 (min end_ iv.end_ - max beg iv.beg))).sum ≤ 2147483647) :
    (rangeset_overlap a beg end_).1 =
      (a.map (fun iv => max 0 (min end_ iv.end_ - max beg iv.beg))).sum ∧
    (rangeset_overlap a beg end_).1 =
      (((Finset.Ico beg end_).filter (fun x => covered a x)).card : Int) := by
  have h1 := rangeset_overlap_sum a beg end_ h hlt
  have h2 := card_covered a beg end_ ((rangeset_inv_iff_pairwise a).1 h).2
  have h0 : (0 : Int) ≤ (a.map (fun iv => max 0 (min end_ iv.end_ - max beg iv.beg))).sum := by
    rw [← h2]
    exact Int.ofNat_nonneg _
  rw [toInt32_of_int_range _ (by omega) (by omega)] at h1
  exact ⟨h1, by rw [h1, h2]⟩

/-- Witness for C2: the range `[15, 45)` against `[10,20) [25,30) [40,50)`. -/
theorem rangeset_overlap_correct_witness :
    rangeset_inv [⟨10, 20⟩, ⟨25, 30⟩, ⟨40, 50⟩] ∧ (15 : Int) < 45 ∧
    (rangeset_overlap [⟨10, 20⟩, ⟨25, 30⟩, ⟨40, 50⟩] 15 45).1 = 5 + 5 + 5 ∧
    (rangeset_overlap [⟨10, 20⟩, ⟨25, 30⟩, ⟨40, 50⟩] 15 45).1 =
      (((Finset.Ico (15 : Int) 45).filter
        (fun x => covered [⟨10, 20⟩, ⟨25, 30⟩, ⟨40, 50⟩] x)).card : Int) :=
  ⟨by decide, by decide, by decide,
    (rangeset_overlap_correct [⟨10, 20⟩, ⟨25, 30⟩, ⟨40, 50⟩] 15 45 (by decide) (by decide)
      (by decide)).2⟩

/-- C2 as stated fails for a range longer than `INT_MAX`.  The set holding the
one interval `[-2^31, 2^31 - 1)` satisfies the invariant; for the range
`[-2^31, 2^31 - 1)` the sum of the intersection lengths is `2^32 - 1`, and
`rangeset_overlap` returns `-1`: the length `min - max` does not fit the `int`
in which `overlap` computes it. -/
theorem rangeset_overlap_wraps :
    rangeset_inv [⟨-2147483648, 2147483647⟩] ∧ (-2147483648 : Int) < 2147483647 ∧
    (([⟨-2147483648, 2147483647⟩] : rangeset_t).map
      (fun iv => max 0 (min 2147483647 iv.end_ - max (-2147483648) iv.beg))).sum =
      4294967295 ∧
    overlap (-2147483648) 2147483647 (-2147483648) 2147483647 = -1 ∧
    (rangeset_overlap [⟨-2147483648, 2147483647⟩] (-2147483648) 2147483647).1 = -1 := by
  refine ⟨by decide, by decide, by decide, by decide, by decide⟩

/-! ## The selection loop -/

theorem le_cov_iff (o mlen : Int) (c : ℚ) :
    le_cov o mlen c = true ↔ (o : ℚ) ≤ (mlen : ℚ) * c := by
  unfold le_cov
  rw [decide_eq_true_eq]
  have hd : (0 : ℚ) < (c.den : ℚ) := by exact_mod_cast c.den_pos
  have hc : c = (c.num : ℚ) / (c.den : ℚ) := (Rat.num_div_den c).symm
  constructor
  · intro h
    have h1 : ((o * (c.den : Int) : Int) : ℚ) ≤ ((mlen * c.num : Int) : ℚ) := by exact_mod_cast h
    push_cast at h1
    rw [hc, mul_div_assoc', le_div_iff₀ hd]
    exact h1
  · intro h
    rw [hc, mul_div_assoc', le_div_iff₀ hd] at h
    exact_mod_cast h

theorem half_eq : half = 1 / 2 := by
  rw [half, Rat.mk'_eq_divInt, Rat.divInt_eq_div]
  norm_num

theorem rba_loop_snoc (max_cov : ℚ) (pre : List aln_t) (r : aln_t) :
    rba_loop max_cov (pre ++ [r]) = rba_step max_cov (rba_loop max_cov pre) r := by
  simp [rba_loop, List.foldl_append]

theorem rba_accepts_iff (max_cov : ℚ) (st : rba_state) (r : aln_t) :
    rba_accepts max_cov st r = true ↔
      (((rangeset_overlap (st.q_span r.aread) (toInt32 r.abpos) (toInt32 r.aepos)).1 : Int) : ℚ)
          ≤ (r.mlen : ℚ) * max_cov ∧
      (((rangeset_overlap (st.t_span r.bread) (toInt32 r.bbpos) (toInt32 r.bepos)).1 : Int) : ℚ)
          ≤ (r.mlen : ℚ) * max_cov := by
  simp only [rba_accepts, Bool.and_eq_true, le_cov_iff]

/-- C4. Greedy acceptance rule of `reciprocal_best_aligns`: when the loop,
having visited the records `pre` of the score-sorted array, visits the record
`r`, it accepts `r` iff `qo <= score * max_cov` and `to <= score * max_cov`,
`qo` and `to` being `rangeset_overlap` of the query and target interval of
`r` against the current coverage sets of its two sequences; on acceptance the
two intervals are inserted into those two sets with the indices of that same
query and the counter grows, on rejection every set is unchanged and the
score of the record becomes 0. -/
theorem rba_acceptance_rule (max_cov : ℚ) (pre : List aln_t) (r : aln_t) :
    rba_loop max_cov (pre ++ [r]) =
      if (((rangeset_overlap ((rba_loop max_cov pre).q_span r.aread)
              (toInt32 r.abpos) (toInt32 r.aepos)).1 : Int) : ℚ) ≤ (r.mlen : ℚ) * max_cov ∧
         (((rangeset_overlap ((rba_loop max_cov pre).t_span r.bread)
              (toInt32 r.bbpos) (toInt32 r.bepos)).1 : Int) : ℚ) ≤ (r.mlen : ℚ) * max_cov
      then
        ⟨Function.update (rba_loop max_cov pre).q_span r.aread
            (rangeset_add ((rba_loop max_cov pre).q_span r.aread)
              (toInt32 r.abpos) (toInt32 r.aepos)
              (rangeset_overlap ((rba_loop max_cov pre).q_span r.aread)
                (toInt32 r.abpos) (toInt32 r.aepos)).2.1
              (rangeset_overlap ((rba_loop max_cov pre).q_span r.aread)
                (toInt32 r.abpos) (toInt32 r.aepos)).2.2),
          Function.update (rba_loop max_cov pre).t_span r.bread
            (rangeset_add ((rba_loop max_cov pre).t_span r.bread)
              (toInt32 r.bbpos) (toInt32 r.bepos)
              (rangeset_overlap ((rba_loop max_cov pre).t_span r.bread)
                (toInt32 r.bbpos) (toInt32 r.bepos)).2.1
              (rangeset_overlap ((rba_loop max_cov pre).t_span r.bread)
                (toInt32 r.bbpos) (toInt32 r.bepos)).2.2),
          (rba_loop max_cov pre).alns ++ [r],
          (rba_loop max_cov pre).n_rec + 1⟩
      else
        ⟨(rba_loop max_cov pre).q_span, (rba_loop max_cov pre).t_span,
          (rba_loop max_cov pre).alns ++
            [⟨r.aread, r.bread, r.abpos, r.aepos, r.bbpos, r.bepos, 0⟩],
          (rba_loop max_cov pre).n_rec⟩ := by
  rw [rba_loop_snoc]
  have hiff := rba_accepts_iff max_cov (rba_loop max_cov pre) r
  by_cases hc : rba_accepts max_cov (rba_loop max_cov pre) r = true
  · rw [if_pos (hiff.1 hc)]
    simp only [rba_accepts] at hc
    simp only [rba_step, hc, if_true]
  · rw [if_neg (fun h => hc (hiff.2 h))]
    simp only [rba_accepts] at hc
    simp only [rba_step, hc]
    rfl

theorem rba_loop_alns_coords (max_cov : ℚ) (alns : List aln_t) :
    (rba_loop max_cov alns).alns.map
        (fun a => (a.aread, a.bread, a.abpos, a.aepos, a.bbpos, a.bepos)) =
      alns.map (fun a => (a.aread, a.bread, a.abpos, a.aepos, a.bbpos, a.bepos)) := by
  induction alns using List.reverseRecOn with
  | nil => rfl
  | append_singleton pre r ih =>
    rw [rba_loop_snoc]
    simp only [rba_step]
    split <;> simp [ih]

/-! ## Candidate enumeration and boxes -/

theorem takeWhile_eq_filter_sorted (b1 b2 : Int) (l : List aln_t)
    (hs : l.Pairwise (fun x y => x.abpos ≤ y.abpos)) (hge : ∀ a ∈ l, b1 ≤ a.abpos) :
    l.takeWhile (fun a => decide (a.abpos < b2)) =
      l.filter (fun a => decide (b1 ≤ a.abpos ∧ a.abpos < b2)) := by
  induction l with
  | nil => rfl
  | cons x xs ih =>
    have hs' := List.pairwise_cons.1 hs
    have hx := hge x (by simp)
    by_cases hc : x.abpos < b2
    · rw [List.takeWhile_cons_of_pos (by simpa using hc),
        List.filter_cons_of_pos (by simpa using ⟨hx, hc⟩),
        ih hs'.2 (fun a ha => hge a (List.mem_cons_of_mem _ ha))]
    · rw [List.takeWhile_cons_of_neg (by simpa using hc),
        List.filter_cons_of_neg (by simp; intro _; omega)]
      symm
      rw [List.filter_eq_nil_iff]
      intro a ha
      have := hs'.1 a ha
      simp only [decide_eq_true_eq, not_and, not_lt]
      intro _; omega

theorem window_eq_filter_sorted (b1 b2 : Int) (l : List aln_t)
    (hs : l.Pairwise (fun x y => x.abpos ≤ y.abpos)) :
    (l.dropWhile (fun a => decide (a.abpos < b1))).takeWhile (fun a => decide (a.abpos < b2)) =
      l.filter (fun a => decide (b1 ≤ a.abpos ∧ a.abpos < b2)) := by
  induction l with
  | nil => rfl
  | cons x xs ih =>
    have hs' := List.pairwise_cons.1 hs
    by_cases hc : x.abpos < b1
    · rw [List.dropWhile_cons_of_pos (by simpa using hc),
        List.filter_cons_of_neg (by simp; intro _; omega), ih hs'.2]
    · rw [List.dropWhile_cons_of_neg (by simpa using hc)]
      apply takeWhile_eq_filter_sorted b1 b2 (x :: xs) hs
      intro a ha
      rcases List.mem_cons.1 ha with rfl | ha
      · omega
      · have := hs'.1 a ha
        omega

theorem gap_scan_from_sorted (min_gap max_gap max_ovl : Int) (aln1 : aln_t) (rest : List aln_t)
    (hs : rest.Pairwise (fun x y => x.abpos ≤ y.abpos)) :
    gap_scan_from min_gap max_gap max_ovl aln1 rest =
      (rest.filter (fun a2 => decide (aln1.aepos + min_gap ≤ a2.abpos ∧
          a2.abpos < aln1.aepos + max_gap ∧
          min_gap ≤ gap_dist aln1 a2 ∧ gap_dist aln1 a2 ≤ max_gap))).map
        (gap_box max_ovl aln1) := by
  unfold gap_scan_from
  simp only
  rw [window_eq_filter_sorted _ _ rest hs, List.filter_filter]
  congr 1
  apply List.filter_congr
  intro a _
  rw [Bool.eq_iff_iff]
  simp only [gap_dist_ok, Bool.and_eq_true, decide_eq_true_eq]
  tauto

theorem index_pairs_succ (n : Nat) :
    index_pairs (n + 1) =
      (List.range' 1 n).map (fun j => (0, j)) ++
        (index_pairs n).map (fun p => (p.1 + 1, p.2 + 1)) := by
  unfold index_pairs
  rw [List.range_succ_eq_map, List.flatMap_cons, List.flatMap_map, List.map_flatMap]
  congr 1
  apply List.flatMap_congr
  intro i _
  simp only [List.map_map]
  have : n + 1 - (i + 1 + 1) = n - (i + 1) := by omega
  rw [this]
  have h2 : List.range' (i + 1 + 1) (n - (i + 1)) =
      (List.range' (i + 1) (n - (i + 1))).map (fun j => j + 1) := by
    apply List.ext_getElem
    · simp
    · intro k h1 h2
      simp only [List.getElem_map, List.getElem_range']
      omega
  rw [h2, List.map_map]
  rfl

theorem aget_cons_succ (x : aln_t) (xs : List aln_t) (i : Nat) :
    aget (x :: xs) (i + 1) = aget xs i := by
  simp [aget]

theorem aget_cons_zero (x : aln_t) (xs : List aln_t) : aget (x :: xs) 0 = x := by
  simp [aget]

theorem map_aget_range' (x : aln_t) (xs : List aln_t) :
    (List.range' 1 xs.length).map (fun j => aget (x :: xs) j) = xs := by
  apply List.ext_getElem
  · simp
  · intro i h1 h2
    simp only [List.getElem_map, List.getElem_range']
    have : 1 + 1 * i = i + 1 := by omega
    rw [this, aget_cons_succ]
    simp only [List.length_map, List.length_range'] at h1
    simp [aget, List.getElem?_eq_getElem h1]

theorem gap_candidates_spec_cons (min_gap max_gap max_ovl : Int) (x : aln_t) (xs : List aln_t) :
    gap_candidates_spec min_gap max_gap max_ovl (x :: xs) =
      (xs.filter (fun a2 => decide (x.aepos + min_gap ≤ a2.abpos ∧
          a2.abpos < x.aepos + max_gap ∧
          min_gap ≤ gap_dist x a2 ∧ gap_dist x a2 ≤ max_gap))).map (gap_box max_ovl x) ++
      gap_candidates_spec min_gap max_gap max_ovl xs := by
  unfold gap_candidates_spec
  rw [List.length_cons, index_pairs_succ, List.filter_append, List.map_append]
  congr 1
  · rw [List.filter_map, List.map_map]
    conv_rhs => rw [← map_aget_range' x xs]
    rw [List.filter_map, List.map_map]
    simp only [Function.comp_def, aget_cons_zero]
  · rw [List.filter_map, List.map_map]
    simp only [Function.comp_def, aget_cons_succ]

theorem gap_scan_eq_spec (min_gap max_gap max_ovl : Int) (a : List aln_t)
    (hs : a.Pairwise (fun x y => x.abpos ≤ y.abpos)) :
    gap_scan min_gap max_gap max_ovl a = gap_candidates_spec min_gap max_gap max_ovl a := by
  induction a with
  | nil => rfl
  | cons x xs ih =>
    have hs' := List.pairwise_cons.1 hs
    rw [gap_candidates_spec_cons, gap_scan, gap_scan_from_sorted _ _ _ _ _ hs'.2, ih hs'.2]

/-- C6. Candidate enumeration in `gap_core`: for a sentinel-bounded group
array sorted by non-decreasing `q_begin`, the candidate buffer built by the
scan is, in increasing `(i, j)` order, one box for every pair of positions
`i < j` with `a_i.q_end + min_gap <= a_j.q_begin < a_i.q_end + max_gap` and
`min_gap <= dist <= max_gap`, and holds no other box. -/
theorem gap_candidates_enumeration (min_gap max_gap max_ovl : Int) (group : List aln_t)
    (alen blen : Int)
    (hs : (gap_array group alen blen).Pairwise (fun x y => x.abpos ≤ y.abpos)) :
    gap_candidates min_gap max_gap max_ovl group alen blen =
      gap_candidates_spec min_gap max_gap max_ovl (gap_array group alen blen) :=
  gap_scan_eq_spec min_gap max_gap max_ovl _ hs

/-- Witness for C6: the group `Q[0,100)~T[0,100)`, `Q[600,700)~T[600,700)` on
sequences of length 1000, with `min_gap = 100`, `max_gap = 1000`, flank 100. -/
theorem gap_candidates_enumeration_witness :
    (gap_array [⟨0, 0, 0, 100, 0, 100, 100⟩, ⟨0, 0, 600, 700, 600, 700, 100⟩] 1000 1000).Pairwise
      (fun x y => x.abpos ≤ y.abpos) ∧
    gap_candidates 100 1000 100
        [⟨0, 0, 0, 100, 0, 100, 100⟩, ⟨0, 0, 600, 700, 600, 700, 100⟩] 1000 1000 =
      gap_candidates_spec 100 1000 100
        (gap_array [⟨0, 0, 0, 100, 0, 100, 100⟩, ⟨0, 0, 600, 700, 600, 700, 100⟩] 1000 1000) :=
  ⟨by decide, gap_candidates_enumeration 100 1000 100 _ 1000 1000 (by decide)⟩

/-- C7. Target extent of a candidate box: for `min_gap >= 1` and alignments
with `t_begin <= t_end`, for a pair `(a1, a2)` that passes the distance test,
with `E` the alignment `a1` if `a1.t_end < a2.t_end` and `a2` otherwise, and
`L` the other one, the box has `t_begin = max(E.t_begin, E.t_end - flank)` and
`t_end = min(L.t_end, L.t_begin + flank)`. -/
theorem gap_box_target_extent (min_gap max_gap max_ovl : Int) (a1 a2 : aln_t)
    (hmin : 1 ≤ min_gap) (h1 : a1.bbpos ≤ a1.bepos) (h2 : a2.bbpos ≤ a2.bepos)
    (hd : gap_dist_ok min_gap max_gap a1 a2 = true) :
    (gap_box max_ovl a1 a2).bbpos =
      max (if a1.bepos < a2.bepos then a1 else a2).bbpos
        ((if a1.bepos < a2.bepos then a1 else a2).bepos - max_ovl) ∧
    (gap_box max_ovl a1 a2).bepos =
      min (if a1.bepos < a2.bepos then a2 else a1).bepos
        ((if a1.bepos < a2.bepos then a2 else a1).bbpos + max_ovl) := by
  simp only [gap_dist_ok, gap_dist, decide_eq_true_eq] at hd
  simp only [gap_box]
  by_cases hc : a1.bepos < a2.bepos
  · simp only [if_pos hc] at hd ⊢
    have hb : ¬ a1.bbpos > a2.bbpos := by
      intro hb
      rw [if_pos hb] at hd
      omega
    rw [if_neg hb]
    constructor <;> split_ifs <;> omega
  · simp only [if_neg hc] at hd ⊢
    have hb : a1.bbpos > a2.bbpos := by
      by_contra hb
      rw [if_neg hb] at hd
      omega
    rw [if_pos hb]
    constructor <;> split_ifs <;> omega

/-- Witness for C7: the pair `Q[0,100)~T[0,100)`, `Q[600,700)~T[600,700)`. -/
theorem gap_box_target_extent_witness :
    (1 : Int) ≤ 100 ∧
    gap_dist_ok 100 1000 ⟨0, 0, 0, 100, 0, 100, 100⟩ ⟨0, 0, 600, 700, 600, 700, 100⟩ = true ∧
    (gap_box 100 ⟨0, 0, 0, 100, 0, 100, 100⟩ ⟨0, 0, 600, 700, 600, 700, 100⟩).bbpos =
      max (0 : Int) (100 - 100) ∧
    (gap_box 100 ⟨0, 0, 0, 100, 0, 100, 100⟩ ⟨0, 0, 600, 700, 600, 700, 100⟩).bepos =
      min (700 : Int) (600 + 100) :=
  ⟨by decide, by decide,
    gap_box_target_extent 100 1000 100 ⟨0, 0, 0, 100, 0, 100, 100⟩
      ⟨0, 0, 600, 700, 600, 700, 100⟩ (by decide) (by decide) (by decide) (by decide)⟩

/-- C8. Query extent of a candidate box: the box pushed for a pair
`(a1, a2)` has `q_begin = max(a1.q_begin, a1.q_end - max_overlap_flank)` and
`q_end = min(a2.q_end, a2.q_begin + max_overlap_flank)`; and every box of the
candidate buffer is the box of such a pair, `a2` coming after `a1` in the
array, that passes the distance test and starts before `a1.q_end + max_gap`. -/
theorem gap_box_query_extent (min_gap max_gap max_ovl : Int) :
    (∀ a1 a2 : aln_t,
      (gap_box max_ovl a1 a2).abpos = max a1.abpos (a1.aepos - max_ovl) ∧
      (gap_box max_ovl a1 a2).aepos = min a2.aepos (a2.abpos + max_ovl)) ∧
    (∀ (alns : List aln_t) (box : aln_t), box ∈ gap_scan min_gap max_gap max_ovl alns →
      ∃ a1 a2, [a1, a2].Sublist alns ∧ gap_dist_ok min_gap max_gap a1 a2 = true ∧
        a2.abpos < a1.aepos + max_gap ∧ box = gap_box max_ovl a1 a2) := by
  constructor
  · intro a1 a2
    simp only [gap_box]
    constructor <;> split_ifs <;> omega
  · intro alns
    induction alns with
    | nil => intro box hb; simp [gap_scan] at hb
    | cons x xs ih =>
      intro box hb
      rw [gap_scan, List.mem_append] at hb
      rcases hb with hb | hb
      · simp only [gap_scan_from, List.mem_map, List.mem_filter] at hb
        obtain ⟨a2, ⟨hw, hd⟩, rfl⟩ := hb
        have hmem : a2 ∈ xs := (List.dropWhile_sublist _).subset ((List.takeWhile_sublist _).subset hw)
        have hlt := List.mem_takeWhile_imp hw
        refine ⟨x, a2, ?_, hd, by simpa using hlt, rfl⟩
        exact List.Sublist.cons₂ x (List.singleton_sublist.2 hmem)
      · obtain ⟨a1, a2, hsub, hd, hlt, rfl⟩ := ih box hb
        exact ⟨a1, a2, List.Sublist.cons x hsub, hd, hlt, rfl⟩

/-! ## The dominance filter -/

theorem AORDER_le_iff (x y : aln_t) (hx : area_fits x) (hy : area_fits y) :
    AORDER x y ≤ 0 ↔ box_area x ≤ box_area y := by
  have ex : toInt64 ((x.aepos - x.abpos) * (x.bepos - x.bbpos)) = box_area x :=
    toInt64_of_int64_range _ hx.1 hx.2
  have ey : toInt64 ((y.aepos - y.abpos) * (y.bepos - y.bbpos)) = box_area y :=
    toInt64_of_int64_range _ hy.1 hy.2
  simp only [AORDER, ex, ey]
  split_ifs <;> omega

theorem box_inside_of_area_le (g r : aln_t) (hin : box_inside g r) (hpos : box_positive g)
    (ha : box_area r ≤ box_area g) : box_inside r g := by
  obtain ⟨h1, h2, h3, h4⟩ := hin
  obtain ⟨p1, p2⟩ := hpos
  simp only [box_area] at ha
  have hq : r.aepos - r.abpos = g.aepos - g.abpos := by
    by_contra hne
    have hlt : g.aepos - g.abpos + 1 ≤ r.aepos - r.abpos := by omega
    have ht : g.bepos - g.bbpos ≤ r.bepos - r.bbpos := by omega
    have hgt : 0 < g.bepos - g.bbpos := by omega
    have hgq : 0 < g.aepos - g.abpos := by omega
    nlinarith [mul_le_mul hlt ht (le_of_lt hgt) (by omega : (0:Int) ≤ r.aepos - r.abpos)]
  have ht : r.bepos - r.bbpos = g.bepos - g.bbpos := by
    by_contra hne
    have hlt : g.bepos - g.bbpos + 1 ≤ r.bepos - r.bbpos := by omega
    have hgq : 0 < g.aepos - g.abpos := by omega
    rw [hq] at ha
    nlinarith
  exact ⟨by omega, by omega, by omega, by omega⟩

theorem rtree_exist_node_inside_iff (pre : List aln_t) (g : aln_t) :
    rtree_exist_node_inside (pre.map box_rect) (g.abpos, g.bbpos) (g.aepos, g.bepos) = true ↔
      ∃ x ∈ pre, box_inside x g := by
  simp [rtree_exist_node_inside, box_rect, box_inside]

theorem rtree_insert_map (pre : List aln_t) (g : aln_t) (m : Int) :
    rtree_insert (pre.map box_rect) (g.abpos, g.bbpos) (g.aepos, g.bepos) =
      (pre ++ [(⟨g.aread, g.bread, g.abpos, g.aepos, g.bbpos, g.bepos, m⟩ : aln_t)]).map
        box_rect := by
  simp [rtree_insert, box_rect]

theorem dominance_loop_spec (rest : List aln_t) :
    ∀ pre : List aln_t,
      rest.Pairwise (fun x y => box_area x ≤ box_area y) →
      (∀ g ∈ rest, g.mlen = 0 ∧ box_positive g) →
      (∀ x ∈ pre, ∀ g ∈ rest, box_area x ≤ box_area g) →
      pre.Pairwise (fun x y => ¬ box_inside x y ∧ ¬ box_inside y x) →
      (pre ++ (dominance_loop (pre.map box_rect) rest).filter
          (fun g => decide (g.mlen ≠ 0))).Pairwise
        (fun x y => ¬ box_inside x y ∧ ¬ box_inside y x) ∧
      ∀ g ∈ dominance_loop (pre.map box_rect) rest, g.mlen = 0 →
        ∃ x ∈ pre ++ (dominance_loop (pre.map box_rect) rest).filter
          (fun g => decide (g.mlen ≠ 0)), box_inside x g := by
  induction rest with
  | nil =>
    intro pre _ _ _ hanti
    simp only [dominance_loop, List.filter_nil, List.append_nil]
    exact ⟨hanti, fun g hg => by cases hg⟩
  | cons g rest ih =>
    intro pre hsort hcand harea hanti
    have hs := List.pairwise_cons.1 hsort
    have hg := hcand g (by simp)
    have hrest : ∀ g' ∈ rest, g'.mlen = 0 ∧ box_positive g' :=
      fun g' h => hcand g' (List.mem_cons_of_mem _ h)
    by_cases hex : rtree_exist_node_inside (pre.map box_rect) (g.abpos, g.bbpos)
        (g.aepos, g.bepos) = true
    · have hloop : dominance_loop (pre.map box_rect) (g :: rest) =
          g :: dominance_loop (pre.map box_rect) rest := by
        simp only [dominance_loop, hex, if_true]
      obtain ⟨i1, i2⟩ := ih pre hs.2 hrest
        (fun x hx g' hg' => harea x hx g' (List.mem_cons_of_mem _ hg')) hanti
      rw [hloop, List.filter_cons_of_neg (by simp [hg.1])]
      refine ⟨i1, ?_⟩
      intro g' hg' hm
      rcases List.mem_cons.1 hg' with rfl | hg'
      · obtain ⟨x, hx, hin⟩ := (rtree_exist_node_inside_iff pre g').1 hex
        exact ⟨x, List.mem_append_left _ hx, hin⟩
      · exact i2 g' hg' hm
    · have hloop : dominance_loop (pre.map box_rect) (g :: rest) =
          (⟨g.aread, g.bread, g.abpos, g.aepos, g.bbpos, g.bepos, 1⟩ : aln_t) ::
            dominance_loop ((pre ++ [(⟨g.aread, g.bread, g.abpos, g.aepos, g.bbpos, g.bepos,
              1⟩ : aln_t)]).map box_rect) rest := by
        simp only [dominance_loop, hex, rtree_insert_map pre g 1]
        rfl
      have hno : ¬ ∃ x ∈ pre, box_inside x g :=
        fun h => hex ((rtree_exist_node_inside_iff pre g).2 h)
      have hanti' : (pre ++ [(⟨g.aread, g.bread, g.abpos, g.aepos, g.bbpos, g.bepos, 1⟩ :
          aln_t)]).Pairwise (fun x y => ¬ box_inside x y ∧ ¬ box_inside y x) := by
        rw [List.pairwise_append]
        refine ⟨hanti, List.pairwise_singleton _ _, ?_⟩
        intro x hx y hy
        rw [List.mem_singleton] at hy
        subst hy
        constructor
        · intro hxg
          exact hno ⟨x, hx, hxg⟩
        · intro hgx
          have hgx' : box_inside g x := hgx
          have := box_inside_of_area_le g x hgx' hg.2 (harea x hx g (by simp))
          exact hno ⟨x, hx, this⟩
      have harea' : ∀ x ∈ pre ++ [(⟨g.aread, g.bread, g.abpos, g.aepos, g.bbpos, g.bepos, 1⟩ :
          aln_t)], ∀ g' ∈ rest, box_area x ≤ box_area g' := by
        intro x hx g' hg'
        rcases List.mem_append.1 hx with hx | hx
        · exact harea x hx g' (List.mem_cons_of_mem _ hg')
        · rw [List.mem_singleton] at hx
          subst hx
          exact hs.1 g' hg'
      obtain ⟨i1, i2⟩ := ih _ hs.2 hrest harea' hanti'
      rw [hloop, List.filter_cons_of_pos (by simp)]
      rw [List.append_assoc, List.singleton_append] at i1 i2
      refine ⟨i1, ?_⟩
      intro g' hg' hm
      rcases List.mem_cons.1 hg' with rfl | hg'
      · simp at hm
      · exact i2 g' hg' hm

theorem qsort_AORDER_area (gaps sorted : List aln_t) (hq : qsort_result AORDER gaps sorted)
    (hfit : ∀ g ∈ gaps, area_fits g) :
    sorted.Pairwise (fun x y => box_area x ≤ box_area y) := by
  have hall : ∀ g ∈ sorted, area_fits g := fun g hg => hfit g (hq.1.subset hg)
  have h2 := List.Pairwise.and_mem.1 hq.2
  exact h2.imp (fun h => (AORDER_le_iff _ _ (hall _ h.1) (hall _ h.2.1)).1 h.2.2)

/-- C9 (amended). Dominance filter yields an antichain: for a candidate
buffer whose boxes all have positive query and target extent and an area
below `2^63`, after the area-ascending pass of `gap_core` no accepted box
contains another accepted box, and every rejected box contains an accepted
box. -/
theorem dominance_antichain (gaps sorted : List aln_t)
    (hq : qsort_result AORDER gaps sorted)
    (hc : ∀ g ∈ gaps, is_candidate g ∧ box_positive g)
    (hfit : ∀ g ∈ gaps, area_fits g) :
    ((dominance_filter sorted).filter (fun g => decide (g.mlen ≠ 0))).Pairwise
      (fun x y => ¬ box_inside x y ∧ ¬ box_inside y x) ∧
    ∀ g ∈ dominance_filter sorted, g.mlen = 0 →
      ∃ x ∈ dominance_filter sorted, x.mlen ≠ 0 ∧ box_inside x g := by
  have hc' : ∀ g ∈ sorted, g.mlen = 0 ∧ box_positive g := by
    intro g hg
    have := hc g (hq.1.subset hg)
    exact ⟨this.1.2.2, this.2⟩
  obtain ⟨h1, h2⟩ := dominance_loop_spec sorted [] (qsort_AORDER_area gaps sorted hq hfit) hc'
    (fun x hx => by cases hx) List.Pairwise.nil
  simp only [List.map_nil, List.nil_append] at h1 h2
  refine ⟨h1, ?_⟩
  intro g hg hm
  obtain ⟨x, hx, hin⟩ := h2 g hg hm
  rw [List.mem_filter] at hx
  exact ⟨x, hx.1, by simpa using hx.2, hin⟩

/-- Witness for C9: the four candidates of the group `Q[0,100)~T[0,100)`,
`Q[600,700)~T[600,700)` on sequences of length 1000. -/
theorem dominance_antichain_witness :
    qsort_result AORDER
      [⟨0, 0, 0, 700, 0, 700, 0⟩, ⟨0, 0, 0, 700, 0, 700, 0⟩, ⟨0, 0, 0, 1000, 0, 1000, 0⟩,
        ⟨0, 0, 600, 1000, 600, 1000, 0⟩]
      [⟨0, 0, 600, 1000, 600, 1000, 0⟩, ⟨0, 0, 0, 700, 0, 700, 0⟩, ⟨0, 0, 0, 700, 0, 700, 0⟩,
        ⟨0, 0, 0, 1000, 0, 1000, 0⟩] ∧
    dominance_filter
      [⟨0, 0, 600, 1000, 600, 1000, 0⟩, ⟨0, 0, 0, 700, 0, 700, 0⟩, ⟨0, 0, 0, 700, 0, 700, 0⟩,
        ⟨0, 0, 0, 1000, 0, 1000, 0⟩] =
      [⟨0, 0, 600, 1000, 600, 1000, 1⟩, ⟨0, 0, 0, 700, 0, 700, 1⟩, ⟨0, 0, 0, 700, 0, 700, 0⟩,
        ⟨0, 0, 0, 1000, 0, 1000, 0⟩] ∧
    ((dominance_filter
      [⟨0, 0, 600, 1000, 600, 1000, 0⟩, ⟨0, 0, 0, 700, 0, 700, 0⟩, ⟨0, 0, 0, 700, 0, 700, 0⟩,
        ⟨0, 0, 0, 1000, 0, 1000, 0⟩]).filter (fun g => decide (g.mlen ≠ 0))).Pairwise
      (fun x y => ¬ box_inside x y ∧ ¬ box_inside y x) :=
  ⟨⟨by decide, by decide⟩, by decide,
    (dominance_antichain
      [⟨0, 0, 0, 700, 0, 700, 0⟩, ⟨0, 0, 0, 700, 0, 700, 0⟩, ⟨0, 0, 0, 1000, 0, 1000, 0⟩,
        ⟨0, 0, 600, 1000, 600, 1000, 0⟩]
      [⟨0, 0, 600, 1000, 600, 1000, 0⟩, ⟨0, 0, 0, 700, 0, 700, 0⟩, ⟨0, 0, 0, 700, 0, 700, 0⟩,
        ⟨0, 0, 0, 1000, 0, 1000, 0⟩] ⟨by decide, by decide⟩ (by decide) (by decide)).1⟩

/-- C9 as stated fails when an area leaves the range of `int64`.  The group
`Q[0,1000)~T[0,1000)`, `Q[1200000000,1200001000)~T[1200000000,1200001000)`,
`Q[2100000000,4200000000)~T[2100000000,4200000000)` on sequences of length
`4200000000` with `min_gap = 100` and `max_gap = max_overlap_flank =
2100000000` gives four candidates, all of positive extent.  The box
`[0, 4200000000] x [0, 4200000000]` has area `1.764 * 10^19 > 2^63`, which
`AORDER` sees as a negative number, so the sort puts it first; the pass
accepts it and then accepts `[0, 1200001000] x [0, 1200001000]`, which lies
inside it. -/
theorem dominance_antichain_area_wraps :
    gap_candidates 100 2100000000 2100000000
        [⟨0, 0, 0, 1000, 0, 1000, 1000⟩,
          ⟨0, 0, 1200000000, 1200001000, 1200000000, 1200001000, 1000⟩,
          ⟨0, 0, 2100000000, 4200000000, 2100000000, 4200000000, 1000⟩]
        4200000000 4200000000 =
      [⟨0, 0, 0, 1200001000, 0, 1200001000, 0⟩, ⟨0, 0, 0, 1200001000, 0, 1200001000, 0⟩,
        ⟨0, 0, 0, 4200000000, 0, 4200000000, 0⟩,
        ⟨0, 0, 1200000000, 4200000000, 1200000000, 4200000000, 0⟩] ∧
    (∀ g ∈ [(⟨0, 0, 0, 1200001000, 0, 1200001000, 0⟩ : aln_t),
        ⟨0, 0, 0, 1200001000, 0, 1200001000, 0⟩, ⟨0, 0, 0, 4200000000, 0, 4200000000, 0⟩,
        ⟨0, 0, 1200000000, 4200000000, 1200000000, 4200000000, 0⟩],
      is_candidate g ∧ box_positive g) ∧
    box_area ⟨0, 0, 0, 4200000000, 0, 4200000000, 0⟩ = 17640000000000000000 ∧
    toInt64 17640000000000000000 = -806744073709551616 ∧
    qsort_result AORDER
      [⟨0, 0, 0, 1200001000, 0, 1200001000, 0⟩, ⟨0, 0, 0, 1200001000, 0, 1200001000, 0⟩,
        ⟨0, 0, 0, 4200000000, 0, 4200000000, 0⟩,
        ⟨0, 0, 1200000000, 4200000000, 1200000000, 4200000000, 0⟩]
      [⟨0, 0, 0, 4200000000, 0, 4200000000, 0⟩, ⟨0, 0, 0, 1200001000, 0, 1200001000, 0⟩,
        ⟨0, 0, 0, 1200001000, 0, 1200001000, 0⟩,
        ⟨0, 0, 1200000000, 4200000000, 1200000000, 4200000000, 0⟩] ∧
    dominance_filter
      [⟨0, 0, 0, 4200000000, 0, 4200000000, 0⟩, ⟨0, 0, 0, 1200001000, 0, 1200001000, 0⟩,
        ⟨0, 0, 0, 1200001000, 0, 1200001000, 0⟩,
        ⟨0, 0, 1200000000, 4200000000, 1200000000, 4200000000, 0⟩] =
      [⟨0, 0, 0, 4200000000, 0, 4200000000, 1⟩, ⟨0, 0, 0, 1200001000, 0, 1200001000, 1⟩,
        ⟨0, 0, 0, 1200001000, 0, 1200001000, 0⟩,
        ⟨0, 0, 1200000000, 4200000000, 1200000000, 4200000000, 1⟩] ∧
    box_inside ⟨0, 0, 0, 1200001000, 0, 1200001000, 1⟩ ⟨0, 0, 0, 4200000000, 0, 4200000000, 1⟩ ∧
    ¬ ((dominance_filter
      [⟨0, 0, 0, 4200000000, 0, 4200000000, 0⟩, ⟨0, 0, 0, 1200001000, 0, 1200001000, 0⟩,
        ⟨0, 0, 0, 1200001000, 0, 1200001000, 0⟩,
        ⟨0, 0, 1200000000, 4200000000, 1200000000, 4200000000, 0⟩]).filter
        (fun g => decide (g.mlen ≠ 0))).Pairwise
      (fun x y => ¬ box_inside x y ∧ ¬ box_inside y x) := by
  refine ⟨by decide, by decide, by decide, by decide, ⟨by decide, by decide⟩, by decide,
    by decide, by decide⟩

theorem perm_pair_cases (A B : aln_t) (l : List aln_t) (h : l.Perm [A, B]) :
    l = [A, B] ∨ l = [B, A] := by
  have hlen := h.length_eq
  match l, hlen with
  | [x, y], _ =>
    have hA : A ∈ [x, y] := h.symm.subset (by simp)
    have hB : B ∈ [x, y] := h.symm.subset (by simp)
    have hx : x ∈ [A, B] := h.subset (by simp)
    have hy : y ∈ [A, B] := h.subset (by simp)
    simp only [List.mem_cons, List.mem_singleton, List.not_mem_nil, or_false] at hA hB hx hy
    rcases hx with rfl | rfl <;> rcases hy with rfl | rfl
    · rcases hB with rfl | rfl <;> simp
    · simp
    · simp
    · rcases hA with rfl | rfl <;> simp

/-- C10 (amended). For a candidate buffer of two boxes `A` and `B` with
positive query and target extent and an area below `2^63` where `B` lies
inside `A`, the dominance filter of `gap_core` accepts `B` and rejects `A`,
whichever of the two comes first in the buffer and however the area sort
orders them. -/
theorem dominance_two_boxes (A B : aln_t) (sorted : List aln_t)
    (hA : is_candidate A) (hB : is_candidate B) (hpos : box_positive B)
    (hin : box_inside B A) (hfitA : area_fits A) (hfitB : area_fits B)
    (hq : qsort_result AORDER [A, B] sorted ∨ qsort_result AORDER [B, A] sorted) :
    (dominance_filter sorted).Perm
      [⟨B.aread, B.bread, B.abpos, B.aepos, B.bbpos, B.bepos, 1⟩, A] ∧
    gap_output sorted = [(B.abpos, B.aepos, B.bbpos, B.bepos)] := by
  have hperm : sorted.Perm [A, B] := by
    rcases hq with hq | hq
    · exact hq.1
    · exact hq.1.trans (List.Perm.swap _ _ _)
  have hsorted : sorted.Pairwise (fun x y => box_area x ≤ box_area y) := by
    rcases hq with hq | hq
    · exact qsort_AORDER_area _ _ hq (by
        intro g hg
        simp only [List.mem_cons, List.mem_singleton, List.not_mem_nil, or_false] at hg
        rcases hg with rfl | rfl
        · exact hfitA
        · exact hfitB)
    · exact qsort_AORDER_area _ _ hq (by
        intro g hg
        simp only [List.mem_cons, List.mem_singleton, List.not_mem_nil, or_false] at hg
        rcases hg with rfl | rfl
        · exact hfitB
        · exact hfitA)
  obtain ⟨a1, a2, a3⟩ := hA
  obtain ⟨b1, b2, b3⟩ := hB
  have hBB : box_inside B B := ⟨le_refl _, le_refl _, le_refl _, le_refl _⟩
  have key : ∀ A' : aln_t, A'.mlen = 0 → box_inside B A' →
      dominance_filter [B, A'] =
        [⟨B.aread, B.bread, B.abpos, B.aepos, B.bbpos, B.bepos, 1⟩, A'] := by
    intro A' hm hi
    obtain ⟨i1, i2, i3, i4⟩ := hi
    simp [dominance_filter, dominance_loop, rtree_new, rtree_insert, rtree_exist_node_inside,
      i1, i2, i3, i4]
  rcases perm_pair_cases A B sorted hperm with rfl | rfl
  · have hle : box_area A ≤ box_area B := by
      have := List.pairwise_cons.1 hsorted
      exact this.1 B (by simp)
    have hAB : box_inside A B := box_inside_of_area_le B A hin hpos hle
    obtain ⟨i1, i2, i3, i4⟩ := hin
    obtain ⟨j1, j2, j3, j4⟩ := hAB
    have hEq : A = B := by
      cases A; cases B
      simp only [aln_t.mk.injEq]
      simp only at a1 a2 a3 b1 b2 b3 i1 i2 i3 i4 j1 j2 j3 j4
      refine ⟨by omega, by omega, by omega, by omega, by omega, by omega, by omega⟩
    subst hEq
    have hk := key A a3 hBB
    constructor
    · rw [hk]
    · simp only [gap_output, hk]
      simp [a3]
  · have hk := key A a3 hin
    constructor
    · rw [hk]
    · simp only [gap_output, hk]
      simp [a3]

/-- Witness for C10 (amended): `B = [600,1000) x [600,1000)` inside
`A = [0,1000) x [0,1000)`, with `A` first in the buffer. -/
theorem dominance_two_boxes_witness :
    box_inside ⟨0, 0, 600, 1000, 600, 1000, 0⟩ ⟨0, 0, 0, 1000, 0, 1000, 0⟩ ∧
    qsort_result AORDER [⟨0, 0, 0, 1000, 0, 1000, 0⟩, ⟨0, 0, 600, 1000, 600, 1000, 0⟩]
      [⟨0, 0, 600, 1000, 600, 1000, 0⟩, ⟨0, 0, 0, 1000, 0, 1000, 0⟩] ∧
    gap_output [⟨0, 0, 600, 1000, 600, 1000, 0⟩, ⟨0, 0, 0, 1000, 0, 1000, 0⟩] =
      [(600, 1000, 600, 1000)] :=
  ⟨by decide, ⟨by decide, by decide⟩,
    (dominance_two_boxes ⟨0, 0, 0, 1000, 0, 1000, 0⟩ ⟨0, 0, 600, 1000, 600, 1000, 0⟩
      [⟨0, 0, 600, 1000, 600, 1000, 0⟩, ⟨0, 0, 0, 1000, 0, 1000, 0⟩]
      (by decide) (by decide) (by decide) (by decide) (by decide) (by decide)
      (Or.inl ⟨by decide, by decide⟩)).2⟩

/-- C10 as stated fails: the boxes `A = [0,10] x [5,5]` and `B = [2,3] x [5,5]`
have zero target extent, `B` lies inside `A`, both have area 0, the buffer
`A, B` is a result of the area sort, and the filter accepts both. -/
theorem dominance_two_boxes_degenerate :
    is_candidate ⟨0, 0, 0, 10, 5, 5, 0⟩ ∧ is_candidate ⟨0, 0, 2, 3, 5, 5, 0⟩ ∧
    box_inside ⟨0, 0, 2, 3, 5, 5, 0⟩ ⟨0, 0, 0, 10, 5, 5, 0⟩ ∧
    qsort_result AORDER [⟨0, 0, 0, 10, 5, 5, 0⟩, ⟨0, 0, 2, 3, 5, 5, 0⟩]
      [⟨0, 0, 0, 10, 5, 5, 0⟩, ⟨0, 0, 2, 3, 5, 5, 0⟩] ∧
    dominance_filter [⟨0, 0, 0, 10, 5, 5, 0⟩, ⟨0, 0, 2, 3, 5, 5, 0⟩] =
      [⟨0, 0, 0, 10, 5, 5, 1⟩, ⟨0, 0, 2, 3, 5, 5, 1⟩] ∧
    gap_output [⟨0, 0, 0, 10, 5, 5, 0⟩, ⟨0, 0, 2, 3, 5, 5, 0⟩] ≠ [(2, 3, 5, 5)] :=
  ⟨by decide, by decide, by decide, ⟨List.Perm.refl _, by decide⟩, by decide, by decide⟩

/-! ## Replay of the selection from the accepted records -/

theorem covered_insert (a : rangeset_t) (h : rangeset_inv a) (beg end_ x : Int) :
    covered (rangeset_insert a beg end_) x ↔ covered a x ∨ (beg ≤ x ∧ x < end_) := by
  unfold rangeset_insert
  by_cases hlt : beg < end_
  · have hbd := rangeset_overlap_bounds a h beg end_ hlt
    rw [rangeset_add_eq_splice a beg end_ _ _ hlt hbd.hb hbd.hbe hbd.he]
    exact covered_splice a h beg end_ _ _ hlt hbd x
  · have hge : beg ≥ end_ := by omega
    simp only [rangeset_add, if_pos hge]
    constructor
    · intro hc; exact Or.inl hc
    · rintro (hc | ⟨h1, h2⟩)
      · exact hc
      · omega

/-- Under the invariant the value returned is the number of covered positions
of `[beg, end)`, as an `int`. -/
theorem rangeset_overlap_card (a : rangeset_t) (h : rangeset_inv a) (beg end_ : Int) :
    (rangeset_overlap a beg end_).1 =
      toInt32 (((Finset.Ico beg end_).filter (fun x => covered a x)).card : Int) := by
  by_cases hlt : beg < end_
  · rw [rangeset_overlap_sum a beg end_ h hlt,
      card_covered a beg end_ ((rangeset_inv_iff_pairwise a).1 h).2]
  · have hge : beg ≥ end_ := by omega
    have hem : Finset.Ico beg end_ = ∅ := Finset.Ico_eq_empty (by omega)
    simp [rangeset_overlap, hge, hem, toInt32]

/-- When the range holds at most `2^31 - 1` positions the value returned is the
number of covered positions. -/
theorem rangeset_overlap_card_of_fit (a : rangeset_t) (h : rangeset_inv a) (beg end_ : Int)
    (hfit : end_ - beg ≤ 2147483647) :
    (rangeset_overlap a beg end_).1 =
      (((Finset.Ico beg end_).filter (fun x => covered a x)).card : Int) := by
  rw [rangeset_overlap_card a h beg end_]
  have hle : (((Finset.Ico beg end_).filter (fun x => covered a x)).card : Int) ≤
      ((Finset.Ico beg end_).card : Int) := by
    exact_mod_cast Finset.card_filter_le _ _
  rw [Int.card_Ico] at hle
  have h0 : (0 : Int) ≤ (((Finset.Ico beg end_).filter (fun x => covered a x)).card : Int) :=
    Int.ofNat_nonneg _
  apply toInt32_of_int_range
  · omega
  · omega

theorem rba_accepted_from_snoc (max_cov : ℚ) (l : List aln_t) (r : aln_t) :
    ∀ st : rba_state,
      rba_accepted_from max_cov st (l ++ [r]) =
        rba_accepted_from max_cov st l ++
          (if rba_accepts max_cov (l.foldl (rba_step max_cov) st) r then [r] else []) := by
  induction l with
  | nil =>
    intro st
    simp only [List.nil_append, rba_accepted_from, List.foldl_nil]
  | cons x xs ih =>
    intro st
    rw [List.cons_append]
    simp only [rba_accepted_from, List.foldl_cons]
    split
    · rw [ih]; rfl
    · rw [ih]

theorem rba_accepted_snoc (max_cov : ℚ) (pre : List aln_t) (r : aln_t) :
    rba_accepted max_cov (pre ++ [r]) =
      rba_accepted max_cov pre ++
        (if rba_accepts max_cov (rba_loop max_cov pre) r then [r] else []) :=
  rba_accepted_from_snoc max_cov pre r rba_init

/-- What the coverage sets hold after the loop has visited `pre`: each set
satisfies the RangeSet invariant and covers exactly the union of the intervals
(as passed, i.e. narrowed to `int`) of the accepted records of its sequence. -/
theorem rba_loop_coverage (max_cov : ℚ) (pre : List aln_t) :
    (∀ id : Int, rangeset_inv ((rba_loop max_cov pre).q_span id) ∧
      ∀ x : Int, covered ((rba_loop max_cov pre).q_span id) x ↔
        ∃ p ∈ rba_accepted max_cov pre,
          p.aread = id ∧ toInt32 p.abpos ≤ x ∧ x < toInt32 p.aepos) ∧
    (∀ id : Int, rangeset_inv ((rba_loop max_cov pre).t_span id) ∧
      ∀ x : Int, covered ((rba_loop max_cov pre).t_span id) x ↔
        ∃ p ∈ rba_accepted max_cov pre,
          p.bread = id ∧ toInt32 p.bbpos ≤ x ∧ x < toInt32 p.bepos) := by
  induction pre using List.reverseRecOn with
  | nil =>
    refine ⟨fun id => ⟨by simp [rba_loop, rba_init, rangeset_inv], fun x => ?_⟩,
      fun id => ⟨by simp [rba_loop, rba_init, rangeset_inv], fun x => ?_⟩⟩ <;>
    simp [rba_loop, rba_init, covered, rba_accepted, rba_accepted_from]
  | append_singleton pre r ih =>
    obtain ⟨ihq, iht⟩ := ih
    rw [rba_loop_snoc, rba_accepted_snoc]
    by_cases hacc : rba_accepts max_cov (rba_loop max_cov pre) r = true
    · have hstep : rba_step max_cov (rba_loop max_cov pre) r =
          ⟨Function.update (rba_loop max_cov pre).q_span r.aread
              (rangeset_insert ((rba_loop max_cov pre).q_span r.aread)
                (toInt32 r.abpos) (toInt32 r.aepos)),
            Function.update (rba_loop max_cov pre).t_span r.bread
              (rangeset_insert ((rba_loop max_cov pre).t_span r.bread)
                (toInt32 r.bbpos) (toInt32 r.bepos)),
            (rba_loop max_cov pre).alns ++ [r], (rba_loop max_cov pre).n_rec + 1⟩ := by
        simp only [rba_accepts] at hacc
        simp only [rba_step, hacc, if_true, rangeset_insert]
      rw [hstep, if_pos hacc]
      constructor
      · intro id
        by_cases hid : id = r.aread
        · subst hid
          simp only [Function.update_same]
          refine ⟨rangeset_insert_inv _ (ihq _).1 _ _, fun x => ?_⟩
          rw [covered_insert _ (ihq _).1, (ihq _).2 x]
          simp only [List.mem_append, List.mem_singleton]
          constructor
          · rintro (⟨p, hp, h1, h2⟩ | h)
            · exact ⟨p, Or.inl hp, h1, h2⟩
            · exact ⟨r, Or.inr rfl, rfl, h⟩
          · rintro ⟨p, hp | rfl, h1, h2⟩
            · exact Or.inl ⟨p, hp, h1, h2⟩
            · exact Or.inr h2
        · simp only [Function.update_noteq hid]
          refine ⟨(ihq id).1, fun x => ?_⟩
          rw [(ihq id).2 x]
          simp only [List.mem_append, List.mem_singleton]
          constructor
          · rintro ⟨p, hp, h1, h2⟩
            exact ⟨p, Or.inl hp, h1, h2⟩
          · rintro ⟨p, hp | rfl, h1, h2⟩
            · exact ⟨p, hp, h1, h2⟩
            · exact absurd h1.symm hid
      · intro id
        by_cases hid : id = r.bread
        · subst hid
          simp only [Function.update_same]
          refine ⟨rangeset_insert_inv _ (iht _).1 _ _, fun x => ?_⟩
          rw [covered_insert _ (iht _).1, (iht _).2 x]
          simp only [List.mem_append, List.mem_singleton]
          constructor
          · rintro (⟨p, hp, h1, h2⟩ | h)
            · exact ⟨p, Or.inl hp, h1, h2⟩
            · exact ⟨r, Or.inr rfl, rfl, h⟩
          · rintro ⟨p, hp | rfl, h1, h2⟩
            · exact Or.inl ⟨p, hp, h1, h2⟩
            · exact Or.inr h2
        · simp only [Function.update_noteq hid]
          refine ⟨(iht id).1, fun x => ?_⟩
          rw [(iht id).2 x]
          simp only [List.mem_append, List.mem_singleton]
          constructor
          · rintro ⟨p, hp, h1, h2⟩
            exact ⟨p, Or.inl hp, h1, h2⟩
          · rintro ⟨p, hp | rfl, h1, h2⟩
            · exact ⟨p, hp, h1, h2⟩
            · exact absurd h1.symm hid
    · have hstep : rba_step max_cov (rba_loop max_cov pre) r =
          ⟨(rba_loop max_cov pre).q_span, (rba_loop max_cov pre).t_span,
            (rba_loop max_cov pre).alns ++
              [⟨r.aread, r.bread, r.abpos, r.aepos, r.bbpos, r.bepos, 0⟩],
            (rba_loop max_cov pre).n_rec⟩ := by
        simp only [rba_accepts] at hacc
        simp only [rba_step, hacc]
        rfl
      rw [hstep, if_neg hacc, List.append_nil]
      exact ⟨ihq, iht⟩

/-- The overlap that the loop measures for `r` on the query axis is the
number of positions of the narrowed query interval of `r` that lie in the
narrowed query intervals of the records accepted before on that sequence;
likewise on the target axis. -/
theorem rba_overlap_eq_prior (max_cov : ℚ) (pre : List aln_t) (r : aln_t) :
    (rangeset_overlap ((rba_loop max_cov pre).q_span r.aread)
        (toInt32 r.abpos) (toInt32 r.aepos)).1 =
      toInt32
        (prior_query_cover ((rba_accepted max_cov pre).map narrowed) (narrowed r) : Int) ∧
    (rangeset_overlap ((rba_loop max_cov pre).t_span r.bread)
        (toInt32 r.bbpos) (toInt32 r.bepos)).1 =
      toInt32
        (prior_target_cover ((rba_accepted max_cov pre).map narrowed) (narrowed r) : Int) := by
  obtain ⟨hq, ht⟩ := rba_loop_coverage max_cov pre
  constructor
  · rw [rangeset_overlap_card _ (hq r.aread).1]
    unfold prior_query_cover
    congr 3
    apply Finset.filter_congr
    intro x _
    rw [(hq r.aread).2 x]
    simp [narrowed]
  · rw [rangeset_overlap_card _ (ht r.bread).1]
    unfold prior_target_cover
    congr 3
    apply Finset.filter_congr
    intro x _
    rw [(ht r.bread).2 x]
    simp [narrowed]

theorem prior_query_cover_le (acc : List aln_t) (r : aln_t) :
    (prior_query_cover acc r : Int) ≤ max 0 (r.aepos - r.abpos) := by
  unfold prior_query_cover
  have hle : (((Finset.Ico r.abpos r.aepos).filter
      (fun x => ∃ p ∈ acc, p.aread = r.aread ∧ p.abpos ≤ x ∧ x < p.aepos)).card : Int) ≤
      ((Finset.Ico r.abpos r.aepos).card : Int) := by
    exact_mod_cast Finset.card_filter_le _ _
  rw [Int.card_Ico] at hle
  omega

theorem prior_target_cover_le (acc : List aln_t) (r : aln_t) :
    (prior_target_cover acc r : Int) ≤ max 0 (r.bepos - r.bbpos) := by
  unfold prior_target_cover
  have hle : (((Finset.Ico r.bbpos r.bepos).filter
      (fun x => ∃ p ∈ acc, p.bread = r.bread ∧ p.bbpos ≤ x ∧ x < p.bepos)).card : Int) ≤
      ((Finset.Ico r.bbpos r.bepos).card : Int) := by
    exact_mod_cast Finset.card_filter_le _ _
  rw [Int.card_Ico] at hle
  omega

theorem narrowed_of_fits (r : aln_t) (h : fits_int r) : narrowed r = r := by
  obtain ⟨h1, h2, h3, h4⟩ := h
  cases r
  simp only [narrowed, aln_t.mk.injEq] at *
  exact ⟨trivial, trivial, h1, h2, h3, h4, trivial⟩

/-- Replay property for coordinates in the range of `int`: when every record
visited so far and the record `r` have their coordinates in `[-2^31, 2^31)`
and the two intervals of `r` are at most `2^31 - 1` long, `r` is accepted iff
the positions of its query interval covered by the query intervals of the
records accepted before on the same query sequence number at most
`score * max_cov`, and likewise on the target axis. -/
theorem rba_replay_of_fits (max_cov : ℚ) (pre : List aln_t) (r : aln_t)
    (hpre : ∀ p ∈ pre, fits_int p) (hr : fits_int r)
    (hlen : r.aepos - r.abpos ≤ 2147483647 ∧ r.bepos - r.bbpos ≤ 2147483647) :
    rba_accepts max_cov (rba_loop max_cov pre) r = true ↔
      ((prior_query_cover (rba_accepted max_cov pre) r : Int) : ℚ) ≤ (r.mlen : ℚ) * max_cov ∧
      ((prior_target_cover (rba_accepted max_cov pre) r : Int) : ℚ) ≤
        (r.mlen : ℚ) * max_cov := by
  have hsub : ∀ (l : List aln_t) (st : rba_state), ∀ p ∈ rba_accepted_from max_cov st l,
      p ∈ l := by
    intro l
    induction l with
    | nil => intro st p hp; simp [rba_accepted_from] at hp
    | cons x xs ih =>
      intro st p hp
      simp only [rba_accepted_from] at hp
      split at hp
      · rcases List.mem_cons.1 hp with rfl | hp
        · simp
        · exact List.mem_cons_of_mem _ (ih _ p hp)
      · exact List.mem_cons_of_mem _ (ih _ p hp)
  have hmap : (rba_accepted max_cov pre).map narrowed = rba_accepted max_cov pre := by
    conv_rhs => rw [← List.map_id (rba_accepted max_cov pre)]
    apply List.map_congr_left
    intro p hp
    exact narrowed_of_fits p (hpre p (hsub pre rba_init p hp))
  obtain ⟨h1, h2⟩ := rba_overlap_eq_prior max_cov pre r
  rw [hmap, narrowed_of_fits r hr] at h1 h2
  have hq := prior_query_cover_le (rba_accepted max_cov pre) r
  have ht := prior_target_cover_le (rba_accepted max_cov pre) r
  have hq0 : (0 : Int) ≤ (prior_query_cover (rba_accepted max_cov pre) r : Int) :=
    Int.ofNat_nonneg _
  have ht0 : (0 : Int) ≤ (prior_target_cover (rba_accepted max_cov pre) r : Int) :=
    Int.ofNat_nonneg _
  have e1 := toInt32_of_int_range
    (prior_query_cover (rba_accepted max_cov pre) r : Int) (by omega) (by omega)
  have e2 := toInt32_of_int_range
    (prior_target_cover (rba_accepted max_cov pre) r : Int) (by omega) (by omega)
  rw [e1] at h1
  rw [e2] at h2
  rw [rba_accepts_iff, h1, h2]

/-- C5 at coordinates beyond `2^31`: the record `r1` with query interval
`[2147483000, 2147484000)` is accepted, but its end, passed as `int`, is
negative, so `rangeset_add` stores nothing for it; the lower-scoring record
`r2` with query interval `[2147483640, 2147483644)` on the same sequence is
then accepted although all 4 of its query positions lie in the query interval
of `r1` and `4 > 4 * 0.5`. -/
theorem rba_replay_wide_coordinates :
    qsort_result MORDER
      [⟨0, 0, 2147483000, 2147484000, 0, 1000, 1000⟩,
        ⟨0, 1, 2147483640, 2147483644, 5000, 5004, 4⟩]
      [⟨0, 0, 2147483000, 2147484000, 0, 1000, 1000⟩,
        ⟨0, 1, 2147483640, 2147483644, 5000, 5004, 4⟩] ∧
    toInt32 2147484000 = -2147483296 ∧
    (rba_loop half [⟨0, 0, 2147483000, 2147484000, 0, 1000, 1000⟩]).q_span 0 = [] ∧
    rba_accepted half [⟨0, 0, 2147483000, 2147484000, 0, 1000, 1000⟩] =
      [⟨0, 0, 2147483000, 2147484000, 0, 1000, 1000⟩] ∧
    rba_accepts half (rba_loop half [⟨0, 0, 2147483000, 2147484000, 0, 1000, 1000⟩])
      ⟨0, 1, 2147483640, 2147483644, 5000, 5004, 4⟩ = true ∧
    reciprocal_best_aligns
      [⟨0, 0, 2147483000, 2147484000, 0, 1000, 1000⟩,
        ⟨0, 1, 2147483640, 2147483644, 5000, 5004, 4⟩] half =
      [⟨0, 0, 2147483000, 2147484000, 0, 1000, 1000⟩,
        ⟨0, 1, 2147483640, 2147483644, 5000, 5004, 4⟩] ∧
    prior_query_cover [⟨0, 0, 2147483000, 2147484000, 0, 1000, 1000⟩]
      ⟨0, 1, 2147483640, 2147483644, 5000, 5004, 4⟩ = 4 ∧
    ¬ (((4 : Int) : ℚ) ≤ ((4 : Int) : ℚ) * half) := by
  refine ⟨⟨List.Perm.refl _, by decide⟩, by decide, by decide, by decide, by decide, by decide,
    by decide, ?_⟩
  rw [half_eq]
  norm_num

/-- Witness for the replay property in the range of `int`. -/
theorem rba_replay_of_fits_witness :
    fits_int ⟨0, 0, 0, 100, 0, 100, 100⟩ ∧ fits_int ⟨0, 0, 50, 120, 200, 270, 70⟩ ∧
    (rba_accepts half (rba_loop half [⟨0, 0, 0, 100, 0, 100, 100⟩])
        ⟨0, 0, 50, 120, 200, 270, 70⟩ = true ↔
      ((prior_query_cover (rba_accepted half [⟨0, 0, 0, 100, 0, 100, 100⟩])
          ⟨0, 0, 50, 120, 200, 270, 70⟩ : Int) : ℚ) ≤ ((70 : Int) : ℚ) * half ∧
      ((prior_target_cover (rba_accepted half [⟨0, 0, 0, 100, 0, 100, 100⟩])
          ⟨0, 0, 50, 120, 200, 270, 70⟩ : Int) : ℚ) ≤ ((70 : Int) : ℚ) * half) :=
  ⟨by decide, by decide,
    rba_replay_of_fits half [⟨0, 0, 0, 100, 0, 100, 100⟩] ⟨0, 0, 50, 120, 200, 270, 70⟩
      (by decide) (by decide) (by decide)⟩

/-! ## Boundary indices, adjacency and degenerate ranges -/

theorem find_last_small_run_eq (a : List range_t) (val : Int) :
    ∀ (fuel : Nat) (low high res : Int), high - low + 1 ≤ fuel →
      find_last_small_run a val (fuel + 1) low high res =
        some (find_last_small_loop a val fuel low high res) := by
  intro fuel
  induction fuel with
  | zero =>
    intro low high res hf
    have hc : ¬ low ≤ high := by omega
    simp only [find_last_small_run, find_last_small_loop, if_neg hc]
  | succ fuel ih =>
    intro low high res hf
    rw [find_last_small_run, find_last_small_loop]
    by_cases hc : low ≤ high
    · rw [if_pos hc, if_pos hc]
      have h1 : high - (low + (high - low) / 2 + 1) + 1 ≤ fuel := by push_cast at hf; omega
      have h2 : (low + (high - low) / 2 - 1) - low + 1 ≤ fuel := by push_cast at hf; omega
      simp only
      rw [ih _ _ _ h1, ih _ _ _ h2]
      split <;> rfl
    · rw [if_neg hc, if_neg hc]

theorem find_first_large_run_eq (a : List range_t) (val : Int) :
    ∀ (fuel : Nat) (low high res : Int), high - low + 1 ≤ fuel →
      find_first_large_run a val (fuel + 1) low high res =
        some (find_first_large_loop a val fuel low high res) := by
  intro fuel
  induction fuel with
  | zero =>
    intro low high res hf
    have hc : ¬ low ≤ high := by omega
    simp only [find_first_large_run, find_first_large_loop, if_neg hc]
  | succ fuel ih =>
    intro low high res hf
    rw [find_first_large_run, find_first_large_loop]
    by_cases hc : low ≤ high
    · rw [if_pos hc, if_pos hc]
      have h1 : high - (low + (high - low) / 2 + 1) + 1 ≤ fuel := by push_cast at hf; omega
      have h2 : (low + (high - low) / 2 - 1) - low + 1 ≤ fuel := by push_cast at hf; omega
      simp only
      rw [ih _ _ _ h1, ih _ _ _ h2]
      split <;> rfl
    · rw [if_neg hc, if_neg hc]

/-- C17. Boundary indices of `rangeset_overlap`: for a non-empty set
satisfying the RangeSet invariant and `beg < end`, the returned `lower_idx` is
the greatest index `i` with `a[i].end < beg`, or `-1` if there is none, the
returned `upper_idx` is the least index `i` with `a[i].beg > end`, or `n` if
there is none, `lower_idx < upper_idx`, and both binary searches leave their
loop, within `n` iterations, with these values. -/
theorem rangeset_overlap_indices (a : rangeset_t) (beg end_ : Int)
    (hne : a ≠ []) (h : rangeset_inv a) (hlt : beg < end_) :
    (-1 ≤ (rangeset_overlap a beg end_).2.1 ∧ (rangeset_overlap a beg end_).2.1 < a.length) ∧
    (∀ i : Int, 0 ≤ i → i < a.length →
      ((rget a i).end_ < beg ↔ i ≤ (rangeset_overlap a beg end_).2.1)) ∧
    (0 ≤ (rangeset_overlap a beg end_).2.2 ∧ (rangeset_overlap a beg end_).2.2 ≤ a.length) ∧
    (∀ i : Int, 0 ≤ i → i < a.length →
      ((rget a i).beg > end_ ↔ (rangeset_overlap a beg end_).2.2 ≤ i)) ∧
    (rangeset_overlap a beg end_).2.1 < (rangeset_overlap a beg end_).2.2 ∧
    find_last_small_run a beg (a.length + 1) 0 ((a.length : Int) - 1) (-1) =
      some (rangeset_overlap a beg end_).2.1 ∧
    find_first_large_run a end_ (a.length + 1) 0 ((a.length : Int) - 1) a.length =
      some (rangeset_overlap a beg end_).2.2 := by
  have hn : a.length ≠ 0 := fun h0 => hne (List.length_eq_zero.1 h0)
  have hc : ¬ (beg ≥ end_ ∨ a.length = 0) := by
    intro hc; rcases hc with hc | hc
    · omega
    · exact hn hc
  have hb : (rangeset_overlap a beg end_).2.1 = find_last_small a a.length beg := by
    simp only [rangeset_overlap, if_neg hc]
  have he : (rangeset_overlap a beg end_).2.2 = find_first_large a a.length end_ := by
    simp only [rangeset_overlap, if_neg hc]
  have hbd := rangeset_overlap_bounds a h beg end_ hlt
  obtain ⟨b1, b2, b3, b4⟩ := find_last_small_spec a h beg
  obtain ⟨e1, e2, e3, e4⟩ := find_first_large_spec a h end_
  rw [hb, he] at hbd ⊢
  refine ⟨⟨b1, b2⟩, ?_, ⟨e1, e2⟩, ?_, hbd.hbe, ?_, ?_⟩
  · intro i hi0 hin
    constructor
    · intro hp
      by_contra hcon
      exact b4 i (by omega) hin hp
    · intro hle
      exact b3 i hi0 hle
  · intro i hi0 hin
    constructor
    · intro hp
      by_contra hcon
      exact e3 i hi0 (by omega) hp
    · intro hle
      exact e4 i hle hin
  · rw [find_last_small_run_eq a beg a.length 0 _ _ (by omega)]
    simp [find_last_small]
  · rw [find_first_large_run_eq a end_ a.length 0 _ _ (by omega)]
    simp [find_first_large]

/-- Witness for C17: the range `[21, 39)` against `[10,20) [25,30) [40,50)`. -/
theorem rangeset_overlap_indices_witness :
    rangeset_inv [⟨10, 20⟩, ⟨25, 30⟩, ⟨40, 50⟩] ∧ (21 : Int) < 39 ∧
    (rangeset_overlap [⟨10, 20⟩, ⟨25, 30⟩, ⟨40, 50⟩] 21 39).2.1 = 0 ∧
    (rangeset_overlap [⟨10, 20⟩, ⟨25, 30⟩, ⟨40, 50⟩] 21 39).2.2 = 2 ∧
    (rangeset_overlap [⟨10, 20⟩, ⟨25, 30⟩, ⟨40, 50⟩] 21 39).2.1 <
      (rangeset_overlap [⟨10, 20⟩, ⟨25, 30⟩, ⟨40, 50⟩] 21 39).2.2 :=
  ⟨by decide, by decide, by decide, by decide,
    (rangeset_overlap_indices [⟨10, 20⟩, ⟨25, 30⟩, ⟨40, 50⟩] 21 39 (by decide) (by decide)
      (by decide)).2.2.2.2.1⟩

/-- C18. Adjacency merge: for integers `a < b < c`, inserting `[a, b)` and
`[b, c)` into the empty set, in either order and each time with the indices
that `rangeset_overlap` returned for the inserted range, leaves the single
stored interval `[a, c)`. -/
theorem rangeset_adjacent_merge (a b c : Int) (hab : a < b) (hbc : b < c) :
    rangeset_add (rangeset_add [] a b (rangeset_overlap [] a b).2.1 (rangeset_overlap [] a b).2.2)
        b c
        (rangeset_overlap
          (rangeset_add [] a b (rangeset_overlap [] a b).2.1 (rangeset_overlap [] a b).2.2)
          b c).2.1
        (rangeset_overlap
          (rangeset_add [] a b (rangeset_overlap [] a b).2.1 (rangeset_overlap [] a b).2.2)
          b c).2.2 = [⟨a, c⟩] ∧
    rangeset_add (rangeset_add [] b c (rangeset_overlap [] b c).2.1 (rangeset_overlap [] b c).2.2)
        a b
        (rangeset_overlap
          (rangeset_add [] b c (rangeset_overlap [] b c).2.1 (rangeset_overlap [] b c).2.2)
          a b).2.1
        (rangeset_overlap
          (rangeset_add [] b c (rangeset_overlap [] b c).2.1 (rangeset_overlap [] b c).2.2)
          a b).2.2 = [⟨a, c⟩] := by
  have h1 : ∀ x y : Int, x < y →
      rangeset_add [] x y (rangeset_overlap [] x y).2.1 (rangeset_overlap [] x y).2.2 =
        [⟨x, y⟩] := by
    intro x y hxy
    have ho : (rangeset_overlap [] x y).2 = (-1, 0) := by simp [rangeset_overlap]
    rw [ho, rangeset_add_eq_splice [] x y (-1) 0 hxy (by omega) (by omega) (by simp)]
    simp [merged, sizeLt]
  have hlast : ∀ (x y v : Int), ¬ y < v → find_last_small [⟨x, y⟩] 1 v = -1 := by
    intro x y v hv
    simp [find_last_small, find_last_small_loop, rget, hv]
  have hfirst : ∀ (x y v : Int), ¬ x > v → find_first_large [⟨x, y⟩] 1 v = 1 := by
    intro x y v hv
    simp [find_first_large, find_first_large_loop, rget, hv]
  have h2 : ∀ (x y u v : Int), u < v → ¬ y < u → ¬ x > v →
      rangeset_add [⟨x, y⟩] u v (rangeset_overlap [⟨x, y⟩] u v).2.1
        (rangeset_overlap [⟨x, y⟩] u v).2.2 = [⟨MIN x u, MAX y v⟩] := by
    intro x y u v huv hy hx
    have hge : ¬ u ≥ v := by omega
    have ho : (rangeset_overlap [⟨x, y⟩] u v).2 = (-1, 1) := by
      simp only [rangeset_overlap, List.length_singleton, Nat.cast_one]
      rw [if_neg (by simp; omega), hlast x y u hy, hfirst x y v hx]
    rw [ho, rangeset_add_eq_splice [⟨x, y⟩] u v (-1) 1 huv (by omega) (by omega) (by simp)]
    simp [merged, sizeLt, rget]
  rw [h1 a b hab, h1 b c hbc]
  constructor
  · rw [h2 a b b c hbc (lt_irrefl b) (by omega)]
    simp only [MIN, MAX]
    rw [if_pos hab, if_neg (by omega)]
  · rw [h2 b c a b hab (by omega) (lt_irrefl b)]
    simp only [MIN, MAX]
    rw [if_neg (by omega), if_pos (by omega)]

/-- Witness for C18: `[10,20)` and `[20,30)` give `[10,30)`. -/
theorem rangeset_adjacent_merge_witness :
    (10 : Int) < 20 ∧ (20 : Int) < 30 ∧
    rangeset_add (rangeset_add [] 10 20 (rangeset_overlap [] 10 20).2.1
          (rangeset_overlap [] 10 20).2.2) 20 30
        (rangeset_overlap
          (rangeset_add [] 10 20 (rangeset_overlap [] 10 20).2.1
            (rangeset_overlap [] 10 20).2.2) 20 30).2.1
        (rangeset_overlap
          (rangeset_add [] 10 20 (rangeset_overlap [] 10 20).2.1
            (rangeset_overlap [] 10 20).2.2) 20 30).2.2 = [⟨10, 30⟩] :=
  ⟨by decide, by decide, (rangeset_adjacent_merge 10 20 30 (by decide) (by decide)).1⟩

/-- C19 (amended). For a set satisfying the RangeSet invariant and a range
`beg < end` with `end - beg <= 2^31 - 1`, after inserting `[beg, end)`
(`rangeset_overlap`, then `rangeset_add` with the returned indices) a new call
`rangeset_overlap(set, beg, end)` returns at least `end - beg`; it returns
exactly `end - beg`. -/
theorem rangeset_overlap_after_insert (a : rangeset_t) (beg end_ : Int)
    (h : rangeset_inv a) (hlt : beg < end_) (hfit : end_ - beg ≤ 2147483647) :
    (rangeset_overlap
        (rangeset_add a beg end_ (rangeset_overlap a beg end_).2.1
          (rangeset_overlap a beg end_).2.2) beg end_).1 ≥ end_ - beg ∧
    (rangeset_overlap
        (rangeset_add a beg end_ (rangeset_overlap a beg end_).2.1
          (rangeset_overlap a beg end_).2.2) beg end_).1 = end_ - beg := by
  have hinv := rangeset_insert_inv a h beg end_
  have hcard := rangeset_overlap_card_of_fit (rangeset_insert a beg end_) hinv beg end_ hfit
  have hall : (Finset.Ico beg end_).filter (fun x => covered (rangeset_insert a beg end_) x) =
      Finset.Ico beg end_ := by
    apply Finset.filter_true_of_mem
    intro x hx
    rw [Finset.mem_Ico] at hx
    exact (covered_insert a h beg end_ x).2 (Or.inr hx)
  rw [hall, Int.card_Ico, Int.toNat_of_nonneg (by omega)] at hcard
  unfold rangeset_insert at hcard
  simp only at hcard
  exact ⟨by omega, hcard⟩

/-- Witness for C19: inserting `[20, 40)` into `[10,20) [25,30) [40,50)`. -/
theorem rangeset_overlap_after_insert_witness :
    rangeset_inv [⟨10, 20⟩, ⟨25, 30⟩, ⟨40, 50⟩] ∧ (20 : Int) < 40 ∧
    (rangeset_overlap
        (rangeset_add [⟨10, 20⟩, ⟨25, 30⟩, ⟨40, 50⟩] 20 40
          (rangeset_overlap [⟨10, 20⟩, ⟨25, 30⟩, ⟨40, 50⟩] 20 40).2.1
          (rangeset_overlap [⟨10, 20⟩, ⟨25, 30⟩, ⟨40, 50⟩] 20 40).2.2) 20 40).1 ≥ 40 - 20 :=
  ⟨by decide, by decide,
    (rangeset_overlap_after_insert [⟨10, 20⟩, ⟨25, 30⟩, ⟨40, 50⟩] 20 40 (by decide)
      (by decide) (by decide)).1⟩

/-- C19 as stated fails for a range longer than `INT_MAX`.  Inserting
`[-2^31, 2^31 - 1)` into the empty set stores that interval, of length
`2^32 - 1`; the next call of `rangeset_overlap` for the same range returns
`-1`, which is below the length. -/
theorem rangeset_overlap_after_insert_wraps :
    rangeset_inv [] ∧ (-2147483648 : Int) < 2147483647 ∧
    rangeset_add [] (-2147483648) 2147483647
        (rangeset_overlap [] (-2147483648) 2147483647).2.1
        (rangeset_overlap [] (-2147483648) 2147483647).2.2 =
      [⟨-2147483648, 2147483647⟩] ∧
    (rangeset_overlap
        (rangeset_add [] (-2147483648) 2147483647
          (rangeset_overlap [] (-2147483648) 2147483647).2.1
          (rangeset_overlap [] (-2147483648) 2147483647).2.2)
        (-2147483648) 2147483647).1 = -1 ∧
    ¬ ((-1 : Int) ≥ 2147483647 - (-2147483648)) := by
  refine ⟨by decide, by decide, by decide, by decide, by decide⟩

/-- C20. Degenerate input: `rangeset_overlap` called with `beg >= end` (on
any set) or on an empty set (with any range) returns overlap 0 and boundary
indices `(-1, n)`, and `rangeset_add` called with `beg >= end` leaves the set
unchanged. -/
theorem rangeset_degenerate (a : rangeset_t) (beg end_ : Int) :
    (beg ≥ end_ ∨ a = [] → rangeset_overlap a beg end_ = (0, -1, (a.length : Int))) ∧
    (beg ≥ end_ → ∀ b e : Int, rangeset_add a beg end_ b e = a) := by
  constructor
  · intro hc
    have hc' : beg ≥ end_ ∨ a.length = 0 := by
      rcases hc with hc | hc
      · exact Or.inl hc
      · exact Or.inr (by rw [hc]; rfl)
    simp only [rangeset_overlap, if_pos hc']
  · intro hge b e
    simp only [rangeset_add, if_pos hge]

/-- C20 on concrete input: an empty range against a non-empty set, and any
range against the empty set. -/
theorem rangeset_degenerate_example :
    rangeset_overlap [⟨10, 20⟩, ⟨25, 30⟩] 15 15 = (0, -1, 2) ∧
    rangeset_overlap [⟨10, 20⟩, ⟨25, 30⟩] 28 12 = (0, -1, 2) ∧
    rangeset_overlap [] 3 9 = (0, -1, 0) ∧
    rangeset_add [⟨10, 20⟩, ⟨25, 30⟩] 28 12 (-1) 2 = [⟨10, 20⟩, ⟨25, 30⟩] := by
  decide

/-! ## Compaction, returned records and a second run -/

theorem rba_step_alns (c : ℚ) (st : rba_state) (r : aln_t) :
    (rba_step c st r).alns =
      st.alns ++ [if rba_accepts c st r = true then r
        else ⟨r.aread, r.bread, r.abpos, r.aepos, r.bbpos, r.bepos, 0⟩] := by
  by_cases h : rba_accepts c st r = true
  · rw [if_pos h]
    simp only [rba_accepts] at h
    simp only [rba_step, h, if_true]
  · rw [if_neg h]
    simp only [rba_accepts] at h
    simp only [rba_step, h]
    rfl

theorem rba_step_n_rec (c : ℚ) (st : rba_state) (r : aln_t) :
    (rba_step c st r).n_rec = st.n_rec + (if rba_accepts c st r = true then 1 else 0) := by
  by_cases h : rba_accepts c st r = true
  · rw [if_pos h]
    simp only [rba_accepts] at h
    simp only [rba_step, h, if_true]
  · rw [if_neg h]
    simp only [rba_accepts] at h
    simp only [rba_step, h]
    simp

theorem rba_foldl_kept (c : ℚ) (l : List aln_t) :
    ∀ st : rba_state,
      (l.foldl (rba_step c) st).alns.filter (fun a => decide (a.mlen > 0)) =
        st.alns.filter (fun a => decide (a.mlen > 0)) ++ rba_kept_from c st l := by
  induction l with
  | nil => intro st; simp [rba_kept_from]
  | cons r rest ih =>
    intro st
    rw [List.foldl_cons, ih, rba_step_alns, List.filter_append, List.append_assoc]
    congr 1
    simp only [rba_kept_from]
    by_cases ha : rba_accepts c st r = true
    · by_cases hm : r.mlen > 0
      · simp [ha, hm]
      · simp [ha, hm]
    · simp [ha]

theorem reciprocal_best_aligns_eq_kept (sorted : List aln_t) (c : ℚ) :
    reciprocal_best_aligns sorted c = rba_kept_from c rba_init sorted := by
  unfold reciprocal_best_aligns rba_loop
  rw [rba_foldl_kept]
  simp [rba_init]

theorem rba_foldl_n_rec (c : ℚ) (l : List aln_t) :
    ∀ st : rba_state,
      (l.foldl (rba_step c) st).n_rec = st.n_rec + ((rba_accepted_from c st l).length : Int) := by
  induction l with
  | nil => intro st; simp [rba_accepted_from]
  | cons r rest ih =>
    intro st
    rw [List.foldl_cons, ih, rba_step_n_rec]
    simp only [rba_accepted_from]
    by_cases ha : rba_accepts c st r = true
    · simp only [ha, if_true, List.length_cons]
      push_cast
      omega
    · simp [ha]

theorem rba_kept_eq_accepted (c : ℚ) (l : List aln_t) (hpos : ∀ r ∈ l, 0 < r.mlen) :
    ∀ st : rba_state, rba_kept_from c st l = rba_accepted_from c st l := by
  induction l with
  | nil => intro st; rfl
  | cons r rest ih =>
    intro st
    have hr : r.mlen > 0 := hpos r (by simp)
    have ih' := ih (fun x hx => hpos x (List.mem_cons_of_mem _ hx)) (rba_step c st r)
    simp only [rba_kept_from, rba_accepted_from, hr, and_true, ih']

theorem rba_accepted_from_sublist (c : ℚ) (l : List aln_t) :
    ∀ st : rba_state, (rba_accepted_from c st l).Sublist l := by
  induction l with
  | nil => intro st; exact List.Sublist.slnil
  | cons r rest ih =>
    intro st
    simp only [rba_accepted_from]
    split
    · exact (ih _).cons₂ r
    · exact (ih _).cons r

theorem rba_kept_from_sublist (c : ℚ) (l : List aln_t) :
    ∀ st : rba_state, (rba_kept_from c st l).Sublist l := by
  induction l with
  | nil => intro st; exact List.Sublist.slnil
  | cons r rest ih =>
    intro st
    simp only [rba_kept_from]
    split
    · exact (ih _).cons₂ r
    · exact (ih _).cons r

theorem rba_kept_from_pos (c : ℚ) (l : List aln_t) :
    ∀ st : rba_state, ∀ r ∈ rba_kept_from c st l, 0 < r.mlen := by
  induction l with
  | nil => intro st r hr; simp [rba_kept_from] at hr
  | cons x rest ih =>
    intro st r hr
    simp only [rba_kept_from] at hr
    split at hr
    · rename_i hc
      rcases List.mem_cons.1 hr with rfl | hr
      · exact hc.2
      · exact ih _ r hr
    · exact ih _ r hr

/-- C14. Compaction in `reciprocal_best_aligns`: for an input array whose
scores are all positive, the returned array is the subsequence of the accepted
records of the score-descending array, in the same order and with all seven
fields unchanged, and the returned count is the number of records that the
greedy pass accepted. -/
theorem rba_compaction (alns sorted : List aln_t) (max_cov : ℚ)
    (hq : qsort_result MORDER alns sorted) (hpos : ∀ r ∈ alns, 0 < r.mlen) :
    reciprocal_best_aligns sorted max_cov = rba_accepted max_cov sorted ∧
    (rba_accepted max_cov sorted).Sublist sorted ∧
    ((reciprocal_best_aligns sorted max_cov).length : Int) = (rba_loop max_cov sorted).n_rec := by
  have hpos' : ∀ r ∈ sorted, 0 < r.mlen := fun r hr => hpos r (hq.1.subset hr)
  have h1 : reciprocal_best_aligns sorted max_cov = rba_accepted max_cov sorted := by
    rw [reciprocal_best_aligns_eq_kept, rba_kept_eq_accepted max_cov sorted hpos']
    rfl
  refine ⟨h1, rba_accepted_from_sublist max_cov sorted rba_init, ?_⟩
  rw [h1]
  unfold rba_loop
  rw [rba_foldl_n_rec]
  simp [rba_init, rba_accepted]

/-- Witness for C14: three records on one pair of sequences, the second one
rejected. -/
theorem rba_compaction_witness :
    qsort_result MORDER
      [⟨0, 0, 50, 120, 200, 270, 70⟩, ⟨0, 0, 0, 100, 0, 100, 100⟩, ⟨0, 0, 300, 350, 300, 350, 50⟩]
      [⟨0, 0, 0, 100, 0, 100, 100⟩, ⟨0, 0, 50, 120, 200, 270, 70⟩,
        ⟨0, 0, 300, 350, 300, 350, 50⟩] ∧
    reciprocal_best_aligns
      [⟨0, 0, 0, 100, 0, 100, 100⟩, ⟨0, 0, 50, 120, 200, 270, 70⟩,
        ⟨0, 0, 300, 350, 300, 350, 50⟩] half =
      [⟨0, 0, 0, 100, 0, 100, 100⟩, ⟨0, 0, 300, 350, 300, 350, 50⟩] ∧
    reciprocal_best_aligns
      [⟨0, 0, 0, 100, 0, 100, 100⟩, ⟨0, 0, 50, 120, 200, 270, 70⟩,
        ⟨0, 0, 300, 350, 300, 350, 50⟩] half =
      rba_accepted half
        [⟨0, 0, 0, 100, 0, 100, 100⟩, ⟨0, 0, 50, 120, 200, 270, 70⟩,
          ⟨0, 0, 300, 350, 300, 350, 50⟩] :=
  ⟨⟨by decide, by decide⟩, by decide,
    (rba_compaction
      [⟨0, 0, 50, 120, 200, 270, 70⟩, ⟨0, 0, 0, 100, 0, 100, 100⟩, ⟨0, 0, 300, 350, 300, 350, 50⟩]
      [⟨0, 0, 0, 100, 0, 100, 100⟩, ⟨0, 0, 50, 120, 200, 270, 70⟩,
        ⟨0, 0, 300, 350, 300, 350, 50⟩] half ⟨by decide, by decide⟩ (by decide)).1⟩

/-- C15. Every record returned by `reciprocal_best_aligns` has score `> 0`
and is a record of the input, so no tombstoned record and no record whose
input score is 0 is returned; a record of score 0 can pass the acceptance
test and have its intervals added to the coverage sets (the record
`Q[0,100)~T[0,100)` with score 0 alone: accepted, counted, stored, and not
returned). -/
theorem rba_returned_positive (sorted : List aln_t) (max_cov : ℚ) :
    (∀ r ∈ reciprocal_best_aligns sorted max_cov, 0 < r.mlen ∧ r ∈ sorted) ∧
    (∀ r ∈ sorted, r.mlen = 0 → r ∉ reciprocal_best_aligns sorted max_cov) ∧
    (rba_accepts half rba_init ⟨0, 0, 0, 100, 0, 100, 0⟩ = true ∧
      (rba_loop half [⟨0, 0, 0, 100, 0, 100, 0⟩]).q_span 0 = [⟨0, 100⟩] ∧
      (rba_loop half [⟨0, 0, 0, 100, 0, 100, 0⟩]).t_span 0 = [⟨0, 100⟩] ∧
      (rba_loop half [⟨0, 0, 0, 100, 0, 100, 0⟩]).n_rec = 1 ∧
      reciprocal_best_aligns [⟨0, 0, 0, 100, 0, 100, 0⟩] half = []) := by
  have hp : ∀ r ∈ reciprocal_best_aligns sorted max_cov, 0 < r.mlen := by
    intro r hr
    rw [reciprocal_best_aligns_eq_kept] at hr
    exact rba_kept_from_pos max_cov sorted rba_init r hr
  refine ⟨?_, ?_, by decide, by decide, by decide, by decide, by decide⟩
  · intro r hr
    refine ⟨hp r hr, ?_⟩
    rw [reciprocal_best_aligns_eq_kept] at hr
    exact (rba_kept_from_sublist max_cov sorted rba_init).subset hr
  · intro r _ hz hr
    have := hp r hr
    omega

theorem rba_step_spans (c : ℚ) (st : rba_state) (r : aln_t) :
    (rba_step c st r).q_span =
      (if rba_accepts c st r = true then
        Function.update st.q_span r.aread
          (rangeset_insert (st.q_span r.aread) (toInt32 r.abpos) (toInt32 r.aepos))
       else st.q_span) ∧
    (rba_step c st r).t_span =
      (if rba_accepts c st r = true then
        Function.update st.t_span r.bread
          (rangeset_insert (st.t_span r.bread) (toInt32 r.bbpos) (toInt32 r.bepos))
       else st.t_span) := by
  by_cases h : rba_accepts c st r = true
  · rw [if_pos h, if_pos h]
    simp only [rba_accepts] at h
    simp only [rba_step, h, if_true, rangeset_insert, and_self]
  · rw [if_neg h, if_neg h]
    simp only [rba_accepts] at h
    simp only [rba_step, h]
    simp

theorem rba_step_inv (c : ℚ) (st : rba_state) (r : aln_t) (h : spans_inv st) :
    spans_inv (rba_step c st r) := by
  obtain ⟨hq, ht⟩ := rba_step_spans c st r
  unfold spans_inv
  rw [hq, ht]
  by_cases ha : rba_accepts c st r = true
  · simp only [ha, if_true]
    constructor
    · intro id
      by_cases hid : id = r.aread
      · subst hid
        rw [Function.update_same]
        exact rangeset_insert_inv _ (h.1 _) _ _
      · rw [Function.update_noteq hid]
        exact h.1 id
    · intro id
      by_cases hid : id = r.bread
      · subst hid
        rw [Function.update_same]
        exact rangeset_insert_inv _ (h.2 _) _ _
      · rw [Function.update_noteq hid]
        exact h.2 id
  · simp only [ha]
    exact h

theorem rba_accepts_congr (c : ℚ) (st1 st2 : rba_state) (r : aln_t)
    (hq : st2.q_span = st1.q_span) (ht : st2.t_span = st1.t_span) :
    rba_accepts c st2 r = rba_accepts c st1 r := by
  simp only [rba_accepts, hq, ht]

theorem rba_kept_from_nonpos (c : ℚ) (l : List aln_t) (h : ∀ r ∈ l, r.mlen ≤ 0) :
    ∀ st : rba_state, rba_kept_from c st l = [] := by
  induction l with
  | nil => intro st; rfl
  | cons r rest ih =>
    intro st
    have hr : ¬ (rba_accepts c st r = true ∧ r.mlen > 0) := by
      have := h r (by simp)
      intro hk
      omega
    simp only [rba_kept_from, hr, if_false]
    exact ih (fun x hx => h x (List.mem_cons_of_mem _ hx)) _

theorem MORDER_le_iff (x y : aln_t) : MORDER x y ≤ 0 ↔ y.mlen ≤ x.mlen := by
  unfold MORDER
  split_ifs <;> omega

/-- A second run over the records kept by a first run over a score-descending
array keeps all of them, when it starts from the coverage the first run
started from: up to the last record kept, every record accepted by the first
run has a positive score and is kept, so that both runs test each kept record
against the same coverage sets. -/
theorem rba_kept_from_again (c : ℚ) (l : List aln_t)
    (hs : l.Pairwise (fun x y => MORDER x y ≤ 0)) :
    ∀ st1 st2 : rba_state, st2.q_span = st1.q_span → st2.t_span = st1.t_span →
      rba_kept_from c st2 (rba_kept_from c st1 l) = rba_kept_from c st1 l := by
  induction l with
  | nil => intro st1 st2 _ _; rfl
  | cons r rest ih =>
    intro st1 st2 hq ht
    rw [List.pairwise_cons] at hs
    by_cases hm : r.mlen > 0
    · by_cases ha : rba_accepts c st1 r = true
      · have ha2 : rba_accepts c st2 r = true := by
          rw [rba_accepts_congr c st1 st2 r hq ht]
          exact ha
        have hk : rba_accepts c st1 r = true ∧ r.mlen > 0 := ⟨ha, hm⟩
        have hk2 : rba_accepts c st2 r = true ∧ r.mlen > 0 := ⟨ha2, hm⟩
        have e1 : rba_kept_from c st1 (r :: rest) =
            r :: rba_kept_from c (rba_step c st1 r) rest := by
          simp only [rba_kept_from, hk, and_self, if_true]
        rw [e1]
        have e2 : rba_kept_from c st2 (r :: rba_kept_from c (rba_step c st1 r) rest) =
            r :: rba_kept_from c (rba_step c st2 r)
              (rba_kept_from c (rba_step c st1 r) rest) := by
          simp only [rba_kept_from, hk2, and_self, if_true]
        obtain ⟨hq1, ht1⟩ := rba_step_spans c st1 r
        obtain ⟨hq2, ht2⟩ := rba_step_spans c st2 r
        rw [if_pos ha] at hq1 ht1
        rw [if_pos ha2] at hq2 ht2
        rw [e2, ih hs.2 (rba_step c st1 r) (rba_step c st2 r) (by rw [hq1, hq2, hq])
          (by rw [ht1, ht2, ht])]
      · have hk : ¬ (rba_accepts c st1 r = true ∧ r.mlen > 0) := fun hk => ha hk.1
        have e1 : rba_kept_from c st1 (r :: rest) =
            rba_kept_from c (rba_step c st1 r) rest := by
          simp only [rba_kept_from, hk, if_false]
        obtain ⟨hq1, ht1⟩ := rba_step_spans c st1 r
        rw [if_neg ha] at hq1 ht1
        rw [e1]
        exact ih hs.2 (rba_step c st1 r) st2 (by rw [hq1, hq]) (by rw [ht1, ht])
    · have hall : ∀ x ∈ r :: rest, x.mlen ≤ 0 := by
        intro x hx
        rcases List.mem_cons.1 hx with rfl | hx
        · omega
        · have := (MORDER_le_iff r x).1 (hs.1 x hx)
          omega
      rw [rba_kept_from_nonpos c (r :: rest) hall st1]
      rfl

theorem rba_init_inv : spans_inv rba_init :=
  ⟨fun _ => by simp [rba_init, rangeset_inv], fun _ => by simp [rba_init, rangeset_inv]⟩

/-- C13 (amended). Idempotence of `reciprocal_best_aligns` when the second
run visits the returned records in the order in which they were returned: the
returned array is score-descending, hence a possible result of the second
sort, and running the filter with the same `max_cov` on it accepts every
record and returns the same array. -/
theorem rba_idempotent_same_order (alns sorted : List aln_t) (max_cov : ℚ)
    (hq : qsort_result MORDER alns sorted) :
    qsort_result MORDER (reciprocal_best_aligns sorted max_cov)
      (reciprocal_best_aligns sorted max_cov) ∧
    reciprocal_best_aligns (reciprocal_best_aligns sorted max_cov) max_cov =
      reciprocal_best_aligns sorted max_cov := by
  constructor
  · refine ⟨List.Perm.refl _, ?_⟩
    rw [reciprocal_best_aligns_eq_kept]
    exact hq.2.sublist (rba_kept_from_sublist max_cov sorted rba_init)
  · rw [reciprocal_best_aligns_eq_kept, reciprocal_best_aligns_eq_kept]
    exact rba_kept_from_again max_cov sorted hq.2 rba_init rba_init rfl rfl

/-- Witness for C13 (amended). -/
theorem rba_idempotent_same_order_witness :
    qsort_result MORDER
      [⟨0, 0, 50, 120, 200, 270, 70⟩, ⟨0, 0, 0, 100, 0, 100, 100⟩, ⟨0, 0, 300, 350, 300, 350, 50⟩]
      [⟨0, 0, 0, 100, 0, 100, 100⟩, ⟨0, 0, 50, 120, 200, 270, 70⟩,
        ⟨0, 0, 300, 350, 300, 350, 50⟩] ∧
    reciprocal_best_aligns
      (reciprocal_best_aligns
        [⟨0, 0, 0, 100, 0, 100, 100⟩, ⟨0, 0, 50, 120, 200, 270, 70⟩,
          ⟨0, 0, 300, 350, 300, 350, 50⟩] half) half =
      reciprocal_best_aligns
        [⟨0, 0, 0, 100, 0, 100, 100⟩, ⟨0, 0, 50, 120, 200, 270, 70⟩,
          ⟨0, 0, 300, 350, 300, 350, 50⟩] half :=
  ⟨⟨by decide, by decide⟩,
    (rba_idempotent_same_order
      [⟨0, 0, 50, 120, 200, 270, 70⟩, ⟨0, 0, 0, 100, 0, 100, 100⟩, ⟨0, 0, 300, 350, 300, 350, 50⟩]
      [⟨0, 0, 0, 100, 0, 100, 100⟩, ⟨0, 0, 50, 120, 200, 270, 70⟩,
        ⟨0, 0, 300, 350, 300, 350, 50⟩] half ⟨by decide, by decide⟩).2⟩

/-- C13 as stated fails: three records of equal score 100 on one query
sequence, `Q[0,100)`, `Q[0,50)`, `Q[50,100)`, with disjoint target intervals
and `max_cov = 0.5`.  Visited in this order all three are accepted and
returned.  The order `Q[0,50)`, `Q[50,100)`, `Q[0,100)` is a possible result
of the score sort of the returned array, and in the second run `Q[0,100)` is
then fully covered and dropped. -/
theorem rba_idempotent_tie_order :
    qsort_result MORDER
      [⟨0, 0, 0, 100, 0, 100, 100⟩, ⟨0, 0, 0, 50, 1000, 1050, 100⟩,
        ⟨0, 0, 50, 100, 2000, 2050, 100⟩]
      [⟨0, 0, 0, 100, 0, 100, 100⟩, ⟨0, 0, 0, 50, 1000, 1050, 100⟩,
        ⟨0, 0, 50, 100, 2000, 2050, 100⟩] ∧
    reciprocal_best_aligns
      [⟨0, 0, 0, 100, 0, 100, 100⟩, ⟨0, 0, 0, 50, 1000, 1050, 100⟩,
        ⟨0, 0, 50, 100, 2000, 2050, 100⟩] half =
      [⟨0, 0, 0, 100, 0, 100, 100⟩, ⟨0, 0, 0, 50, 1000, 1050, 100⟩,
        ⟨0, 0, 50, 100, 2000, 2050, 100⟩] ∧
    qsort_result MORDER
      [⟨0, 0, 0, 100, 0, 100, 100⟩, ⟨0, 0, 0, 50, 1000, 1050, 100⟩,
        ⟨0, 0, 50, 100, 2000, 2050, 100⟩]
      [⟨0, 0, 0, 50, 1000, 1050, 100⟩, ⟨0, 0, 50, 100, 2000, 2050, 100⟩,
        ⟨0, 0, 0, 100, 0, 100, 100⟩] ∧
    reciprocal_best_aligns
      [⟨0, 0, 0, 50, 1000, 1050, 100⟩, ⟨0, 0, 50, 100, 2000, 2050, 100⟩,
        ⟨0, 0, 0, 100, 0, 100, 100⟩] half =
      [⟨0, 0, 0, 50, 1000, 1050, 100⟩, ⟨0, 0, 50, 100, 2000, 2050, 100⟩] :=
  ⟨⟨List.Perm.refl _, by decide⟩, by decide, ⟨by decide, by decide⟩, by decide⟩

/-! ## Grouping of the sorted array -/

theorem range_decode (j len : Nat) (hj : j < 4294967296) (hl : len < 4294967296) :
    range_offset (pack_range j len) = j ∧ range_len (pack_range j len) = len := by
  have h1 : (j <<< 32) % 18446744073709551616 = 2 ^ 32 * j := by
    rw [Nat.shiftLeft_eq, Nat.mod_eq_of_lt (by omega)]
    omega
  have h2 : pack_range j len = 2 ^ 32 * j + len := by
    unfold pack_range
    rw [h1, ← Nat.mul_add_lt_is_or (by omega) j]
  rw [h2]
  unfold range_offset range_len
  rw [Nat.shiftRight_eq_div_pow]
  constructor <;> omega

theorem group_loop_eq_spans (rest : List aln_t) :
    ∀ (i j : Nat) (a b : Int) (m : Nat) (ranges : List Nat), j < i →
      i + rest.length < 4294967296 →
      (group_loop rest i j a b m ranges).1.map (fun r => (range_offset r, range_len r)) =
        ranges.map (fun r => (range_offset r, range_len r)) ++ spans_from j a b (i - j) rest ∧
      (group_loop rest i j a b m ranges).2 =
        ((spans_from j a b (i - j) rest).map Prod.snd).foldl max m := by
  induction rest with
  | nil =>
    intro i j a b m ranges hji hlen
    simp only [List.length_nil, Nat.add_zero] at hlen
    obtain ⟨d1, d2⟩ := range_decode j (i - j) (by omega) (by omega)
    simp only [group_loop, spans_from, List.map_append, List.map_cons, List.map_nil, d1, d2,
      List.foldl_cons, List.foldl_nil, true_and]
    split <;> omega
  | cons x rest ih =>
    intro i j a b m ranges hji hlen
    simp only [List.length_cons] at hlen
    obtain ⟨d1, d2⟩ := range_decode j (i - j) (by omega) (by omega)
    by_cases hc : x.aread ≠ a ∨ x.bread ≠ b
    · have hg : group_loop (x :: rest) i j a b m ranges =
          group_loop rest (i + 1) i x.aread x.bread (if m < i - j then i - j else m)
            (ranges ++ [pack_range j (i - j)]) := by
        simp only [group_loop, if_pos hc]
      have hsp : spans_from j a b (i - j) (x :: rest) =
          (j, i - j) :: spans_from (j + (i - j)) x.aread x.bread 1 rest := by
        simp only [spans_from, if_pos hc]
      obtain ⟨i1, i2⟩ := ih (i + 1) i x.aread x.bread (if m < i - j then i - j else m)
        (ranges ++ [pack_range j (i - j)]) (by omega) (by omega)
      have e1 : i + 1 - i = 1 := by omega
      have e2 : j + (i - j) = i := by omega
      rw [hg, hsp, i1, i2, e1, e2]
      simp only [List.map_append, List.map_cons, List.map_nil, d1, d2, List.append_assoc,
        List.singleton_append, List.foldl_cons, true_and]
      congr 1
      split <;> omega
    · have hg : group_loop (x :: rest) i j a b m ranges =
          group_loop rest (i + 1) j a b m ranges := by
        simp only [group_loop, if_neg hc]
      have hsp : spans_from j a b (i - j) (x :: rest) = spans_from j a b (i - j + 1) rest := by
        simp only [spans_from, if_neg hc]
      have e1 : i + 1 - j = i - j + 1 := by omega
      rw [hg, hsp, ← e1]
      exact ih (i + 1) j a b m ranges (by omega) (by omega)

theorem spans_from_contig (rest : List aln_t) :
    ∀ (off : Nat) (a b : Int) (cur k : Nat) (s : Nat × Nat),
      (spans_from off a b cur rest)[k]? = some s →
      s.1 = off + (((spans_from off a b cur rest).take k).map Prod.snd).sum := by
  induction rest with
  | nil =>
    intro off a b cur k s hk
    simp only [spans_from] at hk ⊢
    cases k with
    | zero => simp at hk; subst hk; simp
    | succ k => simp at hk
  | cons x rest ih =>
    intro off a b cur k s hk
    by_cases hc : x.aread ≠ a ∨ x.bread ≠ b
    · simp only [spans_from, if_pos hc] at hk ⊢
      cases k with
      | zero => simp at hk; subst hk; simp
      | succ k =>
        simp only [List.getElem?_cons_succ] at hk
        have := ih _ _ _ _ k s hk
        simp only [List.take_succ_cons, List.map_cons, List.sum_cons]
        omega
    · simp only [spans_from, if_neg hc] at hk ⊢
      exact ih _ _ _ _ k s hk

theorem spans_from_len (rest : List aln_t) :
    ∀ (off : Nat) (a b : Int) (cur : Nat), 1 ≤ cur →
      (∀ s ∈ spans_from off a b cur rest, 1 ≤ s.2) ∧
      ((spans_from off a b cur rest).map Prod.snd).sum = cur + rest.length := by
  induction rest with
  | nil =>
    intro off a b cur hcur
    simp [spans_from, hcur]
  | cons x rest ih =>
    intro off a b cur hcur
    by_cases hc : x.aread ≠ a ∨ x.bread ≠ b
    · simp only [spans_from, if_pos hc]
      obtain ⟨i1, i2⟩ := ih (off + cur) x.aread x.bread 1 (le_refl 1)
      constructor
      · intro s hs
        rcases List.mem_cons.1 hs with rfl | hs
        · exact hcur
        · exact i1 s hs
      · simp only [List.map_cons, List.sum_cons, i2, List.length_cons]
        omega
    · simp only [spans_from, if_neg hc]
      obtain ⟨i1, i2⟩ := ih off a b (cur + 1) (by omega)
      refine ⟨i1, ?_⟩
      rw [i2, List.length_cons]
      omega

theorem foldl_max_spec (l : List Nat) :
    ∀ m : Nat, m ≤ l.foldl max m ∧ (∀ x ∈ l, x ≤ l.foldl max m) ∧
      (l.foldl max m = m ∨ l.foldl max m ∈ l) := by
  induction l with
  | nil => intro m; simp
  | cons y l ih =>
    intro m
    obtain ⟨i1, i2, i3⟩ := ih (max m y)
    simp only [List.foldl_cons]
    refine ⟨by omega, ?_, ?_⟩
    · intro x hx
      rcases List.mem_cons.1 hx with rfl | hx
      · omega
      · exact i2 x hx
    · rcases i3 with h | h
      · rw [h]
        rcases Nat.le_total m y with hmy | hmy
        · right
          rw [Nat.max_eq_right hmy]
          simp
        · left
          exact Nat.max_eq_left hmy
      · right
        exact List.mem_cons_of_mem _ h

theorem drop_eq_cons_aget (alns : List aln_t) (i : Nat) (x : aln_t) (rest : List aln_t)
    (h : alns.drop i = x :: rest) :
    i < alns.length ∧ aget alns i = x ∧ alns.drop (i + 1) = rest := by
  have hlt : i < alns.length := by
    by_contra hge
    rw [List.drop_eq_nil_of_le (by omega)] at h
    cases h
  rw [List.drop_eq_getElem_cons hlt] at h
  injection h with h1 h2
  refine ⟨hlt, ?_, h2⟩
  simp [aget, List.getElem?_eq_getElem hlt, h1]

theorem RORDER_pair_le (x y : aln_t) (h : RORDER x y ≤ 0) : pair_le (pair_of x) (pair_of y) := by
  unfold pair_le pair_of
  simp only
  unfold RORDER at h
  by_cases h1 : x.aread = y.aread
  · rw [if_pos h1] at h
    by_cases h2 : x.bread = y.bread
    · right; exact ⟨h1, by omega⟩
    · rw [if_neg h2] at h
      right
      refine ⟨h1, ?_⟩
      simp only [cmp3] at h
      split_ifs at h <;> omega
  · rw [if_neg h1] at h
    left
    simp only [cmp3] at h
    split_ifs at h <;> omega

theorem pair_le_antisymm (p q : Int × Int) (h1 : pair_le p q) (h2 : pair_le q p) : p = q := by
  unfold pair_le at h1 h2
  apply Prod.ext <;> omega

theorem pair_le_trans (p q r : Int × Int) (h1 : pair_le p q) (h2 : pair_le q r) :
    pair_le p r := by
  unfold pair_le at *
  omega

theorem sorted_pair_le (alns : List aln_t) (hs : alns.Pairwise (fun x y => RORDER x y ≤ 0))
    (u w : Nat) (huw : u ≤ w) (hw : w < alns.length) :
    pair_le (pair_of (aget alns u)) (pair_of (aget alns w)) := by
  rcases Nat.eq_or_lt_of_le huw with rfl | hlt
  · unfold pair_le; omega
  · have hu : u < alns.length := by omega
    have := List.pairwise_iff_getElem.1 hs u w hu hw hlt
    have e1 : aget alns u = alns[u] := by simp [aget, List.getElem?_eq_getElem hu]
    have e2 : aget alns w = alns[w] := by simp [aget, List.getElem?_eq_getElem hw]
    rw [e1, e2]
    exact RORDER_pair_le _ _ this

theorem spans_from_keys (alns : List aln_t) (rest : List aln_t) :
    ∀ (off : Nat) (a b : Int) (cur : Nat), alns.drop (off + cur) = rest → 1 ≤ cur →
      off + cur ≤ alns.length →
      (∀ t, off ≤ t → t < off + cur → pair_of (aget alns t) = (a, b)) →
      (∃ l tl, spans_from off a b cur rest = (off, l) :: tl) ∧
      (∀ s ∈ spans_from off a b cur rest, off ≤ s.1 ∧ s.1 + s.2 ≤ alns.length ∧ 1 ≤ s.2 ∧
        ∀ t, s.1 ≤ t → t < s.1 + s.2 → pair_of (aget alns t) = pair_of (aget alns s.1)) ∧
      (spans_from off a b cur rest).Chain'
        (fun s t => pair_of (aget alns s.1) ≠ pair_of (aget alns t.1)) ∧
      ((∀ u w, u ≤ w → w < alns.length →
          pair_le (pair_of (aget alns u)) (pair_of (aget alns w))) →
        (spans_from off a b cur rest).Pairwise
          (fun s t => pair_of (aget alns s.1) ≠ pair_of (aget alns t.1))) := by
  induction rest with
  | nil =>
    intro off a b cur hdrop hcur hle hkey
    simp only [spans_from]
    refine ⟨⟨cur, [], rfl⟩, ?_, List.chain'_singleton _, fun _ => List.pairwise_singleton _ _⟩
    intro s hs
    rw [List.mem_singleton] at hs
    subst hs
    refine ⟨le_refl _, hle, hcur, ?_⟩
    intro t h1 h2
    rw [hkey t h1 h2, hkey off (le_refl _) (by omega)]
  | cons x rest ih =>
    intro off a b cur hdrop hcur hle hkey
    obtain ⟨hlt, hx, hdrop'⟩ := drop_eq_cons_aget alns (off + cur) x rest hdrop
    by_cases hc : x.aread ≠ a ∨ x.bread ≠ b
    · have hsp : spans_from off a b cur (x :: rest) =
          (off, cur) :: spans_from (off + cur) x.aread x.bread 1 rest := by
        simp only [spans_from, if_pos hc]
      have hkey' : ∀ t, off + cur ≤ t → t < off + cur + 1 →
          pair_of (aget alns t) = (x.aread, x.bread) := by
        intro t h1 h2
        have : t = off + cur := by omega
        rw [this, hx]
        rfl
      obtain ⟨⟨l, tl, hhd⟩, i2, i3, i4⟩ := ih (off + cur) x.aread x.bread 1 hdrop' (le_refl 1)
        (by omega) hkey'
      have hoff : pair_of (aget alns off) = (a, b) := hkey off (le_refl _) (by omega)
      have hnext : pair_of (aget alns (off + cur)) = (x.aread, x.bread) := by rw [hx]; rfl
      have hne : pair_of (aget alns off) ≠ pair_of (aget alns (off + cur)) := by
        rw [hoff, hnext]
        intro heq
        injection heq with e1 e2
        rcases hc with hc | hc
        · exact hc e1.symm
        · exact hc e2.symm
      rw [hsp]
      refine ⟨⟨cur, _, rfl⟩, ?_, ?_, ?_⟩
      · intro s hs
        rcases List.mem_cons.1 hs with rfl | hs
        · refine ⟨le_refl _, by omega, hcur, ?_⟩
          intro t h1 h2
          rw [hkey t h1 h2, hoff]
        · obtain ⟨j1, j2, j3, j4⟩ := i2 s hs
          exact ⟨by omega, j2, j3, j4⟩
      · rw [hhd, List.chain'_cons]
        rw [hhd] at i3
        exact ⟨hne, i3⟩
      · intro hsorted
        rw [List.pairwise_cons]
        refine ⟨?_, i4 hsorted⟩
        intro s hs heq
        obtain ⟨j1, j2, j3, _⟩ := i2 s hs
        have h1 := hsorted off (off + cur) (by omega) hlt
        have h2 := hsorted (off + cur) s.1 j1 (by omega)
        simp only at heq
        rw [← heq] at h2
        exact hne (pair_le_antisymm _ _ h1 h2)
    · have hsp : spans_from off a b cur (x :: rest) = spans_from off a b (cur + 1) rest := by
        simp only [spans_from, if_neg hc]
      have hxa : x.aread = a ∧ x.bread = b := by
        constructor
        · by_contra h; exact hc (Or.inl h)
        · by_contra h; exact hc (Or.inr h)
      have hkey' : ∀ t, off ≤ t → t < off + (cur + 1) → pair_of (aget alns t) = (a, b) := by
        intro t h1 h2
        by_cases ht : t < off + cur
        · exact hkey t h1 ht
        · have : t = off + cur := by omega
          rw [this, hx]
          simp only [pair_of, hxa.1, hxa.2]
      rw [hsp]
      exact ih off a b (cur + 1) (by rw [← hdrop']; congr 1) (by omega) (by omega) hkey'

theorem mem_slice_aget (alns : List aln_t) (o l : Nat) (x : aln_t)
    (h : x ∈ (alns.drop o).take l) :
    ∃ t, o ≤ t ∧ t < o + l ∧ t < alns.length ∧ aget alns t = x := by
  obtain ⟨k, hk, rfl⟩ := List.mem_take_iff_getElem.1 h
  simp only [List.length_drop] at hk
  have hlt : o + k < alns.length := by omega
  refine ⟨o + k, by omega, by omega, hlt, ?_⟩
  simp [aget, List.getElem?_eq_getElem hlt]

/-- C16. Group partitioning in `align_gaps`: for a non-empty array of fewer
than `2^32` records sorted by `RORDER`, the spans `(offset_k, len_k)` start at
offset 0, each begins where the previous one ends, every length is at least 1
and the lengths sum to the record count; all records of one span share the
pair `(query_id, target_id)`, consecutive spans have different pairs, no two
spans have the same pair, and `m` is the largest length. -/
theorem align_gaps_partition (alns : List aln_t) (hne : alns ≠ [])
    (hlen : alns.length < 4294967296) (hs : alns.Pairwise (fun x y => RORDER x y ≤ 0)) :
    (∀ (k : Nat) (s : Nat × Nat), (align_gaps_spans alns)[k]? = some s →
      s.1 = (((align_gaps_spans alns).take k).map Prod.snd).sum) ∧
    (∀ s ∈ align_gaps_spans alns, 1 ≤ s.2) ∧
    ((align_gaps_spans alns).map Prod.snd).sum = alns.length ∧
    (∀ s ∈ align_gaps_spans alns, ∀ x ∈ (alns.drop s.1).take s.2,
      pair_of x = pair_of (aget alns s.1)) ∧
    (align_gaps_spans alns).Chain'
      (fun s t => pair_of (aget alns s.1) ≠ pair_of (aget alns t.1)) ∧
    (align_gaps_spans alns).Pairwise
      (fun s t => pair_of (aget alns s.1) ≠ pair_of (aget alns t.1)) ∧
    (∃ s ∈ align_gaps_spans alns, s.2 = (align_gaps_ranges alns).2) ∧
    (∀ s ∈ align_gaps_spans alns, s.2 ≤ (align_gaps_ranges alns).2) := by
  cases alns with
  | nil => exact absurd rfl hne
  | cons x rest =>
    simp only [List.length_cons] at hlen
    obtain ⟨g1, g2⟩ := group_loop_eq_spans rest 1 0 x.aread x.bread 0 [] (by omega) (by omega)
    have hsp : align_gaps_spans (x :: rest) = spans_from 0 x.aread x.bread 1 rest := by
      simp only [align_gaps_spans, align_gaps_ranges]
      rw [g1]
      simp
    have hm : (align_gaps_ranges (x :: rest)).2 =
        ((spans_from 0 x.aread x.bread 1 rest).map Prod.snd).foldl max 0 := by
      simp only [align_gaps_ranges]
      rw [g2]
    rw [hsp, hm]
    obtain ⟨l1, l2⟩ := spans_from_len rest 0 x.aread x.bread 1 (le_refl 1)
    have hkey0 : ∀ t, 0 ≤ t → t < 0 + 1 → pair_of (aget (x :: rest) t) = (x.aread, x.bread) := by
      intro t _ h2
      have : t = 0 := by omega
      subst this
      simp [aget, pair_of]
    obtain ⟨⟨l, tl, hhd⟩, k2, k3, k4⟩ := spans_from_keys (x :: rest) rest 0 x.aread x.bread 1
      (by simp) (le_refl 1) (by simp) hkey0
    obtain ⟨m1, m2, m3⟩ := foldl_max_spec ((spans_from 0 x.aread x.bread 1 rest).map Prod.snd) 0
    refine ⟨?_, l1, ?_, ?_, k3, k4 (sorted_pair_le (x :: rest) hs), ?_, ?_⟩
    · intro k s hk
      have := spans_from_contig rest 0 x.aread x.bread 1 k s hk
      omega
    · rw [l2, List.length_cons]; omega
    · intro s hs' y hy
      obtain ⟨t, t1, t2, _, rfl⟩ := mem_slice_aget (x :: rest) s.1 s.2 y hy
      exact (k2 s hs').2.2.2 t t1 t2
    · rcases m3 with h0 | hin
      · have hmem : (0, l) ∈ spans_from 0 x.aread x.bread 1 rest := by rw [hhd]; simp
        have h1 := l1 _ hmem
        have h2 := m2 l (List.mem_map.2 ⟨(0, l), hmem, rfl⟩)
        simp only at h1
        omega
      · obtain ⟨s, hs', he⟩ := List.mem_map.1 hin
        exact ⟨s, hs', he⟩
    · intro s hs'
      exact m2 s.2 (List.mem_map.2 ⟨s, hs', rfl⟩)

/-- Witness for C16: six records in three groups. -/
theorem align_gaps_partition_witness :
    ([⟨0, 0, 0, 100, 0, 100, 100⟩, ⟨0, 0, 600, 700, 600, 700, 100⟩, ⟨0, 1, 0, 1, 0, 1, 1⟩,
        ⟨2, 0, 0, 1, 0, 1, 1⟩, ⟨2, 0, 5, 6, 0, 1, 1⟩, ⟨2, 0, 7, 8, 0, 1, 1⟩] :
      List aln_t).Pairwise (fun x y => RORDER x y ≤ 0) ∧
    align_gaps_spans
      [⟨0, 0, 0, 100, 0, 100, 100⟩, ⟨0, 0, 600, 700, 600, 700, 100⟩, ⟨0, 1, 0, 1, 0, 1, 1⟩,
        ⟨2, 0, 0, 1, 0, 1, 1⟩, ⟨2, 0, 5, 6, 0, 1, 1⟩, ⟨2, 0, 7, 8, 0, 1, 1⟩] =
      [(0, 2), (2, 1), (3, 3)] ∧
    (align_gaps_ranges
      [⟨0, 0, 0, 100, 0, 100, 100⟩, ⟨0, 0, 600, 700, 600, 700, 100⟩, ⟨0, 1, 0, 1, 0, 1, 1⟩,
        ⟨2, 0, 0, 1, 0, 1, 1⟩, ⟨2, 0, 5, 6, 0, 1, 1⟩, ⟨2, 0, 7, 8, 0, 1, 1⟩]).2 = 3 ∧
    ((align_gaps_spans
      [⟨0, 0, 0, 100, 0, 100, 100⟩, ⟨0, 0, 600, 700, 600, 700, 100⟩, ⟨0, 1, 0, 1, 0, 1, 1⟩,
        ⟨2, 0, 0, 1, 0, 1, 1⟩, ⟨2, 0, 5, 6, 0, 1, 1⟩, ⟨2, 0, 7, 8, 0, 1, 1⟩]).map
      Prod.snd).sum = 6 :=
  ⟨by decide, by decide, by decide,
    (align_gaps_partition
      [⟨0, 0, 0, 100, 0, 100, 100⟩, ⟨0, 0, 600, 700, 600, 700, 100⟩, ⟨0, 1, 0, 1, 0, 1, 1⟩,
        ⟨2, 0, 0, 1, 0, 1, 1⟩, ⟨2, 0, 5, 6, 0, 1, 1⟩, ⟨2, 0, 7, 8, 0, 1, 1⟩]
      (by decide) (by decide) (by decide)).2.2.1⟩

/-! ## Two alignments and the end-to-end scenario -/

/-- C12 (amended). For two alignments `a1`, `a2` whose target-axis separation
`dist` is 500 and with `a1.q_end + 100 <= a2.q_begin < a1.q_end + 1000`, the
scan of `gap_core` over the two alignments alone, with `min_gap = 100`,
`max_gap = 1000` and `max_overlap_flank = 200`, produces exactly one candidate
box, the box of the pair, and that box is in the candidate buffer of the group
with its sentinels; with `max_gap = 400` the scan over the two alignments
produces no box. -/
theorem gap_scan_two_alignments (a1 a2 : aln_t) (alen blen : Int)
    (hd : gap_dist a1 a2 = 500)
    (hw : a1.aepos + 100 ≤ a2.abpos ∧ a2.abpos < a1.aepos + 1000) :
    gap_scan 100 1000 200 [a1, a2] = [gap_box 200 a1 a2] ∧
    gap_box 200 a1 a2 ∈ gap_candidates 100 1000 200 [a1, a2] alen blen ∧
    gap_scan 100 400 200 [a1, a2] = [] := by
  have hn1 : ¬ a2.abpos < a1.aepos + 100 := by omega
  have hok : gap_dist_ok 100 1000 a1 a2 = true := by
    simp only [gap_dist_ok, hd]; decide
  have hno : gap_dist_ok 100 400 a1 a2 = false := by
    simp only [gap_dist_ok, hd]; decide
  refine ⟨?_, ?_, ?_⟩
  · simp [gap_scan, gap_scan_from, hn1, hw.2, hok]
  · simp only [gap_candidates, gap_array, gap_scan, List.cons_append, List.nil_append,
      List.mem_append]
    right; left
    simp only [gap_scan_from, List.mem_map, List.mem_filter]
    refine ⟨a2, ⟨?_, hok⟩, rfl⟩
    show a2 ∈ List.takeWhile (fun a => decide (a.abpos < a1.aepos + 1000))
      (List.dropWhile (fun a => decide (a.abpos < a1.aepos + 100))
        (a2 :: [(⟨0, 0, alen, alen, blen, blen, 0⟩ : aln_t)]))
    have e1 : decide (a2.abpos < a1.aepos + 100) = false := by simpa using hn1
    have e2 : decide (a2.abpos < a1.aepos + 1000) = true := by simpa using hw.2
    rw [List.dropWhile_cons_of_neg (by rw [e1]; simp)]
    simp only [List.takeWhile_cons, e2, if_true]
    exact List.mem_cons_self _ _
  · by_cases h4 : a2.abpos < a1.aepos + 400
    · simp [gap_scan, gap_scan_from, hn1, h4, hno]
    · simp [gap_scan, gap_scan_from, hn1, h4]

/-- Witness for C12 (amended): `Q[0,100)~T[0,100)` and `Q[600,700)~T[600,700)`. -/
theorem gap_scan_two_alignments_witness :
    gap_dist ⟨0, 0, 0, 100, 0, 100, 100⟩ ⟨0, 0, 600, 700, 600, 700, 100⟩ = 500 ∧
    gap_scan 100 1000 200 [⟨0, 0, 0, 100, 0, 100, 100⟩, ⟨0, 0, 600, 700, 600, 700, 100⟩] =
      [⟨0, 0, 0, 700, 0, 700, 0⟩] ∧
    gap_scan 100 400 200 [⟨0, 0, 0, 100, 0, 100, 100⟩, ⟨0, 0, 600, 700, 600, 700, 100⟩] = [] :=
  ⟨by decide,
    (gap_scan_two_alignments ⟨0, 0, 0, 100, 0, 100, 100⟩ ⟨0, 0, 600, 700, 600, 700, 100⟩ 1000 1000
      (by decide) (by decide)).1,
    (gap_scan_two_alignments ⟨0, 0, 0, 100, 0, 100, 100⟩ ⟨0, 0, 600, 700, 600, 700, 100⟩ 1000 1000
      (by decide) (by decide)).2.2⟩

/-- C12 as stated fails.  The group `Q[0,100)~T[0,100)`, `Q[600,700)~T[600,700)`
on sequences of length 1000 has target-axis gap 500; with the sentinels the
generator produces four boxes for `max_gap = 1000` and one box for
`max_gap = 400`.  The group `Q[0,40)~T[0,100)`, `Q[50,90)~T[600,700)` on
sequences of lengths 90 and 700 has target-axis gap 500 too and the generator
produces no box for `max_gap = 1000`. -/
theorem gap_candidates_two_alignments_counts :
    gap_dist ⟨0, 0, 0, 100, 0, 100, 100⟩ ⟨0, 0, 600, 700, 600, 700, 100⟩ = 500 ∧
    gap_candidates 100 1000 200
        [⟨0, 0, 0, 100, 0, 100, 100⟩, ⟨0, 0, 600, 700, 600, 700, 100⟩] 1000 1000 =
      [⟨0, 0, 0, 700, 0, 700, 0⟩, ⟨0, 0, 0, 700, 0, 700, 0⟩, ⟨0, 0, 0, 1000, 0, 1000, 0⟩,
        ⟨0, 0, 600, 1000, 600, 1000, 0⟩] ∧
    gap_candidates 100 400 200
        [⟨0, 0, 0, 100, 0, 100, 100⟩, ⟨0, 0, 600, 700, 600, 700, 100⟩] 1000 1000 =
      [⟨0, 0, 600, 1000, 600, 1000, 0⟩] ∧
    gap_dist ⟨0, 0, 0, 40, 0, 100, 100⟩ ⟨0, 0, 50, 90, 600, 700, 100⟩ = 500 ∧
    gap_candidates 100 1000 200
        [⟨0, 0, 0, 40, 0, 100, 100⟩, ⟨0, 0, 50, 90, 600, 700, 100⟩] 90 700 = [] := by
  decide

theorem sorted_perm_scenario_boxes (s3 : List aln_t)
    (h : qsort_result AORDER
      [⟨0, 0, 0, 700, 0, 700, 0⟩, ⟨0, 0, 0, 700, 0, 700, 0⟩, ⟨0, 0, 0, 1000, 0, 1000, 0⟩,
        ⟨0, 0, 600, 1000, 600, 1000, 0⟩] s3) :
    s3 = [⟨0, 0, 600, 1000, 600, 1000, 0⟩, ⟨0, 0, 0, 700, 0, 700, 0⟩, ⟨0, 0, 0, 700, 0, 700, 0⟩,
      ⟨0, 0, 0, 1000, 0, 1000, 0⟩] := by
  have hlen := h.1.length_eq
  match s3, hlen with
  | [w, x, y, z], _ =>
    have hw := h.1.subset (List.mem_cons_self w _)
    have hx := h.1.subset (List.mem_cons_of_mem w (List.mem_cons_self x _))
    have hy := h.1.subset
      (List.mem_cons_of_mem w (List.mem_cons_of_mem x (List.mem_cons_self y _)))
    have hz := h.1.subset
      (List.mem_cons_of_mem w (List.mem_cons_of_mem x
        (List.mem_cons_of_mem y (List.mem_cons_self z _))))
    simp only [List.mem_cons, List.mem_singleton, List.not_mem_nil, or_false, or_self_left]
      at hw hx hy hz
    rcases hw with rfl | rfl | rfl <;> rcases hx with rfl | rfl | rfl <;>
      rcases hy with rfl | rfl | rfl <;> rcases hz with rfl | rfl | rfl <;>
      first
        | rfl
        | (exfalso; revert h; decide)

/-- C11 (amended). End-to-end scenario: sequences `Q` and `T` of length 1000
(ids 0 and 0), the alignments `Q[0,100)~T[0,100)` and `Q[600,700)~T[600,700)`
of score 100, `min_gap = 100`, `max_gap = 1000`, `max_overlap_flank = 100`
and the default fraction 0.5.  Whatever the three sorts do with ties, both
records are selected, they form the single group `(0, 2)`, and the program
prints exactly two lines, `Q 600 1000 T 600 1000` and `Q 0 700 T 0 700`. -/
theorem scenario_output (s1 s2 s3 : List aln_t)
    (h1 : qsort_result MORDER
      [⟨0, 0, 0, 100, 0, 100, 100⟩, ⟨0, 0, 600, 700, 600, 700, 100⟩] s1)
    (h2 : qsort_result RORDER (reciprocal_best_aligns s1 half) s2)
    (h3 : qsort_result AORDER
      (gap_core_buffer 100 1000 100 (fun _ => 1000) (fun _ => 1000) s2 (pack_range 0 2)) s3) :
    (align_gaps_ranges s2).1 = [pack_range 0 2] ∧
    gap_core_lines s2 (pack_range 0 2) s3 =
      [(0, 600, 1000, 0, 600, 1000), (0, 0, 700, 0, 0, 700)] := by
  have hr : reciprocal_best_aligns s1 half =
        [⟨0, 0, 0, 100, 0, 100, 100⟩, ⟨0, 0, 600, 700, 600, 700, 100⟩] ∨
      reciprocal_best_aligns s1 half =
        [⟨0, 0, 600, 700, 600, 700, 100⟩, ⟨0, 0, 0, 100, 0, 100, 100⟩] := by
    rcases perm_pair_cases _ _ s1 h1.1 with rfl | rfl
    · left; decide
    · right; decide
  have hs2 : s2 = [⟨0, 0, 0, 100, 0, 100, 100⟩, ⟨0, 0, 600, 700, 600, 700, 100⟩] := by
    have hp : s2.Perm [⟨0, 0, 0, 100, 0, 100, 100⟩, ⟨0, 0, 600, 700, 600, 700, 100⟩] := by
      rcases hr with hr | hr
      · rw [hr] at h2; exact h2.1
      · rw [hr] at h2; exact h2.1.trans (List.Perm.swap _ _ _)
    rcases perm_pair_cases _ _ s2 hp with h | h
    · exact h
    · exfalso
      have hsorted := h2.2
      rw [h] at hsorted
      revert hsorted
      decide
  subst hs2
  have hbuf : gap_core_buffer 100 1000 100 (fun _ => 1000) (fun _ => 1000)
      [⟨0, 0, 0, 100, 0, 100, 100⟩, ⟨0, 0, 600, 700, 600, 700, 100⟩] (pack_range 0 2) =
      [⟨0, 0, 0, 700, 0, 700, 0⟩, ⟨0, 0, 0, 700, 0, 700, 0⟩, ⟨0, 0, 0, 1000, 0, 1000, 0⟩,
        ⟨0, 0, 600, 1000, 600, 1000, 0⟩] := by decide
  rw [hbuf] at h3
  have hs3 := sorted_perm_scenario_boxes s3 h3
  subst hs3
  exact ⟨by decide, by decide⟩

/-- Witness for C11 (amended): the three arrays as a sort that keeps equal
elements in place leaves them. -/
theorem scenario_output_witness :
    qsort_result MORDER [⟨0, 0, 0, 100, 0, 100, 100⟩, ⟨0, 0, 600, 700, 600, 700, 100⟩]
      [⟨0, 0, 0, 100, 0, 100, 100⟩, ⟨0, 0, 600, 700, 600, 700, 100⟩] ∧
    gap_core_lines [⟨0, 0, 0, 100, 0, 100, 100⟩, ⟨0, 0, 600, 700, 600, 700, 100⟩]
        (pack_range 0 2)
        [⟨0, 0, 600, 1000, 600, 1000, 0⟩, ⟨0, 0, 0, 700, 0, 700, 0⟩, ⟨0, 0, 0, 700, 0, 700, 0⟩,
          ⟨0, 0, 0, 1000, 0, 1000, 0⟩] =
      [(0, 600, 1000, 0, 600, 1000), (0, 0, 700, 0, 0, 700)] :=
  ⟨⟨by decide, by decide⟩,
    (scenario_output
      [⟨0, 0, 0, 100, 0, 100, 100⟩, ⟨0, 0, 600, 700, 600, 700, 100⟩]
      [⟨0, 0, 0, 100, 0, 100, 100⟩, ⟨0, 0, 600, 700, 600, 700, 100⟩]
      [⟨0, 0, 600, 1000, 600, 1000, 0⟩, ⟨0, 0, 0, 700, 0, 700, 0⟩, ⟨0, 0, 0, 700, 0, 700, 0⟩,
        ⟨0, 0, 0, 1000, 0, 1000, 0⟩]
      ⟨by decide, by decide⟩ ⟨by decide, by decide⟩ ⟨by decide, by decide⟩).2⟩

/-- C11 as stated fails: in the scenario the selection keeps both records,
the grouping gives the single span `(0, 2)`, the candidate buffer holds four
boxes, and the lines printed are `Q 600 1000 T 600 1000` and `Q 0 700 T 0 700`,
not the single line `Q 0 200 T 200 700`. -/
theorem scenario_not_single_line :
    qsort_result MORDER [⟨0, 0, 0, 100, 0, 100, 100⟩, ⟨0, 0, 600, 700, 600, 700, 100⟩]
      [⟨0, 0, 0, 100, 0, 100, 100⟩, ⟨0, 0, 600, 700, 600, 700, 100⟩] ∧
    reciprocal_best_aligns
        [⟨0, 0, 0, 100, 0, 100, 100⟩, ⟨0, 0, 600, 700, 600, 700, 100⟩] half =
      [⟨0, 0, 0, 100, 0, 100, 100⟩, ⟨0, 0, 600, 700, 600, 700, 100⟩] ∧
    qsort_result RORDER [⟨0, 0, 0, 100, 0, 100, 100⟩, ⟨0, 0, 600, 700, 600, 700, 100⟩]
      [⟨0, 0, 0, 100, 0, 100, 100⟩, ⟨0, 0, 600, 700, 600, 700, 100⟩] ∧
    align_gaps_spans [⟨0, 0, 0, 100, 0, 100, 100⟩, ⟨0, 0, 600, 700, 600, 700, 100⟩] =
      [(0, 2)] ∧
    gap_core_buffer 100 1000 100 (fun _ => 1000) (fun _ => 1000)
        [⟨0, 0, 0, 100, 0, 100, 100⟩, ⟨0, 0, 600, 700, 600, 700, 100⟩] (pack_range 0 2) =
      [⟨0, 0, 0, 700, 0, 700, 0⟩, ⟨0, 0, 0, 700, 0, 700, 0⟩, ⟨0, 0, 0, 1000, 0, 1000, 0⟩,
        ⟨0, 0, 600, 1000, 600, 1000, 0⟩] ∧
    qsort_result AORDER
      [⟨0, 0, 0, 700, 0, 700, 0⟩, ⟨0, 0, 0, 700, 0, 700, 0⟩, ⟨0, 0, 0, 1000, 0, 1000, 0⟩,
        ⟨0, 0, 600, 1000, 600, 1000, 0⟩]
      [⟨0, 0, 600, 1000, 600, 1000, 0⟩, ⟨0, 0, 0, 700, 0, 700, 0⟩, ⟨0, 0, 0, 700, 0, 700, 0⟩,
        ⟨0, 0, 0, 1000, 0, 1000, 0⟩] ∧
    gap_core_lines [⟨0, 0, 0, 100, 0, 100, 100⟩, ⟨0, 0, 600, 700, 600, 700, 100⟩]
        (pack_range 0 2)
        [⟨0, 0, 600, 1000, 600, 1000, 0⟩, ⟨0, 0, 0, 700, 0, 700, 0⟩, ⟨0, 0, 0, 700, 0, 700, 0⟩,
          ⟨0, 0, 0, 1000, 0, 1000, 0⟩] ≠ [(0, 0, 200, 0, 200, 700)] := by
  refine ⟨⟨by decide, by decide⟩, by decide, ⟨by decide, by decide⟩, by decide, by decide,
    ⟨by decide, by decide⟩, by decide⟩

/-! ## `RORDER` as a lexicographic comparison -/

theorem rorder_key_lt (x y : aln_t) :
    rorder_key x < rorder_key y ↔
      x.aread < y.aread ∨ (x.aread = y.aread ∧ (x.bread < y.bread ∨ (x.bread = y.bread ∧
        (x.abpos < y.abpos ∨ (x.abpos = y.abpos ∧ (x.bbpos < y.bbpos ∨ (x.bbpos = y.bbpos ∧
          (x.aepos < y.aepos ∨ (x.aepos = y.aepos ∧ x.bepos < y.bepos))))))))) := by
  unfold rorder_key
  simp only [Prod.Lex.lt_iff]

theorem rorder_key_eq (x y : aln_t) :
    rorder_key x = rorder_key y ↔
      x.aread = y.aread ∧ x.bread = y.bread ∧ x.abpos = y.abpos ∧ x.bbpos = y.bbpos ∧
        x.aepos = y.aepos ∧ x.bepos = y.bepos := by
  unfold rorder_key
  simp only [EmbeddingLike.apply_eq_iff_eq, Prod.mk.injEq]

theorem RORDER_cases (x y : aln_t) :
    (RORDER x y = -1 ∧ rorder_key x < rorder_key y) ∨
    (RORDER x y = 0 ∧ rorder_key x = rorder_key y) ∨
    (RORDER x y = 1 ∧ rorder_key y < rorder_key x) := by
  rw [rorder_key_lt, rorder_key_lt, rorder_key_eq]
  unfold RORDER cmp3
  split_ifs <;> omega

/-- C23. `RORDER` is the lexicographic comparison of the tuples
`(query_id, target_id, q_begin, t_begin, q_end, t_end)`: its value is negative,
zero or positive exactly when the tuple of the first argument is smaller than,
equal to or greater than the tuple of the second; swapping the arguments
negates the value; the relation `RORDER x y <= 0` is transitive and total; and
the score plays no part. -/
theorem RORDER_lexicographic (x y z : aln_t) :
    (RORDER x y < 0 ↔ rorder_key x < rorder_key y) ∧
    (RORDER x y = 0 ↔ rorder_key x = rorder_key y) ∧
    (RORDER x y > 0 ↔ rorder_key y < rorder_key x) ∧
    RORDER x y = - RORDER y x ∧
    (RORDER x y ≤ 0 → RORDER y z ≤ 0 → RORDER x z ≤ 0) ∧
    (RORDER x y ≤ 0 ∨ RORDER y x ≤ 0) ∧
    (∀ m1 m2 : Int,
      RORDER ⟨x.aread, x.bread, x.abpos, x.aepos, x.bbpos, x.bepos, m1⟩
        ⟨y.aread, y.bread, y.abpos, y.aepos, y.bbpos, y.bepos, m2⟩ = RORDER x y) := by
  have hle : ∀ u v : aln_t, RORDER u v ≤ 0 ↔ rorder_key u ≤ rorder_key v := by
    intro u v
    rcases RORDER_cases u v with ⟨h1, h2⟩ | ⟨h1, h2⟩ | ⟨h1, h2⟩
    · rw [h1]; exact ⟨fun _ => le_of_lt h2, fun _ => by decide⟩
    · rw [h1]; exact ⟨fun _ => le_of_eq h2, fun _ => le_refl _⟩
    · rw [h1]; exact ⟨fun h => absurd h (by decide), fun h => absurd h (not_le_of_lt h2)⟩
  refine ⟨?_, ?_, ?_, ?_, ?_, ?_, ?_⟩
  · rcases RORDER_cases x y with ⟨h1, h2⟩ | ⟨h1, h2⟩ | ⟨h1, h2⟩
    · rw [h1]; exact ⟨fun _ => h2, fun _ => by decide⟩
    · rw [h1]; exact ⟨fun h => absurd h (by decide), fun h => absurd h (by rw [h2]; exact lt_irrefl _)⟩
    · rw [h1]; exact ⟨fun h => absurd h (by decide), fun h => absurd h (lt_asymm h2)⟩
  · rcases RORDER_cases x y with ⟨h1, h2⟩ | ⟨h1, h2⟩ | ⟨h1, h2⟩
    · rw [h1]; exact ⟨fun h => absurd h (by decide), fun h => absurd h (ne_of_lt h2)⟩
    · rw [h1]; exact ⟨fun _ => h2, fun _ => rfl⟩
    · rw [h1]; exact ⟨fun h => absurd h (by decide), fun h => absurd h.symm (ne_of_lt h2)⟩
  · rcases RORDER_cases x y with ⟨h1, h2⟩ | ⟨h1, h2⟩ | ⟨h1, h2⟩
    · rw [h1]; exact ⟨fun h => absurd h (by decide), fun h => absurd h (lt_asymm h2)⟩
    · rw [h1]; exact ⟨fun h => absurd h (by decide), fun h => absurd h (by rw [h2]; exact lt_irrefl _)⟩
    · rw [h1]; exact ⟨fun _ => h2, fun _ => by decide⟩
  · rcases RORDER_cases x y with ⟨h1, h2⟩ | ⟨h1, h2⟩ | ⟨h1, h2⟩ <;>
      rcases RORDER_cases y x with ⟨k1, k2⟩ | ⟨k1, k2⟩ | ⟨k1, k2⟩ <;>
      rw [h1, k1] <;>
      first
        | rfl
        | (exfalso; exact lt_asymm h2 k2)
        | (exfalso; rw [k2] at h2; exact lt_irrefl _ h2)
        | (exfalso; rw [h2] at k2; exact lt_irrefl _ k2)
  · intro h1 h2
    exact (hle x z).2 (le_trans ((hle x y).1 h1) ((hle y z).1 h2))
  · rcases le_total (rorder_key x) (rorder_key y) with h | h
    · exact Or.inl ((hle x y).2 h)
    · exact Or.inr ((hle y x).2 h)
  · intro m1 m2
    rfl

/-! ## A group of one alignment -/

theorem gap_scan_from_one (min_gap max_gap max_ovl : Int) (a1 a2 : aln_t) :
    gap_scan_from min_gap max_gap max_ovl a1 [a2] =
      if a1.aepos + min_gap ≤ a2.abpos ∧ a2.abpos < a1.aepos + max_gap ∧
          min_gap ≤ gap_dist a1 a2 ∧ gap_dist a1 a2 ≤ max_gap
      then [gap_box max_ovl a1 a2] else [] := by
  unfold gap_scan_from gap_dist_ok
  by_cases h1 : a2.abpos < a1.aepos + min_gap
  · have : ¬ (a1.aepos + min_gap ≤ a2.abpos) := by omega
    simp [List.dropWhile, h1, this]
  · by_cases h2 : a2.abpos < a1.aepos + max_gap
    · by_cases h3 : min_gap ≤ gap_dist a1 a2 ∧ gap_dist a1 a2 ≤ max_gap
      · have h1' : a1.aepos + min_gap ≤ a2.abpos := by omega
        simp [List.dropWhile, List.takeWhile, List.filter, h1, h2, h3, h1']
      · have h1' : a1.aepos + min_gap ≤ a2.abpos := by omega
        have h3' : ¬ (min_gap ≤ gap_dist a1 a2 ∧ gap_dist a1 a2 ≤ max_gap) := h3
        simp only [List.dropWhile, List.takeWhile, List.filter, h1, h2, decide_False, decide_True,
          ge_iff_le, h3', List.map_nil]
        rw [if_neg]
        tauto
    · simp [List.dropWhile, List.takeWhile, h1, h2]

theorem gap_scan_from_two (min_gap max_gap max_ovl : Int) (a1 a2 a3 : aln_t)
    (h : a2.abpos ≤ a3.abpos) :
    gap_scan_from min_gap max_gap max_ovl a1 [a2, a3] =
      gap_scan_from min_gap max_gap max_ovl a1 [a2] ++
        gap_scan_from min_gap max_gap max_ovl a1 [a3] := by
  have hs2 : [a2, a3].Pairwise (fun x y => x.abpos ≤ y.abpos) := by simp [h]
  rw [gap_scan_from_sorted _ _ _ _ _ hs2, gap_scan_from_sorted _ _ _ _ [a2] (by simp),
    gap_scan_from_sorted _ _ _ _ [a3] (by simp), ← List.map_append, ← List.filter_append]
  rfl

/-- C21. For a group with exactly one alignment `a` whose coordinates lie in
`[0, q_len]` and `[0, t_len]`, the candidate buffer of `gap_core` is made of at
most three boxes, in this order: the box of the pair (start sentinel, `a`),
present iff `min_gap <= a.q_begin < max_gap` and
`min_gap <= a.t_begin <= max_gap`; the box of the two sentinels; and the box of
the pair (`a`, end sentinel), present iff
`min_gap <= q_len - a.q_end < max_gap` and
`min_gap <= t_len - a.t_end <= max_gap`.  The start sentinel is the zero-length
alignment at `(0, 0)`, the end sentinel the one at `(q_len, t_len)`. -/
theorem gap_core_single_alignment (min_gap max_gap max_ovl : Int) (a : aln_t)
    (alen blen : Int)
    (hq : 0 ≤ a.abpos ∧ a.abpos ≤ alen ∧ 0 ≤ a.aepos ∧ a.aepos ≤ alen)
    (ht : 0 ≤ a.bbpos ∧ a.bbpos ≤ blen ∧ 0 ≤ a.bepos ∧ a.bepos ≤ blen) :
    gap_candidates min_gap max_gap max_ovl [a] alen blen =
      (if min_gap ≤ a.abpos ∧ a.abpos < max_gap ∧ min_gap ≤ a.bbpos ∧ a.bbpos ≤ max_gap
        then [gap_box max_ovl ⟨0, 0, 0, 0, 0, 0, 0⟩ a] else []) ++
      (if min_gap ≤ alen ∧ alen < max_gap ∧ min_gap ≤ blen ∧ blen ≤ max_gap
        then [gap_box max_ovl ⟨0, 0, 0, 0, 0, 0, 0⟩ ⟨0, 0, alen, alen, blen, blen, 0⟩]
        else []) ++
      (if min_gap ≤ alen - a.aepos ∧ alen - a.aepos < max_gap ∧
          min_gap ≤ blen - a.bepos ∧ blen - a.bepos ≤ max_gap
        then [gap_box max_ovl a ⟨0, 0, alen, alen, blen, blen, 0⟩] else []) := by
  obtain ⟨q1, q2, q3, q4⟩ := hq
  obtain ⟨t1, t2, t3, t4⟩ := ht
  have d1 : gap_dist ⟨0, 0, 0, 0, 0, 0, 0⟩ a = a.bbpos := by
    unfold gap_dist
    simp only
    split_ifs <;> omega
  have d2 : gap_dist ⟨0, 0, 0, 0, 0, 0, 0⟩ ⟨0, 0, alen, alen, blen, blen, 0⟩ = blen := by
    unfold gap_dist
    simp only
    split_ifs <;> omega
  have d3 : gap_dist a ⟨0, 0, alen, alen, blen, blen, 0⟩ = blen - a.bepos := by
    unfold gap_dist
    simp only
    split_ifs <;> omega
  unfold gap_candidates gap_array
  show gap_scan min_gap max_gap max_ovl
    [⟨0, 0, 0, 0, 0, 0, 0⟩, a, ⟨0, 0, alen, alen, blen, blen, 0⟩] = _
  simp only [gap_scan]
  rw [gap_scan_from_two _ _ _ _ _ _ (show a.abpos ≤ (⟨0, 0, alen, alen, blen, blen, 0⟩ : aln_t).abpos from q2),
    gap_scan_from_one, gap_scan_from_one, gap_scan_from_one, d1, d2, d3]
  have e0 : gap_scan_from min_gap max_gap max_ovl ⟨0, 0, alen, alen, blen, blen, 0⟩ [] = [] := rfl
  rw [e0, List.append_nil]
  simp only [zero_add]
  have c3 : (a.aepos + min_gap ≤ alen ∧ alen < a.aepos + max_gap ∧
      min_gap ≤ blen - a.bepos ∧ blen - a.bepos ≤ max_gap) ↔
      (min_gap ≤ alen - a.aepos ∧ alen - a.aepos < max_gap ∧
        min_gap ≤ blen - a.bepos ∧ blen - a.bepos ≤ max_gap) := by
    constructor <;> intro h <;> refine ⟨?_, ?_, h.2.2.1, h.2.2.2⟩ <;> omega
  simp only [c3, List.append_nil]

theorem gap_core_single_alignment_witness :
    gap_candidates 100 1000 100 [⟨0, 0, 300, 400, 200, 350, 50⟩] 1000 1000 =
      [⟨0, 0, 0, 400, 0, 300, 0⟩, ⟨0, 0, 300, 1000, 250, 1000, 0⟩] :=
  (gap_core_single_alignment 100 1000 100 ⟨0, 0, 300, 400, 200, 350, 50⟩ 1000 1000
    (by decide) (by decide)).trans (by decide)

/-! ## Higher scores first -/

/-- The first record visited meets empty coverage sets and is accepted when its
score and `max_cov` are non-negative. -/
theorem rba_first_accepted (max_cov : ℚ) (r : aln_t) (hc : 0 ≤ max_cov) (hm : 0 ≤ r.mlen) :
    rba_accepts max_cov rba_init r = true := by
  have hn : (0 : Int) ≤ max_cov.num := Rat.num_nonneg.2 hc
  have h0 : ∀ b e : Int, (rangeset_overlap [] b e).1 = 0 := by
    intro b e
    unfold rangeset_overlap
    simp
  unfold rba_accepts rba_init
  simp only [h0, le_cov, zero_mul, Bool.and_eq_true, decide_eq_true_eq, and_self]
  exact mul_nonneg hm hn

theorem rba_foldl_alns (max_cov : ℚ) (l : List aln_t) :
    ∀ st : rba_state, ∃ x : List aln_t, x.length = l.length ∧
      (l.foldl (rba_step max_cov) st).alns = st.alns ++ x := by
  induction l with
  | nil => intro st; exact ⟨[], rfl, by simp⟩
  | cons r rest ih =>
    intro st
    obtain ⟨x, hx, he⟩ := ih (rba_step max_cov st r)
    obtain ⟨y, hy⟩ : ∃ y, (rba_step max_cov st r).alns = st.alns ++ [y] := by
      unfold rba_step
      simp only
      split_ifs
      · exact ⟨_, rfl⟩
      · exact ⟨_, rfl⟩
    refine ⟨y :: x, by simp [hx], ?_⟩
    rw [List.foldl_cons, he, hy, List.append_assoc]
    rfl

theorem rba_loop_alns_length (max_cov : ℚ) (l : List aln_t) :
    (rba_loop max_cov l).alns.length = l.length := by
  obtain ⟨x, hx, he⟩ := rba_foldl_alns max_cov l rba_init
  unfold rba_loop
  rw [he]
  simp [rba_init, hx]

/-- The marks the loop leaves on a prefix of the array do not depend on the
records after it. -/
theorem rba_decision_prefix (max_cov : ℚ) (pre post : List aln_t) :
    (rba_loop max_cov (pre ++ post)).alns.take pre.length = (rba_loop max_cov pre).alns := by
  obtain ⟨x, _, he⟩ := rba_foldl_alns max_cov post (rba_loop max_cov pre)
  have : rba_loop max_cov (pre ++ post) = post.foldl (rba_step max_cov) (rba_loop max_cov pre) := by
    unfold rba_loop
    rw [List.foldl_append]
  rw [this, he, ← rba_loop_alns_length max_cov pre, List.take_left]

theorem prior_query_cover_narrowed (acc : List aln_t) (r : aln_t)
    (hacc : ∀ p ∈ acc, in_parser_range p) (hr : in_parser_range r)
    (h : prior_query_cover acc r = 0) :
    prior_query_cover (acc.map narrowed) (narrowed r) = 0 := by
  unfold prior_query_cover at h ⊢
  rw [Finset.card_eq_zero, Finset.filter_eq_empty_iff] at h ⊢
  intro x hx hex
  obtain ⟨p', hp', hid, h1, h2⟩ := hex
  obtain ⟨p, hp, rfl⟩ := List.mem_map.1 hp'
  rw [Finset.mem_Ico] at hx
  have hpr := hacc p hp
  unfold in_parser_range at hpr hr
  simp only [narrowed, toInt32] at hx h1 h2 hid
  by_cases hc : r.abpos < 2147483648
  · refine h (x := x) ?_ ⟨p, hp, hid, ?_, ?_⟩
    · rw [Finset.mem_Ico]; omega
    · omega
    · omega
  · refine h (x := x + 4294967296) ?_ ⟨p, hp, hid, ?_, ?_⟩
    · rw [Finset.mem_Ico]; omega
    · omega
    · omega

theorem prior_target_cover_narrowed (acc : List aln_t) (r : aln_t)
    (hacc : ∀ p ∈ acc, in_parser_range p) (hr : in_parser_range r)
    (h : prior_target_cover acc r = 0) :
    prior_target_cover (acc.map narrowed) (narrowed r) = 0 := by
  unfold prior_target_cover at h ⊢
  rw [Finset.card_eq_zero, Finset.filter_eq_empty_iff] at h ⊢
  intro x hx hex
  obtain ⟨p', hp', hid, h1, h2⟩ := hex
  obtain ⟨p, hp, rfl⟩ := List.mem_map.1 hp'
  rw [Finset.mem_Ico] at hx
  have hpr := hacc p hp
  unfold in_parser_range at hpr hr
  simp only [narrowed, toInt32] at hx h1 h2 hid
  by_cases hc : r.bbpos < 2147483648
  · refine h (x := x) ?_ ⟨p, hp, hid, ?_, ?_⟩
    · rw [Finset.mem_Ico]; omega
    · omega
    · omega
  · refine h (x := x + 4294967296) ?_ ⟨p, hp, hid, ?_, ?_⟩
    · rw [Finset.mem_Ico]; omega
    · omega
    · omega

/-- For records in the parser's range with `begin <= end`, a record none of
whose positions lies in an interval accepted before it is accepted, the
narrowing notwithstanding. -/
theorem rba_accepts_of_disjoint (max_cov : ℚ) (pre : List aln_t) (r : aln_t)
    (hc : 0 ≤ max_cov) (hm : 0 ≤ r.mlen)
    (hpre : ∀ p ∈ pre, in_parser_range p) (hr : in_parser_range r)
    (hq : prior_query_cover (rba_accepted max_cov pre) r = 0)
    (ht : prior_target_cover (rba_accepted max_cov pre) r = 0) :
    rba_accepts max_cov (rba_loop max_cov pre) r = true := by
  have hsub : ∀ p ∈ rba_accepted max_cov pre, in_parser_range p := fun p hp =>
    hpre p ((rba_accepted_from_sublist max_cov pre rba_init).subset hp)
  obtain ⟨e1, e2⟩ := rba_overlap_eq_prior max_cov pre r
  rw [rba_accepts_iff, e1, e2, prior_query_cover_narrowed _ _ hsub hr hq,
    prior_target_cover_narrowed _ _ hsub hr ht]
  have : (0 : ℚ) ≤ (r.mlen : ℚ) * max_cov := mul_nonneg (by exact_mod_cast hm) hc
  simpa using this

theorem rba_accepts_of_disjoint_witness :
    rba_accepts half (rba_loop half [⟨0, 0, 0, 100, 0, 100, 200⟩])
      ⟨0, 0, 3000000000, 3000000100, 500, 600, 100⟩ = true :=
  rba_accepts_of_disjoint half [⟨0, 0, 0, 100, 0, 100, 200⟩]
    ⟨0, 0, 3000000000, 3000000100, 500, 600, 100⟩ (by decide) (by decide) (by decide)
    (by decide) (by decide) (by decide)

/-- C22. For wide coordinates the selection rejects a record that overlaps
nothing accepted before it.  The records `r1 = Q0[0,10) T0[0,10)` of score 20
and `r2 = Q0[2^32, 2^32+10) T1[0,10)` of score 10 are in score-descending
order; `r1` is accepted; no position of `r2` lies in an interval of `r1`; but
the `int` parameters receive `[0,10)` for the query interval of `r2`, the
overlap measured is 10 > 10 * 0.5, and `r2` is rejected.  The same happens
below `2^32` after a record with `begin > end`: the query interval
`[2^31, 10)` of `p` holds no position, yet it is stored as `[-2^31, 10)`, and
`r = Q0[0,8)` of score 10 is rejected. -/
theorem rba_disjoint_record_rejected :
    (qsort_result MORDER
        [⟨0, 0, 0, 10, 0, 10, 20⟩, ⟨0, 1, 4294967296, 4294967306, 0, 10, 10⟩]
        [⟨0, 0, 0, 10, 0, 10, 20⟩, ⟨0, 1, 4294967296, 4294967306, 0, 10, 10⟩] ∧
      rba_accepted half [⟨0, 0, 0, 10, 0, 10, 20⟩] = [⟨0, 0, 0, 10, 0, 10, 20⟩] ∧
      prior_query_cover [⟨0, 0, 0, 10, 0, 10, 20⟩]
        ⟨0, 1, 4294967296, 4294967306, 0, 10, 10⟩ = 0 ∧
      prior_target_cover [⟨0, 0, 0, 10, 0, 10, 20⟩]
        ⟨0, 1, 4294967296, 4294967306, 0, 10, 10⟩ = 0 ∧
      toInt32 4294967296 = 0 ∧ toInt32 4294967306 = 10 ∧
      (rangeset_overlap ((rba_loop half [⟨0, 0, 0, 10, 0, 10, 20⟩]).q_span 0)
        (toInt32 4294967296) (toInt32 4294967306)).1 = 10 ∧
      rba_accepts half (rba_loop half [⟨0, 0, 0, 10, 0, 10, 20⟩])
        ⟨0, 1, 4294967296, 4294967306, 0, 10, 10⟩ = false ∧
      reciprocal_best_aligns
        [⟨0, 0, 0, 10, 0, 10, 20⟩, ⟨0, 1, 4294967296, 4294967306, 0, 10, 10⟩] half =
        [⟨0, 0, 0, 10, 0, 10, 20⟩]) ∧
    (qsort_result MORDER
        [⟨0, 0, 2147483648, 10, 0, 10, 20⟩, ⟨0, 1, 0, 8, 0, 8, 10⟩]
        [⟨0, 0, 2147483648, 10, 0, 10, 20⟩, ⟨0, 1, 0, 8, 0, 8, 10⟩] ∧
      rba_accepted half [⟨0, 0, 2147483648, 10, 0, 10, 20⟩] =
        [⟨0, 0, 2147483648, 10, 0, 10, 20⟩] ∧
      prior_query_cover [⟨0, 0, 2147483648, 10, 0, 10, 20⟩] ⟨0, 1, 0, 8, 0, 8, 10⟩ = 0 ∧
      prior_target_cover [⟨0, 0, 2147483648, 10, 0, 10, 20⟩] ⟨0, 1, 0, 8, 0, 8, 10⟩ = 0 ∧
      (rba_loop half [⟨0, 0, 2147483648, 10, 0, 10, 20⟩]).q_span 0 = [⟨-2147483648, 10⟩] ∧
      rba_accepts half (rba_loop half [⟨0, 0, 2147483648, 10, 0, 10, 20⟩])
        ⟨0, 1, 0, 8, 0, 8, 10⟩ = false ∧
      reciprocal_best_aligns
        [⟨0, 0, 2147483648, 10, 0, 10, 20⟩, ⟨0, 1, 0, 8, 0, 8, 10⟩] half =
        [⟨0, 0, 2147483648, 10, 0, 10, 20⟩]) := by
  refine ⟨⟨by decide, by decide, by decide, by decide, by decide, by decide, by decide,
    by decide, by decide⟩, ⟨by decide, by decide, by decide, by decide, by decide, by decide,
    by decide⟩⟩

/-! ## Width of the coordinates -/

/-- C27. Records with `0 <= begin < end < 2^32` that reach `2^31` are not
handled as their un-narrowed coordinates would be.  The query interval
`[2147483600, 2147483700)` of the accepted record `r1` arrives as
`beg = 2147483600`, `end = -2147483596`, so nothing is stored, where the
un-narrowed coordinates store `[2147483600, 2147483700)`; the overlap then
measured for the query interval `[2147483600, 2147483650)` of `r2` is 0, where
the un-narrowed coordinates give 50; and the query interval
`[3000000000, 3000000100)` of `r3` is stored as
`[-1294967296, -1294967196)`. -/
theorem rba_narrowing_parser_range :
    in_parser_range ⟨0, 0, 2147483600, 2147483700, 0, 100, 100⟩ ∧
    in_parser_range ⟨0, 1, 2147483600, 2147483650, 0, 50, 50⟩ ∧
    in_parser_range ⟨0, 0, 3000000000, 3000000100, 0, 100, 100⟩ ∧
    toInt32 2147483700 = -2147483596 ∧
    rba_accepts half rba_init ⟨0, 0, 2147483600, 2147483700, 0, 100, 100⟩ = true ∧
    (rba_step half rba_init ⟨0, 0, 2147483600, 2147483700, 0, 100, 100⟩).q_span 0 = [] ∧
    rangeset_insert [] 2147483600 2147483700 = [⟨2147483600, 2147483700⟩] ∧
    (rangeset_overlap
      ((rba_step half rba_init ⟨0, 0, 2147483600, 2147483700, 0, 100, 100⟩).q_span 0)
      (toInt32 2147483600) (toInt32 2147483650)).1 = 0 ∧
    (rangeset_overlap (rangeset_insert [] 2147483600 2147483700) 2147483600 2147483650).1
      = 50 ∧
    rba_accepts half (rba_step half rba_init ⟨0, 0, 2147483600, 2147483700, 0, 100, 100⟩)
      ⟨0, 1, 2147483600, 2147483650, 0, 50, 50⟩ = true ∧
    rba_accepts half rba_init ⟨0, 0, 3000000000, 3000000100, 0, 100, 100⟩ = true ∧
    (rba_step half rba_init ⟨0, 0, 3000000000, 3000000100, 0, 100, 100⟩).q_span 0 =
      [⟨-1294967296, -1294967196⟩] ∧
    rangeset_insert [] 3000000000 3000000100 = [⟨3000000000, 3000000100⟩] := by
  refine ⟨by decide, by decide, by decide, by decide, by decide, by decide, by decide,
    by decide, by decide, by decide, by decide, by decide, by decide⟩

/-- Below `2^31` the narrowing changes nothing: the overlap measured and the
sets after the step are those of the record's own coordinates. -/
theorem rba_step_of_fits (max_cov : ℚ) (st : rba_state) (r : aln_t) (h : fits_int r) :
    rba_accepts max_cov st r =
      (le_cov (rangeset_overlap (st.q_span r.aread) r.abpos r.aepos).1 r.mlen max_cov &&
        le_cov (rangeset_overlap (st.t_span r.bread) r.bbpos r.bepos).1 r.mlen max_cov) ∧
    (rba_accepts max_cov st r = true →
      (rba_step max_cov st r).q_span r.aread =
          rangeset_insert (st.q_span r.aread) r.abpos r.aepos ∧
        (rba_step max_cov st r).t_span r.bread =
          rangeset_insert (st.t_span r.bread) r.bbpos r.bepos) := by
  obtain ⟨h1, h2, h3, h4⟩ := h
  constructor
  · unfold rba_accepts
    rw [h1, h2, h3, h4]
  · intro ha
    unfold rba_accepts at ha
    unfold rba_step
    simp only
    rw [if_pos ha]
    simp only [Function.update_same, rangeset_insert, h1, h2, h3, h4]
    exact ⟨trivial, trivial⟩

/-! ## Bounds of the accesses of `rangeset_add` -/

theorem rangeset_add_run_eq (a : rangeset_t) (beg end_ b e : Int) (hlt : beg < end_)
    (hb : -1 ≤ b) (hbe : b < e) (he : e ≤ a.length) :
    rangeset_add_run a beg end_ b e = some (rangeset_add a beg end_ b e) := by
  unfold rangeset_add_run
  rw [if_neg (by omega)]
  have r1 : sizeLt (b + 1) a.length = true →
      ∃ v, (read_range a (b + 1)).map (fun r => MIN r.beg beg) = some v := by
    intro hg
    simp only [sizeLt, decide_eq_true_eq] at hg
    unfold read_range
    rw [if_pos hg]
    exact ⟨_, rfl⟩
  have r2 : sizeLt (e - 1) a.length = true →
      ∃ v, (read_range a (e - 1)).map (fun r => MAX r.end_ end_) = some v := by
    intro hg
    simp only [sizeLt, decide_eq_true_eq] at hg
    unfold read_range
    rw [if_pos hg]
    exact ⟨_, rfl⟩
  have hm : (if sizeLt e a.length then
      decide (0 ≤ e ∧ e + ((a.length : Int) - e) ≤ a.length ∧ 0 ≤ b + 2 ∧
        b + 2 + ((a.length : Int) - e) ≤ (a.length : Int) + b - e + 2)
      else true) = true := by
    split_ifs
    · rw [decide_eq_true_eq]; omega
    · rfl
  have hs : decide (0 ≤ b + 1 ∧ b + 1 < (a.length : Int) + b - e + 2) = true := by
    rw [decide_eq_true_eq]; omega
  simp only [hm, hs, and_self, if_true]
  by_cases g1 : sizeLt (b + 1) a.length = true
  · obtain ⟨v1, hv1⟩ := r1 g1
    by_cases g2 : sizeLt (e - 1) a.length = true
    · obtain ⟨v2, hv2⟩ := r2 g2
      simp only [g1, g2, if_true, hv1, hv2]
    · simp only [g1, g2, if_true, hv1]
      rfl
  · by_cases g2 : sizeLt (e - 1) a.length = true
    · obtain ⟨v2, hv2⟩ := r2 g2
      simp only [g1, g2, if_true, hv2]
      rfl
    · simp only [g1, g2]
      rfl

/-- C29. For a set satisfying the RangeSet invariant, a range with
`beg < end` and the indices `(b, e)` that `rangeset_overlap` returns for it:
the guard of the read `a[b+1]` holds exactly when `b + 1 < n`, and `b + 1` is
never negative; the guard of the read `a[e-1]`, an unsigned comparison, holds
exactly when `e >= 1` (it is false for `e = 0`), and then `e - 1 < n`; the
`memmove` is entered only for `0 <= e < n`; the slot `b + 1` written lies
inside the new length; the new length `n + b - e + 2` lies between 1 and
`n + 1`; and `rangeset_add` with every access checked runs through and yields
the array of that length. -/
theorem rangeset_add_in_bounds (a : rangeset_t) (h : rangeset_inv a) (beg end_ : Int)
    (hlt : beg < end_) :
    (sizeLt ((rangeset_overlap a beg end_).2.1 + 1) a.length = true ↔
      (rangeset_overlap a beg end_).2.1 + 1 < a.length) ∧
    0 ≤ (rangeset_overlap a beg end_).2.1 + 1 ∧
    (sizeLt ((rangeset_overlap a beg end_).2.2 - 1) a.length = true ↔
      1 ≤ (rangeset_overlap a beg end_).2.2) ∧
    (rangeset_overlap a beg end_).2.2 - 1 < a.length ∧
    (sizeLt (rangeset_overlap a beg end_).2.2 a.length = true ↔
      (rangeset_overlap a beg end_).2.2 < a.length) ∧
    0 ≤ (rangeset_overlap a beg end_).2.2 ∧
    (rangeset_overlap a beg end_).2.1 + 1 <
      (a.length : Int) + (rangeset_overlap a beg end_).2.1 -
        (rangeset_overlap a beg end_).2.2 + 2 ∧
    1 ≤ (a.length : Int) + (rangeset_overlap a beg end_).2.1 -
        (rangeset_overlap a beg end_).2.2 + 2 ∧
    (a.length : Int) + (rangeset_overlap a beg end_).2.1 -
        (rangeset_overlap a beg end_).2.2 + 2 ≤ a.length + 1 ∧
    ((rangeset_insert a beg end_).length : Int) =
      (a.length : Int) + (rangeset_overlap a beg end_).2.1 -
        (rangeset_overlap a beg end_).2.2 + 2 ∧
    rangeset_add_run a beg end_ (rangeset_overlap a beg end_).2.1
        (rangeset_overlap a beg end_).2.2 =
      some (rangeset_insert a beg end_) := by
  have hB := rangeset_overlap_bounds a h beg end_ hlt
  have hb := hB.hb
  have hbe := hB.hbe
  have he := hB.he
  have hl := rangeset_add_length a beg end_ (rangeset_overlap a beg end_).2.1
    (rangeset_overlap a beg end_).2.2 hlt
  have hr := rangeset_add_run_eq a beg end_ _ _ hlt hb hbe he
  refine ⟨?_, by omega, ?_, by omega, ?_, by omega, by omega, by omega, by omega, ?_, hr⟩
  · simp only [sizeLt, decide_eq_true_eq]; omega
  · simp only [sizeLt, decide_eq_true_eq]; omega
  · simp only [sizeLt, decide_eq_true_eq]; omega
  · unfold rangeset_insert
    rw [hl]
    omega

theorem rangeset_add_in_bounds_witness :
    (sizeLt ((rangeset_overlap [⟨10, 20⟩, ⟨30, 40⟩] 0 5).2.1 + 1) 2 = true ↔
      (rangeset_overlap [⟨10, 20⟩, ⟨30, 40⟩] 0 5).2.1 + 1 < 2) ∧
    (sizeLt ((rangeset_overlap [⟨10, 20⟩, ⟨30, 40⟩] 0 5).2.2 - 1) 2 = false) ∧
    (rangeset_overlap [⟨10, 20⟩, ⟨30, 40⟩] 0 5).2.2 = 0 ∧
    rangeset_add_run [⟨10, 20⟩, ⟨30, 40⟩] 0 5 (-1) 0 =
      some [⟨0, 5⟩, ⟨10, 20⟩, ⟨30, 40⟩] :=
  ⟨(rangeset_add_in_bounds [⟨10, 20⟩, ⟨30, 40⟩] (by decide) 0 5 (by decide)).1,
    by decide, by decide, by decide⟩

/-! ## A box and the gap it is built around -/

theorem mem_gap_scan_pair (min_gap max_gap max_ovl : Int) (g : aln_t) :
    ∀ arr : List aln_t, arr.tail.Pairwise (fun x y => x.abpos ≤ y.abpos) →
      g ∈ gap_scan min_gap max_gap max_ovl arr →
      ∃ a1 a2, [a1, a2].Sublist arr ∧ g = gap_box max_ovl a1 a2 ∧
        a1.aepos + min_gap ≤ a2.abpos ∧ a2.abpos < a1.aepos + max_gap ∧
        min_gap ≤ gap_dist a1 a2 ∧ gap_dist a1 a2 ≤ max_gap := by
  intro arr
  induction arr with
  | nil => intro _ h; simp [gap_scan] at h
  | cons x rest ih =>
    intro hs h
    rw [List.tail_cons] at hs
    simp only [gap_scan, List.mem_append] at h
    rcases h with h | h
    · rw [gap_scan_from_sorted _ _ _ _ _ hs, List.mem_map] at h
      obtain ⟨a2, ha2, rfl⟩ := h
      rw [List.mem_filter, decide_eq_true_eq] at ha2
      refine ⟨x, a2, ?_, rfl, ha2.2⟩
      exact List.Sublist.cons₂ x (List.singleton_sublist.2 ha2.1)
    · have hs2 : rest.tail.Pairwise (fun x y => x.abpos ≤ y.abpos) :=
        hs.sublist (List.tail_sublist rest)
      obtain ⟨a1, a2, hsub, hrest⟩ := ih hs2 h
      exact ⟨a1, a2, hsub.trans (List.sublist_cons_self x rest), hrest⟩

/-- The four enclosure inequalities of a box need only `begin <= end` on both
axes of the two records and a flank that is not negative. -/
theorem gap_box_enclosure (max_ovl : Int) (a1 a2 : aln_t) (hovl : 0 ≤ max_ovl)
    (h1 : a1.abpos ≤ a1.aepos ∧ a1.bbpos ≤ a1.bepos)
    (h2 : a2.abpos ≤ a2.aepos ∧ a2.bbpos ≤ a2.bepos) :
    (gap_box max_ovl a1 a2).abpos ≤ a1.aepos ∧
    a2.abpos ≤ (gap_box max_ovl a1 a2).aepos ∧
    (gap_box max_ovl a1 a2).bbpos ≤ MIN a1.bepos a2.bepos ∧
    MAX a1.bbpos a2.bbpos ≤ (gap_box max_ovl a1 a2).bepos := by
  obtain ⟨q1, t1⟩ := h1
  obtain ⟨q2, t2⟩ := h2
  refine ⟨?_, ?_, ?_, ?_⟩
  · simp only [gap_box]; split_ifs <;> omega
  · simp only [gap_box]; split_ifs <;> omega
  · simp only [gap_box, MIN]; split_ifs <;> omega
  · simp only [gap_box, MAX]; split_ifs <;> omega

theorem gap_box_bounds (min_gap max_gap max_ovl : Int) (a1 a2 : aln_t)
    (hmin : 1 ≤ min_gap) (hovl : 0 ≤ max_ovl)
    (h1 : a1.abpos ≤ a1.aepos ∧ a1.bbpos ≤ a1.bepos)
    (h2 : a2.abpos ≤ a2.aepos ∧ a2.bbpos ≤ a2.bepos)
    (hw1 : a1.aepos + min_gap ≤ a2.abpos) (hw2 : a2.abpos < a1.aepos + max_gap)
    (hd1 : min_gap ≤ gap_dist a1 a2) (hd2 : gap_dist a1 a2 ≤ max_gap) :
    (gap_box max_ovl a1 a2).abpos ≤ a1.aepos ∧
    a2.abpos ≤ (gap_box max_ovl a1 a2).aepos ∧
    (gap_box max_ovl a1 a2).bbpos ≤ MIN a1.bepos a2.bepos ∧
    MAX a1.bbpos a2.bbpos ≤ (gap_box max_ovl a1 a2).bepos ∧
    min_gap ≤ (gap_box max_ovl a1 a2).aepos - (gap_box max_ovl a1 a2).abpos ∧
    (gap_box max_ovl a1 a2).aepos - (gap_box max_ovl a1 a2).abpos < max_gap + 2 * max_ovl ∧
    gap_dist a1 a2 ≤ (gap_box max_ovl a1 a2).bepos - (gap_box max_ovl a1 a2).bbpos ∧
    (gap_box max_ovl a1 a2).bepos - (gap_box max_ovl a1 a2).bbpos ≤ max_gap + 2 * max_ovl ∧
    0 < box_area (gap_box max_ovl a1 a2) := by
  obtain ⟨q1, t1⟩ := h1
  obtain ⟨q2, t2⟩ := h2
  have e1 : (gap_box max_ovl a1 a2).abpos ≤ a1.aepos ∧
      a1.aepos - max_ovl ≤ (gap_box max_ovl a1 a2).abpos := by
    simp only [gap_box]; split_ifs <;> omega
  have e2 : a2.abpos ≤ (gap_box max_ovl a1 a2).aepos ∧
      (gap_box max_ovl a1 a2).aepos ≤ a2.abpos + max_ovl := by
    simp only [gap_box]; split_ifs <;> omega
  have e3 : (gap_box max_ovl a1 a2).bbpos ≤ MIN a1.bepos a2.bepos ∧
      MIN a1.bepos a2.bepos - max_ovl ≤ (gap_box max_ovl a1 a2).bbpos := by
    simp only [gap_box, MIN]; split_ifs <;> omega
  have e4 : MAX a1.bbpos a2.bbpos ≤ (gap_box max_ovl a1 a2).bepos ∧
      (gap_box max_ovl a1 a2).bepos ≤ MAX a1.bbpos a2.bbpos + max_ovl := by
    simp only [gap_box, MAX]; split_ifs <;> omega
  have ed : gap_dist a1 a2 = MAX a1.bbpos a2.bbpos - MIN a1.bepos a2.bepos := by
    simp only [gap_dist, MAX, MIN]
  have hq : min_gap ≤ (gap_box max_ovl a1 a2).aepos - (gap_box max_ovl a1 a2).abpos := by
    omega
  have ht : gap_dist a1 a2 ≤
      (gap_box max_ovl a1 a2).bepos - (gap_box max_ovl a1 a2).bbpos := by
    omega
  refine ⟨e1.1, e2.1, e3.1, e4.1, hq, by omega, ht, by omega, ?_⟩
  unfold box_area
  exact mul_pos (by omega) (by omega)

/-- C30 (amended). For `min_gap >= 1`, a flank `>= 0` and a group in `q_begin`
order whose alignments have `begin <= end` on both axes and `q_begin <= q_len`,
every box of the candidate buffer of `gap_core` is the box of a pair
`(a1, a2)` of the sentinel-bounded array, `a1` before `a2`, that passed the
window and the distance test, and it satisfies `q_begin <= a1.q_end`,
`a2.q_begin <= q_end`, `t_begin <= min(a1.t_end, a2.t_end)` and
`max(a1.t_begin, a2.t_begin) <= t_end`; its query extent is `>= min_gap` and
`< max_gap + 2*flank`, its target extent is `>= dist >= min_gap` and
`<= max_gap + 2*flank`, and its area is positive. -/
theorem gap_box_encloses_gap (min_gap max_gap max_ovl : Int) (group : List aln_t)
    (alen blen : Int) (hmin : 1 ≤ min_gap) (hovl : 0 ≤ max_ovl)
    (hs : group.Pairwise (fun x y => x.abpos ≤ y.abpos))
    (hlen : ∀ a ∈ group, a.abpos ≤ alen)
    (hbe : ∀ a ∈ group, a.abpos ≤ a.aepos ∧ a.bbpos ≤ a.bepos) :
    ∀ g ∈ gap_candidates min_gap max_gap max_ovl group alen blen,
      ∃ a1 a2, [a1, a2].Sublist (gap_array group alen blen) ∧ g = gap_box max_ovl a1 a2 ∧
        a1.aepos + min_gap ≤ a2.abpos ∧ a2.abpos < a1.aepos + max_gap ∧
        min_gap ≤ gap_dist a1 a2 ∧ gap_dist a1 a2 ≤ max_gap ∧
        g.abpos ≤ a1.aepos ∧ a2.abpos ≤ g.aepos ∧
        g.bbpos ≤ MIN a1.bepos a2.bepos ∧ MAX a1.bbpos a2.bbpos ≤ g.bepos ∧
        min_gap ≤ g.aepos - g.abpos ∧ g.aepos - g.abpos < max_gap + 2 * max_ovl ∧
        gap_dist a1 a2 ≤ g.bepos - g.bbpos ∧ g.bepos - g.bbpos ≤ max_gap + 2 * max_ovl ∧
        0 < box_area g := by
  intro g hg
  have htail : (gap_array group alen blen).tail.Pairwise (fun x y => x.abpos ≤ y.abpos) := by
    unfold gap_array
    rw [List.tail_cons, List.pairwise_append]
    refine ⟨hs, List.pairwise_singleton _ _, ?_⟩
    intro a ha b hb
    rw [List.mem_singleton] at hb
    rw [hb]
    exact hlen a ha
  have hall : ∀ a ∈ gap_array group alen blen, a.abpos ≤ a.aepos ∧ a.bbpos ≤ a.bepos := by
    intro a ha
    unfold gap_array at ha
    rw [List.mem_cons, List.mem_append, List.mem_singleton] at ha
    rcases ha with rfl | ha | rfl
    · exact ⟨le_refl _, le_refl _⟩
    · exact hbe a ha
    · exact ⟨le_refl _, le_refl _⟩
  unfold gap_candidates at hg
  obtain ⟨a1, a2, hsub, rfl, hw1, hw2, hd1, hd2⟩ :=
    mem_gap_scan_pair min_gap max_gap max_ovl g _ htail hg
  have m1 : a1 ∈ gap_array group alen blen := hsub.subset (by simp)
  have m2 : a2 ∈ gap_array group alen blen := hsub.subset (by simp)
  exact ⟨a1, a2, hsub, rfl, hw1, hw2, hd1, hd2,
    gap_box_bounds min_gap max_gap max_ovl a1 a2 hmin hovl (hall a1 m1) (hall a2 m2)
      hw1 hw2 hd1 hd2⟩

theorem gap_box_encloses_gap_witness :
    ∃ a1 a2, [a1, a2].Sublist (gap_array [⟨0, 0, 300, 400, 200, 350, 50⟩] 1000 1000) ∧
      (⟨0, 0, 300, 1000, 250, 1000, 0⟩ : aln_t) = gap_box 100 a1 a2 ∧
      a1.aepos + 100 ≤ a2.abpos ∧ a2.abpos < a1.aepos + 1000 ∧
      100 ≤ gap_dist a1 a2 ∧ gap_dist a1 a2 ≤ 1000 ∧
      (⟨0, 0, 300, 1000, 250, 1000, 0⟩ : aln_t).abpos ≤ a1.aepos ∧
      a2.abpos ≤ (⟨0, 0, 300, 1000, 250, 1000, 0⟩ : aln_t).aepos ∧
      (⟨0, 0, 300, 1000, 250, 1000, 0⟩ : aln_t).bbpos ≤ MIN a1.bepos a2.bepos ∧
      MAX a1.bbpos a2.bbpos ≤ (⟨0, 0, 300, 1000, 250, 1000, 0⟩ : aln_t).bepos ∧
      100 ≤ (⟨0, 0, 300, 1000, 250, 1000, 0⟩ : aln_t).aepos -
        (⟨0, 0, 300, 1000, 250, 1000, 0⟩ : aln_t).abpos ∧
      (⟨0, 0, 300, 1000, 250, 1000, 0⟩ : aln_t).aepos -
        (⟨0, 0, 300, 1000, 250, 1000, 0⟩ : aln_t).abpos < 1000 + 2 * 100 ∧
      gap_dist a1 a2 ≤ (⟨0, 0, 300, 1000, 250, 1000, 0⟩ : aln_t).bepos -
        (⟨0, 0, 300, 1000, 250, 1000, 0⟩ : aln_t).bbpos ∧
      (⟨0, 0, 300, 1000, 250, 1000, 0⟩ : aln_t).bepos -
        (⟨0, 0, 300, 1000, 250, 1000, 0⟩ : aln_t).bbpos ≤ 1000 + 2 * 100 ∧
      0 < box_area ⟨0, 0, 300, 1000, 250, 1000, 0⟩ :=
  gap_box_encloses_gap 100 1000 100 [⟨0, 0, 300, 400, 200, 350, 50⟩] 1000 1000
    (by decide) (by decide) (by decide) (by decide) (by decide)
    ⟨0, 0, 300, 1000, 250, 1000, 0⟩ (by decide)

/-- C30, the claim as worded fails when an alignment begins beyond the end of
its query sequence.  The group holds the one alignment `Q[500,600) T[300,400)`
and the query length is 50, with `min_gap = 100`, `max_gap = 1000` and flank
100: every record of the sentinel-bounded array has `begin <= end`, the end
sentinel at `q = 50` is reached by the window of the start sentinel after the
alignment at `q = 500`, and the box of the two sentinels is pushed with the
query extent `[0, 50]`, shorter than `min_gap`. -/
theorem gap_box_short_query_extent :
    (∀ a ∈ gap_array [⟨0, 0, 500, 600, 300, 400, 1⟩] 50 200,
      a.abpos ≤ a.aepos ∧ a.bbpos ≤ a.bepos) ∧
    gap_scan_from 100 1000 100 ⟨0, 0, 0, 0, 0, 0, 0⟩
        [⟨0, 0, 500, 600, 300, 400, 1⟩, ⟨0, 0, 50, 50, 200, 200, 0⟩] =
      [gap_box 100 ⟨0, 0, 0, 0, 0, 0, 0⟩ ⟨0, 0, 500, 600, 300, 400, 1⟩,
        gap_box 100 ⟨0, 0, 0, 0, 0, 0, 0⟩ ⟨0, 0, 50, 50, 200, 200, 0⟩] ∧
    gap_box 100 ⟨0, 0, 0, 0, 0, 0, 0⟩ ⟨0, 0, 50, 50, 200, 200, 0⟩ =
      ⟨0, 0, 0, 50, 0, 200, 0⟩ ∧
    (⟨0, 0, 0, 50, 0, 200, 0⟩ : aln_t) ∈
      gap_candidates 100 1000 100 [⟨0, 0, 500, 600, 300, 400, 1⟩] 50 200 ∧
    ¬ ((100 : Int) ≤ (⟨0, 0, 0, 50, 0, 200, 0⟩ : aln_t).aepos -
      (⟨0, 0, 0, 50, 0, 200, 0⟩ : aln_t).abpos) := by
  refine ⟨by decide, by decide, by decide, by decide, by decide⟩

/-! ## The boxes printed are the minimal ones -/

theorem gap_output_eq (sorted : List aln_t) :
    gap_output sorted =
      ((dominance_filter sorted).filter (fun g => decide (g.mlen ≠ 0))).map box_coords := rfl

theorem dominance_loop_mem (l : List aln_t) :
    ∀ tr : rtree, ∀ x ∈ dominance_loop tr l, ∃ h ∈ l, x = h ∨ x = box_marked h := by
  induction l with
  | nil => intro tr x hx; simp [dominance_loop] at hx
  | cons g rest ih =>
    intro tr x hx
    unfold dominance_loop at hx
    split_ifs at hx
    · rcases List.mem_cons.1 hx with rfl | hx
      · exact ⟨x, List.mem_cons_self _ _, Or.inl rfl⟩
      · obtain ⟨h, hh, hx⟩ := ih _ x hx
        exact ⟨h, List.mem_cons_of_mem _ hh, hx⟩
    · rcases List.mem_cons.1 hx with rfl | hx
      · exact ⟨g, List.mem_cons_self _ _, Or.inr rfl⟩
      · obtain ⟨h, hh, hx⟩ := ih _ x hx
        exact ⟨h, List.mem_cons_of_mem _ hh, hx⟩

theorem dominance_loop_of_mem (l : List aln_t) :
    ∀ tr : rtree, ∀ h ∈ l, h ∈ dominance_loop tr l ∨ box_marked h ∈ dominance_loop tr l := by
  induction l with
  | nil => intro tr h hh; simp at hh
  | cons g rest ih =>
    intro tr h hh
    unfold dominance_loop
    split_ifs
    · rcases List.mem_cons.1 hh with rfl | hh
      · exact Or.inl (List.mem_cons_self _ _)
      · rcases ih _ h hh with h1 | h1
        · exact Or.inl (List.mem_cons_of_mem _ h1)
        · exact Or.inr (List.mem_cons_of_mem _ h1)
    · rcases List.mem_cons.1 hh with rfl | hh
      · exact Or.inr (List.mem_cons_self _ _)
      · rcases ih _ h hh with h1 | h1
        · exact Or.inl (List.mem_cons_of_mem _ h1)
        · exact Or.inr (List.mem_cons_of_mem _ h1)

theorem candidate_eq_of_coords (g h : aln_t) (hg : is_candidate g) (hh : is_candidate h)
    (e : box_coords g = box_coords h) : g = h := by
  obtain ⟨g1, g2, g3⟩ := hg
  obtain ⟨h1, h2, h3⟩ := hh
  simp only [box_coords, Prod.mk.injEq] at e
  obtain ⟨e1, e2, e3, e4⟩ := e
  cases g; cases h
  simp only [aln_t.mk.injEq]
  simp only at g1 g2 g3 h1 h2 h3 e1 e2 e3 e4
  omega

theorem dominance_accepted_iff (gaps sorted : List aln_t)
    (hq : qsort_result AORDER gaps sorted)
    (hc : ∀ g ∈ gaps, is_candidate g ∧ box_positive g)
    (hfit : ∀ g ∈ gaps, area_fits g) :
    (∀ ρ : Int × Int × Int × Int, ρ ∈ gap_output sorted ↔
      ∃ g ∈ gaps, box_coords g = ρ ∧ ∀ h ∈ gaps, box_inside h g → h = g) ∧
    (gap_output sorted).Nodup := by
  have hperm := hq.1
  have hcs : ∀ g ∈ sorted, g.mlen = 0 ∧ box_positive g := fun g hg =>
    ⟨(hc g (hperm.subset hg)).1.2.2, (hc g (hperm.subset hg)).2⟩
  obtain ⟨hanti, hrej⟩ :=
    dominance_loop_spec sorted [] (qsort_AORDER_area gaps sorted hq hfit) hcs
    (by intro x hx; simp at hx) List.Pairwise.nil
  simp only [List.map_nil, List.nil_append] at hanti hrej
  have hsym : Symmetric (fun x y : aln_t => ¬ box_inside x y ∧ ¬ box_inside y x) :=
    fun x y h => ⟨h.2, h.1⟩
  -- two accepted boxes one inside the other are the same box
  have hsame : ∀ x ∈ (dominance_loop [] sorted).filter (fun g => decide (g.mlen ≠ 0)),
      ∀ y ∈ (dominance_loop [] sorted).filter (fun g => decide (g.mlen ≠ 0)),
      box_inside x y → x = y := by
    intro x hx y hy hin
    by_contra hne
    exact (hanti.forall hsym hx hy hne).1 hin
  -- an accepted box is the marked copy of a box of the buffer
  have hacc : ∀ x ∈ (dominance_loop [] sorted).filter (fun g => decide (g.mlen ≠ 0)),
      ∃ h ∈ gaps, x = box_marked h := by
    intro x hx
    rw [List.mem_filter, decide_eq_true_eq] at hx
    obtain ⟨h, hh, hxh⟩ := dominance_loop_mem sorted [] x hx.1
    rcases hxh with rfl | rfl
    · exact absurd (hcs x hh).1 hx.2
    · exact ⟨h, hperm.subset hh, rfl⟩
  constructor
  · intro ρ
    rw [gap_output_eq, List.mem_map]
    constructor
    · rintro ⟨x, hx, rfl⟩
      obtain ⟨h, hh, rfl⟩ := hacc x hx
      refine ⟨h, hh, rfl, ?_⟩
      intro h2 hh2 hin
      have hh2s : h2 ∈ sorted := hperm.symm.subset hh2
      rcases dominance_loop_of_mem sorted [] h2 hh2s with hm | hm
      · obtain ⟨y, hy, hyin⟩ := hrej h2 hm (hcs h2 hh2s).1
        have hyx : box_inside y (box_marked h) :=
          ⟨le_trans hin.1 hyin.1, le_trans hin.2.1 hyin.2.1,
            le_trans hyin.2.2.1 hin.2.2.1, le_trans hyin.2.2.2 hin.2.2.2⟩
        have := hsame y hy _ hx hyx
        subst this
        apply candidate_eq_of_coords h2 h (hc h2 hh2).1 (hc h hh).1
        simp only [box_coords, Prod.mk.injEq]
        obtain ⟨a1, a2, a3, a4⟩ := hin
        obtain ⟨b1, b2, b3, b4⟩ := hyin
        simp only [box_marked] at b1 b2 b3 b4
        omega
      · have hm2 : box_marked h2 ∈
            (dominance_loop [] sorted).filter (fun g => decide (g.mlen ≠ 0)) := by
          rw [List.mem_filter, decide_eq_true_eq]
          exact ⟨hm, by simp [box_marked]⟩
        have := hsame _ hm2 _ hx hin
        apply candidate_eq_of_coords h2 h (hc h2 hh2).1 (hc h hh).1
        simp only [box_marked, aln_t.mk.injEq] at this
        simp only [box_coords, Prod.mk.injEq]
        omega
    · rintro ⟨g, hg, rfl, hmin⟩
      have hgs : g ∈ sorted := hperm.symm.subset hg
      rcases dominance_loop_of_mem sorted [] g hgs with hm | hm
      · obtain ⟨y, hy, hyin⟩ := hrej g hm (hcs g hgs).1
        obtain ⟨h, hh, rfl⟩ := hacc y hy
        have : h = g := hmin h hh hyin
        subst this
        exact ⟨_, hy, rfl⟩
      · refine ⟨box_marked g, ?_, rfl⟩
        rw [List.mem_filter, decide_eq_true_eq]
        exact ⟨hm, by simp [box_marked]⟩
  · rw [gap_output_eq]
    refine List.Nodup.map_on ?_ ?_
    · intro x hx y hy e
      apply hsame x hx y hy
      simp only [box_coords, Prod.mk.injEq] at e
      unfold box_inside
      omega
    · exact hanti.imp (fun {x y} h e => h.1 (by rw [e]; exact ⟨le_refl _, le_refl _, le_refl _, le_refl _⟩))

/-- C26 (amended). For a candidate buffer whose boxes all have positive query
and target extent and an area below `2^63`, whatever array the area sort
leaves: a rectangle is printed by the dominance filter iff it is the rectangle
of a box of the buffer inside which lies no box of the buffer with a different
rectangle; no rectangle is printed twice; and the rectangles printed for a
rearranged buffer and any outcome of its sort are the same, up to their
order. -/
theorem dominance_minimal_boxes (gaps sorted : List aln_t)
    (hq : qsort_result AORDER gaps sorted)
    (hc : ∀ g ∈ gaps, is_candidate g ∧ box_positive g)
    (hfit : ∀ g ∈ gaps, area_fits g) :
    (∀ ρ : Int × Int × Int × Int, ρ ∈ gap_output sorted ↔
      ∃ g ∈ gaps, box_coords g = ρ ∧
        ∀ h ∈ gaps, box_inside h g → box_coords h = box_coords g) ∧
    (gap_output sorted).Nodup ∧
    (∀ gaps2 sorted2 : List aln_t, gaps2.Perm gaps → qsort_result AORDER gaps2 sorted2 →
      (gap_output sorted2).Perm (gap_output sorted)) := by
  have key : ∀ gaps1 sorted1 : List aln_t, gaps1.Perm gaps →
      qsort_result AORDER gaps1 sorted1 →
      (∀ ρ : Int × Int × Int × Int, ρ ∈ gap_output sorted1 ↔
        ∃ g ∈ gaps, box_coords g = ρ ∧
          ∀ h ∈ gaps, box_inside h g → box_coords h = box_coords g) ∧
      (gap_output sorted1).Nodup := by
    intro gaps1 sorted1 hp hq1
    have hc1 : ∀ g ∈ gaps1, is_candidate g ∧ box_positive g := fun g hg => hc g (hp.subset hg)
    have hfit1 : ∀ g ∈ gaps1, area_fits g := fun g hg => hfit g (hp.subset hg)
    obtain ⟨h1, h2⟩ := dominance_accepted_iff gaps1 sorted1 hq1 hc1 hfit1
    refine ⟨?_, h2⟩
    intro ρ
    rw [h1 ρ]
    constructor
    · rintro ⟨g, hg, e, hmin⟩
      exact ⟨g, hp.subset hg, e, fun h hh hin => by rw [hmin h (hp.symm.subset hh) hin]⟩
    · rintro ⟨g, hg, e, hmin⟩
      exact ⟨g, hp.symm.subset hg, e, fun h hh hin =>
        candidate_eq_of_coords h g (hc1 h hh).1 (hc1 g (hp.symm.subset hg)).1
          (hmin h (hp.subset hh) hin)⟩
  obtain ⟨k1, k2⟩ := key gaps sorted (List.Perm.refl _) hq
  refine ⟨k1, k2, ?_⟩
  intro gaps2 sorted2 hp hq2
  obtain ⟨j1, j2⟩ := key gaps2 sorted2 hp hq2
  rw [List.perm_ext_iff_of_nodup j2 k2]
  intro ρ
  rw [j1 ρ, k1 ρ]

/-- Witness for C26 (amended): the buffer `[0,10] x [0,10]`, `[2,5] x [2,5]`,
`[20,30] x [20,30]`. -/
theorem dominance_minimal_boxes_witness :
    (((2, 5, 2, 5) : Int × Int × Int × Int) ∈
        gap_output [⟨0, 0, 2, 5, 2, 5, 0⟩, ⟨0, 0, 0, 10, 0, 10, 0⟩, ⟨0, 0, 20, 30, 20, 30, 0⟩] ↔
      ∃ g ∈ [(⟨0, 0, 0, 10, 0, 10, 0⟩ : aln_t), ⟨0, 0, 2, 5, 2, 5, 0⟩,
          ⟨0, 0, 20, 30, 20, 30, 0⟩],
        box_coords g = (2, 5, 2, 5) ∧
        ∀ h ∈ [(⟨0, 0, 0, 10, 0, 10, 0⟩ : aln_t), ⟨0, 0, 2, 5, 2, 5, 0⟩,
            ⟨0, 0, 20, 30, 20, 30, 0⟩],
          box_inside h g → box_coords h = box_coords g) ∧
    gap_output [⟨0, 0, 2, 5, 2, 5, 0⟩, ⟨0, 0, 0, 10, 0, 10, 0⟩, ⟨0, 0, 20, 30, 20, 30, 0⟩] =
      [(2, 5, 2, 5), (20, 30, 20, 30)] :=
  ⟨(dominance_minimal_boxes
      [⟨0, 0, 0, 10, 0, 10, 0⟩, ⟨0, 0, 2, 5, 2, 5, 0⟩, ⟨0, 0, 20, 30, 20, 30, 0⟩]
      [⟨0, 0, 2, 5, 2, 5, 0⟩, ⟨0, 0, 0, 10, 0, 10, 0⟩, ⟨0, 0, 20, 30, 20, 30, 0⟩]
      (by decide) (by decide) (by decide)).1 (2, 5, 2, 5), by decide⟩

/-- C26 as stated fails when an area leaves the range of `int64`.  In the
buffer `[0, 1200001000] x [0, 1200001000]` (twice),
`[0, 4200000000] x [0, 4200000000]`,
`[1200000000, 4200000000] x [1200000000, 4200000000]`, all of positive extent,
the area of the second rectangle is seen as negative, the sort puts it first,
and it is printed although two different rectangles of the buffer lie inside
it. -/
theorem dominance_minimal_boxes_area_wraps :
    (∀ g ∈ [(⟨0, 0, 0, 1200001000, 0, 1200001000, 0⟩ : aln_t),
        ⟨0, 0, 0, 1200001000, 0, 1200001000, 0⟩, ⟨0, 0, 0, 4200000000, 0, 4200000000, 0⟩,
        ⟨0, 0, 1200000000, 4200000000, 1200000000, 4200000000, 0⟩],
      is_candidate g ∧ box_positive g) ∧
    qsort_result AORDER
      [⟨0, 0, 0, 1200001000, 0, 1200001000, 0⟩, ⟨0, 0, 0, 1200001000, 0, 1200001000, 0⟩,
        ⟨0, 0, 0, 4200000000, 0, 4200000000, 0⟩,
        ⟨0, 0, 1200000000, 4200000000, 1200000000, 4200000000, 0⟩]
      [⟨0, 0, 0, 4200000000, 0, 4200000000, 0⟩, ⟨0, 0, 0, 1200001000, 0, 1200001000, 0⟩,
        ⟨0, 0, 0, 1200001000, 0, 1200001000, 0⟩,
        ⟨0, 0, 1200000000, 4200000000, 1200000000, 4200000000, 0⟩] ∧
    gap_output
      [⟨0, 0, 0, 4200000000, 0, 4200000000, 0⟩, ⟨0, 0, 0, 1200001000, 0, 1200001000, 0⟩,
        ⟨0, 0, 0, 1200001000, 0, 1200001000, 0⟩,
        ⟨0, 0, 1200000000, 4200000000, 1200000000, 4200000000, 0⟩] =
      [(0, 4200000000, 0, 4200000000), (0, 1200001000, 0, 1200001000),
        (1200000000, 4200000000, 1200000000, 4200000000)] ∧
    box_inside ⟨0, 0, 0, 1200001000, 0, 1200001000, 0⟩ ⟨0, 0, 0, 4200000000, 0, 4200000000, 0⟩ ∧
    ¬ (((0, 4200000000, 0, 4200000000) : Int × Int × Int × Int) ∈
        gap_output
          [⟨0, 0, 0, 4200000000, 0, 4200000000, 0⟩, ⟨0, 0, 0, 1200001000, 0, 1200001000, 0⟩,
            ⟨0, 0, 0, 1200001000, 0, 1200001000, 0⟩,
            ⟨0, 0, 1200000000, 4200000000, 1200000000, 4200000000, 0⟩] ↔
      ∃ g ∈ [(⟨0, 0, 0, 1200001000, 0, 1200001000, 0⟩ : aln_t),
          ⟨0, 0, 0, 1200001000, 0, 1200001000, 0⟩, ⟨0, 0, 0, 4200000000, 0, 4200000000, 0⟩,
          ⟨0, 0, 1200000000, 4200000000, 1200000000, 4200000000, 0⟩],
        box_coords g = (0, 4200000000, 0, 4200000000) ∧
        ∀ h ∈ [(⟨0, 0, 0, 1200001000, 0, 1200001000, 0⟩ : aln_t),
            ⟨0, 0, 0, 1200001000, 0, 1200001000, 0⟩, ⟨0, 0, 0, 4200000000, 0, 4200000000, 0⟩,
            ⟨0, 0, 1200000000, 4200000000, 1200000000, 4200000000, 0⟩],
          box_inside h g → box_coords h = box_coords g) := by
  refine ⟨by decide, ⟨by decide, by decide⟩, by decide, by decide, by decide⟩

/-! ## Bounds of the scratch array -/

theorem or_le_add (x : Nat) : ∀ y : Nat, x ||| y ≤ x + y := by
  induction x using Nat.strongRecOn with
  | ind x ih =>
    intro y
    by_cases h0 : x = 0
    · subst h0; simp
    · have h1 := ih (x / 2) (by omega) (y / 2)
      have h2 : (x ||| y) / 2 = x / 2 ||| y / 2 := Nat.or_div_two
      have h3 : (x ||| y) % 2 = 1 ↔ x % 2 = 1 ∨ y % 2 = 1 := Nat.or_mod_two_eq_one
      omega

theorem pack_range_decode_le (j len : Nat) :
    range_offset (pack_range j len) + range_len (pack_range j len) ≤ j + len ∧
      range_len (pack_range j len) ≤ len := by
  have h1 : range_len (pack_range j len) = len % 4294967296 := by
    unfold range_len pack_range
    apply Nat.eq_of_testBit_eq
    intro i
    have e32 : (4294967296 : Nat) = 2 ^ 32 := by norm_num
    have e64 : (18446744073709551616 : Nat) = 2 ^ 64 := by norm_num
    rw [e32, e64]
    simp only [Nat.testBit_mod_two_pow, Nat.testBit_or, Nat.testBit_shiftLeft]
    by_cases hi : i < 32
    · have : ¬ (i ≥ 32) := by omega
      simp [hi, this]
    · simp [hi]
  have h2 : range_offset (pack_range j len) = (j % 4294967296) ||| (len >>> 32) := by
    unfold range_offset pack_range
    apply Nat.eq_of_testBit_eq
    intro i
    have e32 : (4294967296 : Nat) = 2 ^ 32 := by norm_num
    have e64 : (18446744073709551616 : Nat) = 2 ^ 64 := by norm_num
    rw [e32, e64]
    simp only [Nat.testBit_shiftRight, Nat.testBit_mod_two_pow, Nat.testBit_or,
      Nat.testBit_shiftLeft]
    have a1 : 32 + i ≥ 32 := by omega
    have a2 : 32 + i - 32 = i := by omega
    by_cases hi : i < 32
    · have : 32 + i < 64 := by omega
      simp [hi, this, a2]
    · have : ¬ (32 + i < 64) := by omega
      simp [hi, this]
  have h3 := or_le_add (j % 4294967296) (len >>> 32)
  rw [Nat.shiftRight_eq_div_pow] at h2 h3
  rw [h1, h2]
  constructor
  · have : len / 2 ^ 32 + len % 4294967296 ≤ len := by
      have := Nat.div_add_mod len 4294967296
      norm_num at this ⊢
      omega
    have : j % 4294967296 ≤ j := Nat.mod_le _ _
    omega
  · exact Nat.mod_le _ _

theorem group_loop_ranges (rest : List aln_t) :
    ∀ (i j : Nat) (a b : Int) (m : Nat) (ranges : List Nat), j ≤ i →
      (∀ r ∈ (group_loop rest i j a b m ranges).1, r ∈ ranges ∨
        ∃ o len, r = pack_range o len ∧ o + len ≤ i + rest.length ∧
          len ≤ (group_loop rest i j a b m ranges).2) ∧
      m ≤ (group_loop rest i j a b m ranges).2 := by
  induction rest with
  | nil =>
    intro i j a b m ranges hji
    simp only [group_loop, List.mem_append, List.mem_singleton, List.length_nil]
    constructor
    · intro r hr
      rcases hr with hr | rfl
      · exact Or.inl hr
      · refine Or.inr ⟨j, i - j, rfl, by omega, ?_⟩
        split_ifs <;> omega
    · split_ifs <;> omega
  | cons x rest ih =>
    intro i j a b m ranges hji
    by_cases hc : x.aread ≠ a ∨ x.bread ≠ b
    · have hg : group_loop (x :: rest) i j a b m ranges =
          group_loop rest (i + 1) i x.aread x.bread (if m < i - j then i - j else m)
            (ranges ++ [pack_range j (i - j)]) := by
        simp only [group_loop, if_pos hc]
      rw [hg]
      have hm : m ≤ (if m < i - j then i - j else m) ∧
          i - j ≤ (if m < i - j then i - j else m) := by
        split_ifs <;> omega
      generalize (if m < i - j then i - j else m) = m1 at hm ⊢
      obtain ⟨i1, i2⟩ := ih (i + 1) i x.aread x.bread m1
        (ranges ++ [pack_range j (i - j)]) (by omega)
      constructor
      · intro r hr
        rcases i1 r hr with h | ⟨o, len, h1, h2, h3⟩
        · rcases List.mem_append.1 h with h | h
          · exact Or.inl h
          · rw [List.mem_singleton] at h
            exact Or.inr ⟨j, i - j, h, by simp only [List.length_cons]; omega, by omega⟩
        · exact Or.inr ⟨o, len, h1, by simp only [List.length_cons]; omega, h3⟩
      · omega
    · have hg : group_loop (x :: rest) i j a b m ranges =
          group_loop rest (i + 1) j a b m ranges := by
        simp only [group_loop, if_neg hc]
      rw [hg]
      obtain ⟨i1, i2⟩ := ih (i + 1) j a b m ranges (by omega)
      constructor
      · intro r hr
        rcases i1 r hr with h | ⟨o, len, h1, h2, h3⟩
        · exact Or.inl h
        · exact Or.inr ⟨o, len, h1, by simp only [List.length_cons]; omega, h3⟩
      · exact i2

theorem align_gaps_spans_bounds (alns : List aln_t) :
    ∀ s ∈ align_gaps_spans alns,
      s.1 + s.2 ≤ alns.length ∧ s.2 ≤ (align_gaps_ranges alns).2 := by
  intro s hs
  unfold align_gaps_spans at hs
  obtain ⟨r, hr, rfl⟩ := List.mem_map.1 hs
  cases alns with
  | nil => simp [align_gaps_ranges] at hr
  | cons x rest =>
    simp only [align_gaps_ranges] at hr ⊢
    obtain ⟨i1, _⟩ := group_loop_ranges rest 1 0 x.aread x.bread 0 [] (by omega)
    rcases i1 r hr with h | ⟨o, len, rfl, h2, h3⟩
    · simp at h
    · obtain ⟨d1, d2⟩ := pack_range_decode_le o len
      simp only [List.length_cons]
      constructor <;> omega

theorem drop_aget (alns : List aln_t) (k : Nat) (h : k < alns.length) :
    alns.drop k = aget alns k :: alns.drop (k + 1) := by
  rw [List.drop_eq_getElem_cons h]
  unfold aget
  rw [List.getD_eq_getElem alns _ h]

theorem scan_advance_spec (alns : List aln_t) (bound : Int) :
    ∀ (fuel k : Nat), k ≤ alns.length → alns.length - k ≤ fuel →
      (scan_advance alns alns.length bound fuel k).1 =
          k + ((alns.drop k).takeWhile (fun a => decide (a.abpos < bound))).length ∧
        ∀ r ∈ (scan_advance alns alns.length bound fuel k).2, r < alns.length := by
  intro fuel
  induction fuel with
  | zero =>
    intro k hk hf
    have : k = alns.length := by omega
    subst this
    simp [scan_advance]
  | succ fuel ih =>
    intro k hk hf
    unfold scan_advance
    by_cases hlt : k < alns.length
    · rw [if_pos hlt, drop_aget alns k hlt]
      by_cases hp : (aget alns k).abpos < bound
      · rw [if_pos hp]
        obtain ⟨i1, i2⟩ := ih (k + 1) (by omega) (by omega)
        simp only [List.takeWhile_cons, hp, decide_True, if_true, List.length_cons]
        refine ⟨by rw [i1]; omega, ?_⟩
        intro r hr
        rcases List.mem_cons.1 hr with rfl | hr
        · exact hlt
        · exact i2 r hr
      · rw [if_neg hp]
        simp only [List.takeWhile_cons, hp, decide_False, Bool.false_eq_true, if_false,
          List.length_nil, Nat.add_zero, true_and]
        intro r hr
        simp only [List.mem_singleton] at hr
        omega
    · rw [if_neg hlt]
      have : k = alns.length := by omega
      subst this
      simp

theorem drop_takeWhile_length (p : aln_t → Bool) (l : List aln_t) :
    l.drop (l.takeWhile p).length = l.dropWhile p := by
  induction l with
  | nil => rfl
  | cons x xs ih =>
    by_cases h : p x = true
    · simp [List.takeWhile_cons, List.dropWhile_cons, h, ih]
    · simp [List.takeWhile_cons, List.dropWhile_cons, h]

theorem take_takeWhile_length (p : aln_t → Bool) (l : List aln_t) :
    l.take (l.takeWhile p).length = l.takeWhile p := by
  induction l with
  | nil => rfl
  | cons x xs ih =>
    by_cases h : p x = true
    · simp [List.takeWhile_cons, h, ih]
    · simp [List.takeWhile_cons, h]

theorem map_aget_range'_drop (alns : List aln_t) :
    ∀ (len s : Nat), s + len ≤ alns.length →
      (List.range' s len).map (aget alns) = (alns.drop s).take len := by
  intro len
  induction len with
  | zero => intro s _; simp
  | succ len ih =>
    intro s h
    rw [drop_aget alns s (by omega), List.take_succ_cons, List.range'_succ, List.map_cons,
      ih (s + 1) (by omega)]

theorem takeWhile_length_le (p : aln_t → Bool) (l : List aln_t) :
    (l.takeWhile p).length ≤ l.length :=
  (List.takeWhile_sublist p).length_le

theorem gap_core_row_eq (min_gap max_gap max_ovl : Int) (alns : List aln_t) (i : Nat)
    (hi : i < alns.length) :
    (gap_core_row min_gap max_gap max_ovl alns alns.length i).1 =
        gap_scan_from min_gap max_gap max_ovl (aget alns i) (alns.drop (i + 1)) ∧
      ∀ r ∈ (gap_core_row min_gap max_gap max_ovl alns alns.length i).2,
        r < alns.length := by
  obtain ⟨s1, s2⟩ := scan_advance_spec alns ((aget alns i).aepos + min_gap)
    (alns.length - i) (i + 1) (by omega) (by omega)
  have hsle : (scan_advance alns alns.length ((aget alns i).aepos + min_gap)
      (alns.length - i) (i + 1)).1 ≤ alns.length := by
    rw [s1]
    have := takeWhile_length_le (fun a => decide (a.abpos < (aget alns i).aepos + min_gap))
      (alns.drop (i + 1))
    rw [List.length_drop] at this
    omega
  obtain ⟨e1, e2⟩ := scan_advance_spec alns ((aget alns i).aepos + max_gap)
    (alns.length - i) _ hsle (by rw [s1]; omega)
  have hdrop : alns.drop (scan_advance alns alns.length ((aget alns i).aepos + min_gap)
      (alns.length - i) (i + 1)).1 =
      (alns.drop (i + 1)).dropWhile
        (fun a => decide (a.abpos < (aget alns i).aepos + min_gap)) := by
    rw [s1, ← List.drop_drop, drop_takeWhile_length]
  unfold gap_core_row
  simp only
  generalize (scan_advance alns alns.length ((aget alns i).aepos + min_gap)
      (alns.length - i) (i + 1)) = S at *
  generalize (scan_advance alns alns.length ((aget alns i).aepos + max_gap)
      (alns.length - i) S.1) = E at *
  have hlen : E.1 - S.1 =
      ((alns.drop S.1).takeWhile
        (fun a => decide (a.abpos < (aget alns i).aepos + max_gap))).length := by
    rw [e1]; omega
  have hwin : (List.range' S.1 (E.1 - S.1)).map (aget alns) =
      ((alns.drop (i + 1)).dropWhile
        (fun a => decide (a.abpos < (aget alns i).aepos + min_gap))).takeWhile
        (fun a => decide (a.abpos < (aget alns i).aepos + max_gap)) := by
    have hb : S.1 + (E.1 - S.1) ≤ alns.length := by
      rw [hlen]
      have := takeWhile_length_le
        (fun a => decide (a.abpos < (aget alns i).aepos + max_gap)) (alns.drop S.1)
      rw [List.length_drop] at this
      omega
    rw [map_aget_range'_drop alns _ _ hb, hlen, take_takeWhile_length, hdrop]
  constructor
  · unfold gap_scan_from
    simp only
    rw [← hwin, List.filter_map, List.map_map]
    rfl
  · intro r hr
    rcases List.mem_cons.1 hr with rfl | hr
    · exact hi
    · rcases List.mem_append.1 hr with hr | hr
      · rcases List.mem_append.1 hr with hr | hr
        · exact s2 r hr
        · exact e2 r hr
      · rw [List.mem_range'_1] at hr
        have hb : E.1 ≤ alns.length := by
          rw [e1]
          have := takeWhile_length_le
            (fun a => decide (a.abpos < (aget alns i).aepos + max_gap)) (alns.drop S.1)
          rw [List.length_drop] at this
          omega
        omega

theorem gap_scan_eq_flatMap (min_gap max_gap max_ovl : Int) (l : List aln_t) :
    gap_scan min_gap max_gap max_ovl l =
      (List.range l.length).flatMap
        (fun i => gap_scan_from min_gap max_gap max_ovl (aget l i) (l.drop (i + 1))) := by
  induction l with
  | nil => rfl
  | cons x xs ih =>
    rw [List.length_cons, List.range_succ_eq_map, List.flatMap_cons, List.flatMap_map]
    simp only [gap_scan, ih, aget_cons_zero, List.drop_succ_cons, List.drop_zero,
      Function.comp, aget_cons_succ]

theorem gap_core_scan_eq (min_gap max_gap max_ovl : Int) (alns : List aln_t) :
    (gap_core_scan min_gap max_gap max_ovl alns alns.length).1 =
        gap_scan min_gap max_gap max_ovl alns ∧
      ∀ r ∈ (gap_core_scan min_gap max_gap max_ovl alns alns.length).2, r < alns.length := by
  unfold gap_core_scan
  constructor
  · rw [gap_scan_eq_flatMap]
    simp only
    apply List.flatMap_congr
    intro i hi
    exact (gap_core_row_eq min_gap max_gap max_ovl alns i (List.mem_range.1 hi)).1
  · intro r hr
    simp only [List.mem_flatMap, List.mem_range] at hr
    obtain ⟨i, hi, hr⟩ := hr
    exact (gap_core_row_eq min_gap max_gap max_ovl alns i hi).2 r hr

/-- C28. For every range that `align_gaps` pushes, decoded as `gap_core` decodes
it into an offset and a length `naln`: `offset + naln` does not exceed the
record count, so the `memcpy` reads inside the array, and `naln <= m`; the
group copied has `naln` records and the sentinel-bounded copy `naln + 2`, which
fit the `m + 2` slots of the scratch array; the scan with indices over those
`naln + 2` records pushes the candidate buffer of the task, and every index it
reads is below `naln + 2`. -/
theorem gap_core_scratch_bounds (min_gap max_gap max_ovl : Int) (qlen tlen : Int → Int)
    (alns : List aln_t) (range : Nat) (hr : range ∈ (align_gaps_ranges alns).1) :
    range_offset range + range_len range ≤ alns.length ∧
    range_len range ≤ (align_gaps_ranges alns).2 ∧
    (gap_core_group alns range).length = range_len range ∧
    (gap_array (gap_core_group alns range)
      (qlen (aget (gap_core_group alns range) 0).aread)
      (tlen (aget (gap_core_group alns range) 0).bread)).length = range_len range + 2 ∧
    range_len range + 2 ≤ (align_gaps_ranges alns).2 + 2 ∧
    (gap_core_scan min_gap max_gap max_ovl
      (gap_array (gap_core_group alns range)
        (qlen (aget (gap_core_group alns range) 0).aread)
        (tlen (aget (gap_core_group alns range) 0).bread))
      (range_len range + 2)).1 =
      gap_core_buffer min_gap max_gap max_ovl qlen tlen alns range ∧
    ∀ r ∈ (gap_core_scan min_gap max_gap max_ovl
      (gap_array (gap_core_group alns range)
        (qlen (aget (gap_core_group alns range) 0).aread)
        (tlen (aget (gap_core_group alns range) 0).bread))
      (range_len range + 2)).2, r < range_len range + 2 := by
  have hs : (range_offset range, range_len range) ∈ align_gaps_spans alns := by
    unfold align_gaps_spans
    exact List.mem_map.2 ⟨range, hr, rfl⟩
  obtain ⟨b1, b2⟩ := align_gaps_spans_bounds alns _ hs
  simp only at b1 b2
  have hg : (gap_core_group alns range).length = range_len range := by
    unfold gap_core_group
    rw [List.length_take, List.length_drop]
    omega
  have ha : ∀ alen blen : Int,
      (gap_array (gap_core_group alns range) alen blen).length = range_len range + 2 := by
    intro alen blen
    unfold gap_array
    simp only [List.length_cons, List.length_append, List.length_nil, hg]
  refine ⟨b1, b2, hg, ha _ _, by omega, ?_, ?_⟩
  · rw [← ha (qlen (aget (gap_core_group alns range) 0).aread)
      (tlen (aget (gap_core_group alns range) 0).bread)]
    exact (gap_core_scan_eq min_gap max_gap max_ovl _).1
  · rw [← ha (qlen (aget (gap_core_group alns range) 0).aread)
      (tlen (aget (gap_core_group alns range) 0).bread)]
    exact (gap_core_scan_eq min_gap max_gap max_ovl _).2

theorem gap_core_scratch_bounds_witness :
    (align_gaps_ranges
      [⟨0, 0, 0, 100, 0, 100, 100⟩, ⟨0, 0, 600, 700, 600, 700, 100⟩,
        ⟨0, 1, 0, 1, 0, 1, 1⟩]) = ([2, 8589934593], 2) ∧
    range_offset 8589934593 = 2 ∧ range_len 8589934593 = 1 ∧
    (gap_core_scan 100 1000 100
      (gap_array [⟨0, 0, 0, 100, 0, 100, 100⟩, ⟨0, 0, 600, 700, 600, 700, 100⟩] 1000 1000)
      4).2 = [0, 1, 2, 2, 3, 2, 1, 2, 2, 3, 2, 3, 2, 3, 3, 3, 3] ∧
    ∀ r ∈ (gap_core_scan 100 1000 100
      (gap_array
        (gap_core_group
          [⟨0, 0, 0, 100, 0, 100, 100⟩, ⟨0, 0, 600, 700, 600, 700, 100⟩,
            ⟨0, 1, 0, 1, 0, 1, 1⟩] 2)
        ((fun _ => 1000)
          (aget (gap_core_group
            [⟨0, 0, 0, 100, 0, 100, 100⟩, ⟨0, 0, 600, 700, 600, 700, 100⟩,
              ⟨0, 1, 0, 1, 0, 1, 1⟩] 2) 0).aread)
        ((fun _ => 1000)
          (aget (gap_core_group
            [⟨0, 0, 0, 100, 0, 100, 100⟩, ⟨0, 0, 600, 700, 600, 700, 100⟩,
              ⟨0, 1, 0, 1, 0, 1, 1⟩] 2) 0).bread))
      (range_len 2 + 2)).2, r < range_len 2 + 2 :=
  ⟨by decide, by decide, by decide, by decide,
    (gap_core_scratch_bounds 100 1000 100 (fun _ => 1000) (fun _ => 1000)
      [⟨0, 0, 0, 100, 0, 100, 100⟩, ⟨0, 0, 600, 700, 600, 700, 100⟩, ⟨0, 1, 0, 1, 0, 1, 1⟩]
      2 (by decide)).2.2.2.2.2.2⟩

/-! ## The interval check of the harness -/

/-- The record is appended exactly when the line has six fields, both names are
known and none of the four tests of the sanity check fires, the two sums
being `int64` sums. -/
theorem main_read_interval_pushed (qlens tlens : Nat → Int) (intervals : List interval_t)
    (fields : Int) (qsid tsid : Nat) (qbeg qend tbeg tend qbol qeol tbol teol : Int) :
    main_read_interval qlens tlens intervals fields qsid tsid qbeg qend tbeg tend
        qbol qeol tbol teol =
      some (intervals ++ [⟨qsid, tsid, qbeg, qend, tbeg, tend, qbol, qeol, tbol, teol⟩]) ↔
    6 ≤ fields ∧ qsid ≠ UINT32_MAX ∧ tsid ≠ UINT32_MAX ∧
      qbol ≤ qbeg ∧ toInt64 (qend + qeol) ≤ qlens qsid ∧ tbol ≤ tbeg ∧
      toInt64 (tend + teol) ≤ tlens tsid := by
  unfold main_read_interval
  simp only
  generalize toInt64 (qend + qeol) = sq
  generalize toInt64 (tend + teol) = st
  split_ifs with h1 h2 h3 h4
  · simp only [Option.some.injEq, List.self_eq_append_right, List.cons_ne_nil, false_iff]
    omega
  · simp only [false_iff]; tauto
  · simp only [false_iff]; tauto
  · simp only [Option.some.injEq, List.self_eq_append_right, List.cons_ne_nil, false_iff]
    omega
  · simp only [true_iff]
    refine ⟨by omega, h2, h3, ?_⟩
    omega

/-- With flanks that are not negative, `begin <= end` on both axes and the
two sums `end + flank` below `2^63`, a record that is appended has all four
coordinates inside its sequences. -/
theorem main_read_interval_in_range (qlens tlens : Nat → Int) (intervals : List interval_t)
    (fields : Int) (qsid tsid : Nat) (qbeg qend tbeg tend qbol qeol tbol teol : Int)
    (hf : 0 ≤ qbol ∧ 0 ≤ qeol ∧ 0 ≤ tbol ∧ 0 ≤ teol) (hq : qbeg ≤ qend) (ht : tbeg ≤ tend)
    (hs : qend + qeol < 9223372036854775808 ∧ tend + teol < 9223372036854775808)
    (h : main_read_interval qlens tlens intervals fields qsid tsid qbeg qend tbeg tend
        qbol qeol tbol teol =
      some (intervals ++ [⟨qsid, tsid, qbeg, qend, tbeg, tend, qbol, qeol, tbol, teol⟩])) :
    (0 ≤ qbeg ∧ qbeg ≤ qlens qsid) ∧ (0 ≤ qend ∧ qend ≤ qlens qsid) ∧
      (0 ≤ tbeg ∧ tbeg ≤ tlens tsid) ∧ (0 ≤ tend ∧ tend ≤ tlens tsid) := by
  rw [main_read_interval_pushed] at h
  obtain ⟨_, _, _, h4, h5, h6, h7⟩ := h
  rw [toInt64_of_int64_range (qend + qeol) (by omega) (by omega)] at h5
  rw [toInt64_of_int64_range (tend + teol) (by omega) (by omega)] at h7
  omega

theorem main_read_interval_in_range_witness :
    (0 ≤ (100 : Int) ∧ (100 : Int) ≤ (fun _ => (1000 : Int)) 0) ∧
      (0 ≤ (500 : Int) ∧ (500 : Int) ≤ (fun _ => (1000 : Int)) 0) ∧
      (0 ≤ (0 : Int) ∧ (0 : Int) ≤ (fun _ => (1000 : Int)) 0) ∧
      (0 ≤ (100 : Int) ∧ (100 : Int) ≤ (fun _ => (1000 : Int)) 0) :=
  main_read_interval_in_range (fun _ => 1000) (fun _ => 1000) [] 6 0 0 100 500 0 100 0 0 0 0
    (by decide) (by decide) (by decide) (by decide) (by decide)

/-- C24. The sanity check of `main` lets records through that declare a
coordinate outside the sequence.  With both sequences of length 1000 and no
flank fields: the record `q_begin = 2000, q_end = 500` is appended although
`2000` is outside `[0, 1000]`; the record `q_begin = 0, q_end = -5` is appended
although `-5` is outside; and so is the record `t_begin = 3000, t_end = 7`.
The check tests `begin < flank` and `end + flank > length` only. -/
theorem main_keeps_out_of_range_interval :
    main_read_interval (fun _ => 1000) (fun _ => 1000) [] 6 0 0 2000 500 0 100 0 0 0 0 =
      some [⟨0, 0, 2000, 500, 0, 100, 0, 0, 0, 0⟩] ∧
    ¬ ((0 : Int) ≤ 2000 ∧ (2000 : Int) ≤ (fun _ => (1000 : Int)) 0) ∧
    main_read_interval (fun _ => 1000) (fun _ => 1000) [] 6 0 0 0 (-5) 0 100 0 0 0 0 =
      some [⟨0, 0, 0, -5, 0, 100, 0, 0, 0, 0⟩] ∧
    ¬ ((0 : Int) ≤ -5 ∧ (-5 : Int) ≤ (fun _ => (1000 : Int)) 0) ∧
    main_read_interval (fun _ => 1000) (fun _ => 1000) [] 6 0 0 0 100 3000 7 0 0 0 0 =
      some [⟨0, 0, 0, 100, 3000, 7, 0, 0, 0, 0⟩] ∧
    ¬ ((0 : Int) ≤ 3000 ∧ (3000 : Int) ≤ (fun _ => (1000 : Int)) 0) := by
  refine ⟨by decide, by decide, by decide, by decide, by decide, by decide⟩

/-! ## The coordinate rewrite of the harness -/

theorem set_append_mid (pre post : List Char) (x c : Char) :
    (pre ++ x :: post).set pre.length c = pre ++ c :: post := by
  induction pre with
  | nil => rfl
  | cons a pre ih => simp [List.set, ih]

theorem getElem?_append_mid (pre post : List Char) (x : Char) :
    (pre ++ x :: post)[pre.length]? = some x := by
  induction pre with
  | nil => simp
  | cons a pre ih => simpa using ih

theorem cstring_field (pre f post : List Char) (hf : ∀ c ∈ f, c ≠ '\x00') :
    cstring (pre ++ (f ++ '\x00' :: post)) pre.length = some f := by
  unfold cstring
  rw [List.drop_left]
  rw [if_pos (by simp)]
  congr 1
  induction f with
  | nil => simp
  | cons c f ih =>
    have hc : c ≠ '\x00' := hf c (List.mem_cons_self _ _)
    simp only [List.cons_append, List.takeWhile_cons, ne_eq, hc, not_false_eq_true,
      decide_True, if_true, List.cons.injEq, true_and]
    exact ih (fun d hd => hf d (List.mem_cons_of_mem _ hd))

theorem paf_loop_scan (l : Nat) (qlen qbeg tlen tbeg : Int) (f : List Char) :
    ∀ (pre post : List Char) (x : Char) (n t : Nat) (q : Option Nat) (out : List Char),
      (∀ c ∈ f, c ≠ '\t') → (x = '\t' ∨ l ≤ pre.length + f.length) →
      pre.length + f.length ≤ l →
      paf_parse1_loop l qlen qbeg tlen tbeg (f.length + (n + 1)) pre.length t q
          (pre ++ (f ++ x :: post)) out =
        paf_field_end (paf_parse1_loop l qlen qbeg tlen tbeg n) l qlen qbeg tlen tbeg
          (pre.length + f.length) t q (pre ++ (f ++ x :: post)) out := by
  induction f with
  | nil =>
    intro pre post x n t q out _ hx hl
    simp only [List.length_nil, Nat.zero_add, Nat.add_zero, List.nil_append] at hx hl ⊢
    unfold paf_parse1_loop
    by_cases hlt : pre.length < l
    · rw [if_pos hlt, getElem?_append_mid]
      have hxt : x = '\t' := by
        rcases hx with h | h
        · exact h
        · omega
      simp only [hxt, ne_eq, not_true_eq_false, if_false]
    · rw [if_neg hlt]
  | cons c f ih =>
    intro pre post x n t q out hf hx hl
    have hc : c ≠ '\t' := hf c (List.mem_cons_self _ _)
    have hfuel : (c :: f).length + (n + 1) = (f.length + (n + 1)) + 1 := by
      simp only [List.length_cons]; omega
    rw [hfuel]
    unfold paf_parse1_loop
    simp only [List.length_cons] at hx hl
    have hlt : pre.length < l := by omega
    rw [if_pos hlt]
    have e1 : (pre ++ (c :: f ++ x :: post))[pre.length]? = some c := by
      rw [List.cons_append]
      exact getElem?_append_mid pre _ c
    rw [e1]
    simp only [ne_eq, hc, not_false_eq_true, if_true]
    have e2 : pre ++ (c :: f ++ x :: post) = (pre ++ [c]) ++ (f ++ x :: post) := by simp
    have e3 : pre.length + 1 = (pre ++ [c]).length := by simp
    have e4 : pre.length + (c :: f).length = (pre ++ [c]).length + f.length := by
      simp only [List.length_cons, List.length_append, List.length_nil]; omega
    rw [e2, e3, e4]
    apply ih
    · exact fun d hd => hf d (List.mem_cons_of_mem _ hd)
    · rcases hx with h | h
      · exact Or.inl h
      · right; simp only [List.length_append, List.length_cons, List.length_nil]; omega
    · simp only [List.length_append, List.length_cons, List.length_nil]; omega

theorem paf_field_step (l : Nat) (qlen qbeg tlen tbeg : Int) (pre f post : List Char)
    (n t : Nat) (out : List Char) (ht : t < 9)
    (hf : ∀ c ∈ f, c ≠ '\t' ∧ c ≠ '\x00') (hl : pre.length + f.length < l) :
    paf_parse1_loop l qlen qbeg tlen tbeg (f.length + (n + 1)) pre.length t (some pre.length)
        (pre ++ (f ++ '\t' :: post)) out =
      paf_parse1_loop l qlen qbeg tlen tbeg n (pre.length + f.length + 1) (t + 1)
        (some (pre.length + f.length + 1)) (pre ++ (f ++ '\x00' :: post))
        (out ++ rewritten_field qlen qbeg tlen tbeg t f ++ ['\t']) := by
  rw [paf_loop_scan l qlen qbeg tlen tbeg f pre post '\t' n t _ out (fun c hc => (hf c hc).1)
    (Or.inl rfl) (by omega)]
  unfold paf_field_end
  have hlen : pre.length + f.length < (pre ++ (f ++ '\t' :: post)).length := by
    simp only [List.length_append, List.length_cons]; omega
  rw [if_pos hlen]
  have hset : (pre ++ (f ++ '\t' :: post)).set (pre.length + f.length) '\x00' =
      pre ++ (f ++ '\x00' :: post) := by
    have := set_append_mid (pre ++ f) post '\t' '\x00'
    simpa only [List.length_append, List.append_assoc] using this
  simp only [hset, if_pos hl, Option.bind_eq_bind, Option.some_bind,
    cstring_field pre f post (fun c hc => (hf c hc).2)]
  unfold rewritten_field
  interval_cases t <;> simp

theorem paf_field_last (l : Nat) (qlen qbeg tlen tbeg : Int) (pre f post : List Char)
    (rest : List Char) (x : Char) (n : Nat) (out : List Char)
    (hf : ∀ c ∈ f, c ≠ '\t' ∧ c ≠ '\x00') (hrest : ∀ c ∈ rest, c ≠ '\x00')
    (hx : (x = '\t' ∧ pre.length + f.length < l) ∨ pre.length + f.length = l) :
    paf_parse1_loop l qlen qbeg tlen tbeg (f.length + (n + 1)) pre.length 9 (some pre.length)
        (pre ++ (f ++ x :: (rest ++ '\x00' :: post))) out =
      some (0, pre ++ (f ++ '\t' :: (rest ++ '\x00' :: post)),
        out ++ (f ++ '\t' :: rest) ++ ['\n']) := by
  rw [paf_loop_scan l qlen qbeg tlen tbeg f pre _ x n 9 _ out (fun c hc => (hf c hc).1)
    (by rcases hx with h | h
        · exact Or.inl h.1
        · exact Or.inr (by omega))
    (by rcases hx with h | h <;> omega)]
  unfold paf_field_end
  have hlen : pre.length + f.length < (pre ++ (f ++ x :: (rest ++ '\x00' :: post))).length := by
    simp only [List.length_append, List.length_cons]; omega
  rw [if_pos hlen]
  have hset : ∀ y z : Char, (pre ++ (f ++ y :: (rest ++ '\x00' :: post))).set
      (pre.length + f.length) z = pre ++ (f ++ z :: (rest ++ '\x00' :: post)) := by
    intro y z
    have := set_append_mid (pre ++ f) (rest ++ '\x00' :: post) y z
    simpa only [List.length_append, List.append_assoc] using this
  have hcs : cstring (pre ++ (f ++ '\t' :: (rest ++ '\x00' :: post))) pre.length =
      some (f ++ '\t' :: rest) := by
    have := cstring_field pre (f ++ '\t' :: rest) post (by
      intro c hc
      rcases List.mem_append.1 hc with h | h
      · exact (hf c h).2
      · rcases List.mem_cons.1 h with h | h
        · rw [h]; decide
        · exact hrest c h)
    simpa only [List.append_assoc, List.cons_append] using this
  simp only [hset, Option.bind_eq_bind, Option.some_bind, hcs]
  simp

theorem paf_fields_steps (l : Nat) (qlen qbeg tlen tbeg : Int) (fs : List (List Char)) :
    ∀ (pre post out : List Char) (t n : Nat), t + fs.length ≤ 9 →
      (∀ f ∈ fs, ∀ c ∈ f, c ≠ '\t' ∧ c ≠ '\x00') →
      pre.length + (fields_text '\t' fs).length ≤ l →
      paf_parse1_loop l qlen qbeg tlen tbeg ((fields_text '\t' fs).length + n) pre.length t
          (some pre.length) (pre ++ (fields_text '\t' fs ++ post)) out =
        paf_parse1_loop l qlen qbeg tlen tbeg n (pre.length + (fields_text '\t' fs).length)
          (t + fs.length) (some (pre.length + (fields_text '\t' fs).length))
          (pre ++ (fields_text '\x00' fs ++ post))
          (out ++ rewritten_fields qlen qbeg tlen tbeg t fs) := by
  induction fs with
  | nil =>
    intro pre post out t n _ _ _
    simp [fields_text, rewritten_fields]
  | cons f fs ih =>
    intro pre post out t n ht hf hl
    simp only [List.length_cons] at ht
    simp only [fields_text, List.length_append, List.length_cons] at hl
    have hfuel : (fields_text '\t' (f :: fs)).length + n =
        f.length + (((fields_text '\t' fs).length + n) + 1) := by
      simp only [fields_text, List.length_append, List.length_cons]; omega
    rw [hfuel]
    have hs : pre ++ (fields_text '\t' (f :: fs) ++ post) =
        pre ++ (f ++ '\t' :: (fields_text '\t' fs ++ post)) := by
      simp [fields_text]
    rw [hs, paf_field_step l qlen qbeg tlen tbeg pre f _ _ t out (by omega)
      (hf f (List.mem_cons_self _ _)) (by omega)]
    have e1 : pre ++ (f ++ '\x00' :: (fields_text '\t' fs ++ post)) =
        (pre ++ (f ++ ['\x00'])) ++ (fields_text '\t' fs ++ post) := by simp
    have e2 : pre.length + f.length + 1 = (pre ++ (f ++ ['\x00'])).length := by
      simp only [List.length_append, List.length_cons, List.length_nil]; omega
    rw [e1, e2, ih (pre ++ (f ++ ['\x00'])) post _ (t + 1) n (by omega)
      (fun g hg => hf g (List.mem_cons_of_mem _ hg))
      (by simp only [List.length_append, List.length_cons, List.length_nil]; omega)]
    have e3 : (pre ++ (f ++ ['\x00'])).length + (fields_text '\t' fs).length =
        pre.length + (fields_text '\t' (f :: fs)).length := by
      simp only [fields_text, List.length_append, List.length_cons, List.length_nil]; omega
    have e4 : t + 1 + fs.length = t + (f :: fs).length := by
      simp only [List.length_cons]; omega
    rw [e3, e4]
    simp [fields_text, rewritten_fields]

theorem paf_parse1_fields (qlen qbeg tlen tbeg : Int) (fs : List (List Char))
    (f9 rest tail out : List Char) (x : Char) (hlen : fs.length = 9)
    (hfs : ∀ f ∈ fs, ∀ c ∈ f, c ≠ '\t' ∧ c ≠ '\x00')
    (hf9 : ∀ c ∈ f9, c ≠ '\t' ∧ c ≠ '\x00') (hrest : ∀ c ∈ rest, c ≠ '\x00')
    (hfirst : ∃ c r, fields_text '\t' fs = c :: r ∧ isspace c = false)
    (l : Nat)
    (hx : (x = '\t' ∧ l = (fields_text '\t' fs ++ (f9 ++ '\t' :: rest)).length) ∨
      l = (fields_text '\t' fs ++ f9).length) :
    paf_parse1 l (fields_text '\t' fs ++ (f9 ++ x :: (rest ++ '\x00' :: tail)))
        qlen qbeg tlen tbeg out =
      some (0, fields_text '\x00' fs ++ (f9 ++ '\t' :: (rest ++ '\x00' :: tail)),
        out ++ rewritten_fields qlen qbeg tlen tbeg 0 fs ++ (f9 ++ '\t' :: rest) ++ ['\n']) := by
  obtain ⟨c, r, hc, hsp⟩ := hfirst
  have hc0 : c ≠ '\x00' := by
    cases fs with
    | nil => simp at hlen
    | cons f fs1 =>
      cases f with
      | nil =>
        simp only [fields_text, List.nil_append, List.cons.injEq] at hc
        rw [← hc.1] at hsp
        exact absurd hsp (by decide)
      | cons d f1 =>
        simp only [fields_text, List.cons_append, List.cons.injEq] at hc
        rw [← hc.1]
        exact (hfs (d :: f1) (List.mem_cons_self _ _) d (List.mem_cons_self _ _)).2
  unfold paf_parse1
  have hd : (fields_text '\t' fs ++ (f9 ++ x :: (rest ++ '\x00' :: tail))).dropWhile isspace =
      c :: (r ++ (f9 ++ x :: (rest ++ '\x00' :: tail))) := by
    rw [hc, List.cons_append, List.dropWhile_cons_of_neg (by rw [hsp]; decide)]
  rw [hd]
  simp only [hc0, if_false]
  rw [← List.cons_append, ← hc]
  have hl : (fields_text '\t' fs).length + f9.length ≤ l := by
    rcases hx with h | h
    · rw [h.2]; simp only [List.length_append, List.length_cons]; omega
    · rw [h]; simp only [List.length_append]; omega
  obtain ⟨n, hn⟩ : ∃ n, l + 1 = (fields_text '\t' fs).length + (f9.length + (n + 1)) :=
    ⟨l - ((fields_text '\t' fs).length + f9.length), by omega⟩
  rw [hn]
  have h1 := paf_fields_steps l qlen qbeg tlen tbeg fs [] (f9 ++ x :: (rest ++ '\x00' :: tail))
    out 0 (f9.length + (n + 1)) (by omega) hfs (by simp only [List.length_nil]; omega)
  simp only [List.length_nil, Nat.zero_add, List.nil_append] at h1
  rw [h1, hlen]
  have h2 := paf_field_last l qlen qbeg tlen tbeg (fields_text '\x00' fs) f9 tail rest x n
    (out ++ rewritten_fields qlen qbeg tlen tbeg 0 fs) hf9 hrest
  have hz : ∀ (a b : Char) (gs : List (List Char)),
      (fields_text a gs).length = (fields_text b gs).length := by
    intro a b gs
    induction gs with
    | nil => rfl
    | cons g gs ih => simp [fields_text, ih]
  rw [hz '\x00' '\t' fs] at h2
  rw [h2]
  rcases hx with h | h
  · left
    refine ⟨h.1, ?_⟩
    rw [h.2]; simp only [List.length_append, List.length_cons]; omega
  · right
    rw [h]; simp only [List.length_append]

/-- A line of at least 11 fields is rewritten as field 0, `qlen`, field 2 +
`qbeg`, field 3 + `qbeg`, field 4, field 5, `tlen`, field 7 + `tbeg`, field 8 +
`tbeg` (the four sums being `int64` sums), then the input from field 9 on, and
the function returns 0.  The fields
`f0 .. f9` hold no tab and no NUL, `rest` is the text after the tenth tab, and
the buffer holds the line, its terminator and whatever follows. -/
theorem paf_parse1_rewrite (qlen qbeg tlen tbeg : Int)
    (f0 f1 f2 f3 f4 f5 f6 f7 f8 f9 rest tail out : List Char)
    (hfs : ∀ f ∈ [f0, f1, f2, f3, f4, f5, f6, f7, f8, f9], ∀ c ∈ f, c ≠ '\t' ∧ c ≠ '\x00')
    (hrest : ∀ c ∈ rest, c ≠ '\x00')
    (hfirst : ∃ c r, f0 = c :: r ∧ isspace c = false) :
    (paf_parse1
      (f0 ++ '\t' :: (f1 ++ '\t' :: (f2 ++ '\t' :: (f3 ++ '\t' :: (f4 ++ '\t' :: (f5 ++ '\t' ::
        (f6 ++ '\t' :: (f7 ++ '\t' :: (f8 ++ '\t' :: (f9 ++ '\t' :: rest)))))))))).length
      (f0 ++ '\t' :: (f1 ++ '\t' :: (f2 ++ '\t' :: (f3 ++ '\t' :: (f4 ++ '\t' :: (f5 ++ '\t' ::
        (f6 ++ '\t' :: (f7 ++ '\t' :: (f8 ++ '\t' ::
          (f9 ++ '\t' :: (rest ++ '\x00' :: tail)))))))))))
      qlen qbeg tlen tbeg out).map (fun r => (r.1, r.2.2)) =
    some (0, out ++ (f0 ++ '\t' :: (print_lld qlen ++ '\t' ::
      (print_lld (toInt64 (strtol f2 + qbeg)) ++ '\t' ::
      (print_lld (toInt64 (strtol f3 + qbeg)) ++ '\t' ::
      (f4 ++ '\t' :: (f5 ++ '\t' :: (print_lld tlen ++ '\t' ::
      (print_lld (toInt64 (strtol f7 + tbeg)) ++ '\t' ::
      (print_lld (toInt64 (strtol f8 + tbeg)) ++ '\t' ::
      (f9 ++ '\t' :: (rest ++ ['\n'])))))))))))) := by
  obtain ⟨c, r, hc, hsp⟩ := hfirst
  have h := paf_parse1_fields qlen qbeg tlen tbeg [f0, f1, f2, f3, f4, f5, f6, f7, f8]
    f9 rest tail out '\t' rfl
    (fun f hf => hfs f (by
      simp only [List.mem_cons, List.mem_singleton, List.mem_nil_iff, or_false] at hf ⊢
      tauto))
    (hfs f9 (by simp)) hrest
    ⟨c, r ++ '\t' :: fields_text '\t' [f1, f2, f3, f4, f5, f6, f7, f8], by
        simp only [fields_text, hc, List.cons_append], hsp⟩
    _ (Or.inl ⟨rfl, rfl⟩)
  simp only [fields_text, List.append_nil, List.append_assoc, List.cons_append,
    List.nil_append] at h
  rw [h]
  simp [rewritten_fields, rewritten_field]

theorem paf_parse1_rewrite_witness :
    (paf_parse1 34 ("q\t9\t1\t5\t+\tt\t8\t2\t6\t4\tcg:Z:4M\ttp:A:P\x00".toList)
      100 10 200 20 []).map (fun r => (r.1, r.2.2)) =
    some (0, "q\t100\t11\t15\t+\tt\t200\t22\t26\t4\tcg:Z:4M\ttp:A:P\n".toList) :=
  (paf_parse1_rewrite 100 10 200 20 "q".toList "9".toList "1".toList "5".toList "+".toList
    "t".toList "8".toList "2".toList "6".toList "4".toList "cg:Z:4M\ttp:A:P".toList [] []
    (by decide) (by decide) ⟨'q', [], rfl, by decide⟩).trans (by decide)

/-- A line of exactly ten fields: the terminator of the line is overwritten by
a tab, and what is written for field 9 runs on through the bytes `garbage`
that follow the line in the buffer, up to the next NUL. -/
theorem paf_parse1_ten_fields (qlen qbeg tlen tbeg : Int) (fs : List (List Char))
    (f9 garbage tail out : List Char) (hlen : fs.length = 9)
    (hfs : ∀ f ∈ fs, ∀ c ∈ f, c ≠ '\t' ∧ c ≠ '\x00')
    (hf9 : ∀ c ∈ f9, c ≠ '\t' ∧ c ≠ '\x00') (hg : ∀ c ∈ garbage, c ≠ '\x00')
    (hfirst : ∃ c r, fields_text '\t' fs = c :: r ∧ isspace c = false) :
    paf_parse1 (fields_text '\t' fs ++ f9).length
        (fields_text '\t' fs ++ (f9 ++ '\x00' :: (garbage ++ '\x00' :: tail)))
        qlen qbeg tlen tbeg out =
      some (0, fields_text '\x00' fs ++ (f9 ++ '\t' :: (garbage ++ '\x00' :: tail)),
        out ++ rewritten_fields qlen qbeg tlen tbeg 0 fs ++ (f9 ++ '\t' :: garbage) ++ ['\n']) ∧
    out ++ rewritten_fields qlen qbeg tlen tbeg 0 fs ++ (f9 ++ '\t' :: garbage) ++ ['\n'] ≠
      out ++ rewritten_fields qlen qbeg tlen tbeg 0 fs ++ f9 ++ ['\n'] := by
  refine ⟨paf_parse1_fields qlen qbeg tlen tbeg fs f9 garbage tail out '\x00' hlen hfs hf9 hg
    hfirst _ (Or.inr rfl), ?_⟩
  intro h
  simp only [List.append_assoc, List.append_cancel_left_eq, List.cons_append] at h
  have := congrArg List.length h
  simp at this

theorem paf_parse1_ten_fields_witness :
    paf_parse1 19 ("q\t9\t1\t5\t+\tt\t8\t2\t6\t4\x00\x00".toList) 100 10 200 20 [] =
      some (0, "q\x009\x001\x005\x00+\x00t\x008\x002\x006\x004\t\x00".toList,
        "q\t100\t11\t15\t+\tt\t200\t22\t26\t4\t\n".toList) :=
  (paf_parse1_ten_fields 100 10 200 20
    ["q".toList, "9".toList, "1".toList, "5".toList, "+".toList, "t".toList, "8".toList,
      "2".toList, "6".toList] "4".toList [] [] [] rfl (by decide) (by decide) (by decide)
    ⟨'q', "\t9\t1\t5\t+\tt\t8\t2\t6\t".toList, by decide, by decide⟩).1.trans (by decide)

/-- C25. A line of exactly ten fields is not rewritten as the claim says.  For
the line `q 9 1 5 + t 8 2 6 4` (tab-separated, 19 bytes) with `qlen = 100`,
`qbeg = 10`, `tlen = 200` and `tbeg = 20`, the buffer holding `xyz` after the
terminator of the line, as a longer line read before leaves it: the function
returns 0 and writes `q 100 11 15 + t 200 22 26 4`, then a tab and `xyz`,
then the newline, which is not the line the claim describes; and when no NUL
follows the terminator inside the buffer, the read leaves the buffer. -/
theorem paf_parse1_ten_field_line :
    paf_parse1 19 ("q\t9\t1\t5\t+\tt\t8\t2\t6\t4\x00xyz\x00".toList) 100 10 200 20 [] =
      some (0, "q\x009\x001\x005\x00+\x00t\x008\x002\x006\x004\txyz\x00".toList,
        "q\t100\t11\t15\t+\tt\t200\t22\t26\t4\txyz\n".toList) ∧
    "q\t100\t11\t15\t+\tt\t200\t22\t26\t4\txyz\n".toList ≠
      "q\t100\t11\t15\t+\tt\t200\t22\t26\t4\n".toList ∧
    paf_parse1 19 ("q\t9\t1\t5\t+\tt\t8\t2\t6\t4\x00".toList) 100 10 200 20 [] = none := by
  refine ⟨by decide, by decide, by decide⟩

end Alngap
